import Mathlib

/-!
Block-decimal big integers (`core::BigInt`)

A shallow embedding of `Lab2/Karatsuba/src/bigint.cpp`.

* A `std::vector<uint32_t>` is a `List Nat`, least-significant block first.
* `uint32_t` / `uint64_t` arithmetic is arithmetic on `Nat` reduced `% U32` / `% U64`
  at every place where the C++ expression is evaluated or narrowed in that width.
* `int64_t` arithmetic is arithmetic on `Int`; its operands are differences of
  `uint32_t` values, so it never leaves the 64-bit range.
* A counting loop `while (i < n) { ...; i += 1; }` is a function by structural
  recursion on the number of iterations still to run.
* An access outside a vector is undefined behaviour in C++; the one loop of the
  source whose index is not bounded by its guard (the trailing carry loop of
  `mul_abs`) reports it as `Error.undefined_behaviour`.
-/

namespace core

/-- The block base `BigInt::BASE`. -/
def BASE : Nat := 1000000000

/-- The decimal width of a block, `BigInt::BASE_DIGS`. -/
def BASE_DIGS : Nat := 9

/-- The block length from which multiplication switches strategy. -/
def KARATSUBA_THRESHOLD : Nat := 32

/-- Number of values of a `uint32_t`. -/
def U32 : Nat := 4294967296

/-- Number of values of a `uint64_t`. -/
def U64 : Nat := 18446744073709551616

/-- The ways in which an operation can fail to return a value. -/
inductive Error where
  | domain_error
  | invalid_argument
  | undefined_behaviour
  | out_of_fuel
  deriving DecidableEq

/-- The class `BigInt`: blocks `d` (least significant first) and the sign flag `neg`. -/
structure BigInt where
  d : List Nat
  neg : Bool
  deriving DecidableEq

/-- The default constructor `BigInt()`. -/
def BigInt.zero : BigInt := { d := [], neg := false }

/-- The lambda `trim_vec` of `div_mod`, also the first loop of `BigInt::trim`:
pop the back of the vector while it is a zero block. -/
def trim_vec (v : List Nat) : List Nat :=
  v.rdropWhile (fun x => x == 0)

/-- The method `BigInt::trim`. -/
def BigInt.trim (x : BigInt) : BigInt :=
  let d := trim_vec x.d
  { d := d, neg := if d.isEmpty then false else x.neg }

/-- The loop of `cmp_abs`; the argument is the counter `n` of the source. -/
def cmp_abs_loop (a b : List Nat) : Nat → Int
  | 0 => 0
  | n + 1 =>
    let x := a.getD n 0
    let y := b.getD n 0
    if x > y then 1
    else if x < y then -1
    else cmp_abs_loop a b n

/-- The function `BigInt::cmp_abs`. -/
def cmp_abs (a b : BigInt) : Int :=
  if a.d.length > b.d.length then 1
  else if a.d.length < b.d.length then -1
  else cmp_abs_loop a.d b.d a.d.length

/-- The loop of `add_abs`: `k` iterations remain, `i` is the index, `r` the buffer. -/
def add_abs_loop (a b : List Nat) : Nat → Nat → Nat → List Nat → List Nat × Nat
  | 0, _, carry, r => (r, carry)
  | k + 1, i, carry, r =>
    let x := if i < a.length then a.getD i 0 else 0
    let y := if i < b.length then b.getD i 0 else 0
    let s := (x + y + carry) % U64
    add_abs_loop a b k (i + 1) (s / BASE) (r.set i (s % BASE % U32))

/-- The function `BigInt::add_abs`. -/
def add_abs (a b : BigInt) : BigInt :=
  let n := a.d.length
  let m := b.d.length
  let sz := if n > m then n else m
  let out := add_abs_loop a.d b.d sz 0 0 (List.replicate sz 0)
  let rd := if out.2 > 0 then out.1 ++ [out.2 % U32] else out.1
  BigInt.trim { d := rd, neg := false }

/-- One borrow step shared by the bodies of `sub_abs` and `sub_inplace`:
from `x`, `y` and the incoming borrow, the stored block and the outgoing borrow. -/
def sub_step (x y : Nat) (carry : Int) : Nat × Int :=
  let s : Int := (x : Int) - (y : Int) - carry
  if s < 0 then (((s + (BASE : Int)) % (U32 : Int)).toNat, 1)
  else ((s % (U32 : Int)).toNat, 0)

/-- The loop of `sub_abs`: the buffer `r` and the borrow `carry` when it ends. -/
def sub_abs_loop (a b : List Nat) : Nat → Nat → Int → List Nat → List Nat × Int
  | 0, _, carry, r => (r, carry)
  | k + 1, i, carry, r =>
    let x := a.getD i 0
    let y := if i < b.length then b.getD i 0 else 0
    let st := sub_step x y carry
    sub_abs_loop a b k (i + 1) st.2 (r.set i st.1)

/-- The function `BigInt::sub_abs`. -/
def sub_abs (a b : BigInt) : BigInt :=
  let out := sub_abs_loop a.d b.d a.d.length 0 0 (List.replicate a.d.length 0)
  BigInt.trim { d := out.1, neg := false }

/-- The inner loop of `mul_abs` over `j`, for row `i` with `xi = a.d[i]`. -/
def mul_abs_inner (xi : Nat) (b : List Nat) (i : Nat) :
    Nat → Nat → Nat → List Nat → List Nat × Nat
  | 0, _, carry, r => (r, carry)
  | k + 1, j, carry, r =>
    let cur := (r.getD (i + j) 0 + (xi * b.getD j 0) % U64 + carry) % U64
    mul_abs_inner xi b i k (j + 1) (cur / BASE) (r.set (i + j) (cur % BASE % U32))

/-- The trailing loop `while (carry > 0)` of `mul_abs`.  The first argument is the
number of blocks of `r` from `pos` on: when none is left and the carry is still
positive, the source reads past the end of the buffer. -/
def mul_abs_carry : Nat → Nat → Nat → List Nat → Except Error (List Nat)
  | 0, _, carry, r => if carry > 0 then .error .undefined_behaviour else .ok r
  | k + 1, pos, carry, r =>
    if carry > 0 then
      if pos < r.length then
        let cur := (r.getD pos 0 + carry) % U64
        mul_abs_carry k (pos + 1) (cur / BASE) (r.set pos (cur % BASE % U32))
      else .error .undefined_behaviour
    else .ok r

/-- The outer loop of `mul_abs` over `i`. -/
def mul_abs_outer (a b : List Nat) : Nat → Nat → List Nat → Except Error (List Nat)
  | 0, _, r => .ok r
  | k + 1, i, r =>
    let row := mul_abs_inner (a.getD i 0) b i b.length 0 0 r
    match mul_abs_carry (row.1.length - (i + b.length)) (i + b.length) row.2 row.1 with
    | .error e => .error e
    | .ok r2 => mul_abs_outer a b k (i + 1) r2

/-- The function `BigInt::mul_abs`. -/
def mul_abs (a b : BigInt) : Except Error BigInt :=
  if a.d.isEmpty || b.d.isEmpty then .ok BigInt.zero
  else
    match mul_abs_outer a.d b.d a.d.length 0 (List.replicate (a.d.length + b.d.length) 0) with
    | .error e => .error e
    | .ok r => .ok (BigInt.trim { d := r, neg := false })

/-- The loop of `sub_inplace`: reads `x[i]`, then overwrites it. -/
def sub_inplace_loop (y : List Nat) : Nat → Nat → Int → List Nat → List Nat × Int
  | 0, _, carry, x => (x, carry)
  | k + 1, i, carry, x =>
    let a := x.getD i 0
    let b := if i < y.length then y.getD i 0 else 0
    let st := sub_step a b carry
    sub_inplace_loop y k (i + 1) st.2 (x.set i st.1)

/-- The function `BigInt::sub_inplace`: the returned flag and the final content of `x`. -/
def sub_inplace (x y : List Nat) : Bool × List Nat :=
  if x.length < y.length then (false, x)
  else
    let out := sub_inplace_loop y x.length 0 0 x
    if out.2 ≠ 0 then (false, out.1)
    else (true, trim_vec out.1)

/-- The scalar multiply loop of `div_mod` filling `prod` (over `j`). -/
def div_mod_prod_loop (b : List Nat) (mid : Nat) : Nat → Nat → Nat → List Nat → List Nat × Nat
  | 0, _, carry, prod => (prod, carry)
  | k + 1, j, carry, prod =>
    let cur := (((b.getD j 0) * mid) % U64 + carry) % U64
    div_mod_prod_loop b mid k (j + 1) (cur / BASE) (prod.set j (cur % BASE % U32))

/-- The block `prod = b * mid` of `div_mod` (written twice in the source, once for
`mid` inside the search and once for `best` after it): fill, store the carry, trim. -/
def div_mod_prod (b : List Nat) (mid : Nat) : List Nat :=
  let out := div_mod_prod_loop b mid b.length 0 0 (List.replicate (b.length + 1) 0)
  trim_vec (out.1.set b.length (out.2 % U32))

/-- The binary search `while (low <= high)` of `div_mod`.  The first argument bounds
the number of iterations; every iteration shrinks `high + 1 - low`, so a bound of
`high + 1 - low` is never exhausted while `low <= high`. -/
def div_mod_search (b r : List Nat) : Nat → Nat → Nat → Nat → Nat
  | 0, _, _, best => best
  | fuel + 1, low, high, best =>
    if low ≤ high then
      let mid := (low + ((high - low) % U32) / 2) % U32
      let prod := div_mod_prod b mid
      let ok := (sub_inplace r prod).1
      if ok then div_mod_search b r fuel ((mid + 1) % U32) high mid
      else if mid = 0 then best
      else div_mod_search b r fuel low ((mid - 1) % U32) best
    else best

/-- The main loop of `div_mod`; the argument `i + 1` is the counter `i` of the source,
so the block consumed is `a.d[i]`. -/
def div_mod_loop (a b : List Nat) : Nat → List Nat → List Nat → List Nat × List Nat
  | 0, q, r => (q, r)
  | i + 1, q, r =>
    let r1 := trim_vec ((0 :: r).set 0 (a.getD i 0))
    let best := div_mod_search b r1 BASE 0 (BASE - 1) 0
    let q1 := q.set i best
    let r2 := if best > 0 then (sub_inplace r1 (div_mod_prod b best)).2 else r1
    div_mod_loop a b i q1 r2

/-- The function `BigInt::div_mod`; the outputs `q` and `r` are returned as a pair. -/
def div_mod (a b : BigInt) : Except Error (BigInt × BigInt) :=
  if b.d.isEmpty then .error .domain_error
  else if a.d.isEmpty then .ok (BigInt.zero, BigInt.zero)
  else
    let cmp := cmp_abs a b
    if cmp < 0 then .ok (BigInt.zero, { d := a.d, neg := false })
    else if cmp = 0 then .ok ({ d := [1], neg := false }, BigInt.zero)
    else
      let out := div_mod_loop a.d b.d a.d.length (List.replicate a.d.length 0) []
      let q : BigInt := { d := trim_vec out.1, neg := false }
      let r : BigInt := { d := out.2, neg := false }
      .ok (q.trim, r.trim)

/-- The function `BigInt::split_at`; the outputs `low` and `high` are returned as a pair. -/
def split_at (a : BigInt) (k : Nat) : BigInt × BigInt :=
  if a.d.length ≤ k then ({ d := a.d, neg := false }, { d := [], neg := false })
  else
    (BigInt.trim { d := a.d.take k, neg := false },
     BigInt.trim { d := a.d.drop k, neg := false })

/-- The first loop of `shift_base_abs`: `r.d[i] = 0` for `i < k`. -/
def shift_base_abs_zero : Nat → Nat → List Nat → List Nat
  | 0, _, r => r
  | n + 1, i, r => shift_base_abs_zero n (i + 1) (r.set i 0)

/-- The second loop of `shift_base_abs`: `r.d[k + j] = a.d[j]`. -/
def shift_base_abs_copy (a : List Nat) (k : Nat) : Nat → Nat → List Nat → List Nat
  | 0, _, r => r
  | n + 1, j, r => shift_base_abs_copy a k n (j + 1) (r.set (k + j) (a.getD j 0))

/-- The function `BigInt::shift_base_abs`. -/
def shift_base_abs (a : BigInt) (k : Nat) : BigInt :=
  if a.d.isEmpty then BigInt.zero
  else
    let r0 := List.replicate (a.d.length + k) 0
    let r1 := shift_base_abs_zero k 0 r0
    let r2 := shift_base_abs_copy a.d k a.d.length 0 r1
    { d := r2, neg := false }

/-- The function `BigInt::mul_karatsuba_abs`, with a bound on the recursion depth
as first argument. -/
def mul_karatsuba_abs_fuel : Nat → BigInt → BigInt → Except Error BigInt
  | 0, _, _ => .error .out_of_fuel
  | fuel + 1, a, b =>
    let n := a.d.length
    let m := b.d.length
    if n = 0 ∨ m = 0 then .ok BigInt.zero
    else if n < KARATSUBA_THRESHOLD ∨ m < KARATSUBA_THRESHOLD then mul_abs a b
    else
      let k := if n > m then n else m
      let half := k / 2
      let xs := split_at a half
      let ys := split_at b half
      match mul_karatsuba_abs_fuel fuel xs.1 ys.1 with
      | .error e => .error e
      | .ok z0 =>
        match mul_karatsuba_abs_fuel fuel xs.2 ys.2 with
        | .error e => .error e
        | .ok z2 =>
          let sx := add_abs xs.1 xs.2
          let sy := add_abs ys.1 ys.2
          match mul_karatsuba_abs_fuel fuel sx sy with
          | .error e => .error e
          | .ok z1 =>
            let z1a := sub_abs z1 z0
            let z1b := sub_abs z1a z2
            let t1 := shift_base_abs z1b half
            let t2 := shift_base_abs z2 (2 * half)
            let r1 := add_abs t1 z0
            let r2 := add_abs t2 r1
            .ok (BigInt.trim { d := r2.d, neg := false })

/-- The function `BigInt::mul_karatsuba_abs`.  Every recursive call is on operands
whose larger block length is smaller, so a depth of `max n m + 1` is never exhausted. -/
def mul_karatsuba_abs (a b : BigInt) : Except Error BigInt :=
  mul_karatsuba_abs_fuel (max a.d.length b.d.length + 1) a b

/-- The operator `BigInt::operator+=`: the new value of the receiver `x`, for a
right operand `rhs` that is another object than the receiver.  That is every call
inside the library and `operator+`, whose `lhs` is a copy.  The first branch reads
`rhs.neg` after the receiver has been overwritten, so the call `x += x` is not an
instance of this function: it is `op_add_assign_self`. -/
def op_add_assign (x rhs : BigInt) : BigInt :=
  if x.neg = rhs.neg then
    { d := (add_abs x rhs).d, neg := rhs.neg }
  else
    let c := cmp_abs x rhs
    if c ≥ 0 then
      let t := sub_abs x rhs
      { d := t.d, neg := if t.d.isEmpty then false else t.neg }
    else
      { d := (sub_abs rhs x).d, neg := rhs.neg }

/-- The operator `BigInt::operator+=` called with the receiver itself as right
operand (`x += x`): the new value of the receiver.  Here `rhs` is `*this` at every
point of the body.  In the first branch `*this = add_abs(*this, rhs)` overwrites
the blocks and the flag of the receiver, and the statement `neg = rhs.neg` that
follows reads the flag just written.  In the branch of `c >= 0` the receiver is
overwritten by `sub_abs(*this, rhs)`; the last branch reads `rhs.neg` before the
receiver is written. -/
def op_add_assign_self (x : BigInt) : BigInt :=
  if x.neg = x.neg then
    let this1 := add_abs x x
    { d := this1.d, neg := this1.neg }
  else
    let c := cmp_abs x x
    if c ≥ 0 then
      let t := sub_abs x x
      { d := t.d, neg := if t.d.isEmpty then false else t.neg }
    else
      { d := (sub_abs x x).d, neg := x.neg }

/-- The operator `BigInt::operator-=`: the new value of the receiver `x`.  Every
branch saves or reads the flags before it writes the receiver, so the function is
also the call `x -= x`, with `rhs := x`. -/
def op_sub_assign (x rhs : BigInt) : BigInt :=
  if x.neg ≠ rhs.neg then
    let sign := x.neg
    { d := (add_abs x rhs).d, neg := sign }
  else
    let c := cmp_abs x rhs
    if c ≥ 0 then
      let sign := x.neg
      let t := sub_abs x rhs
      { d := t.d, neg := if t.d.isEmpty then false else sign }
    else
      { d := (sub_abs rhs x).d, neg := !x.neg }

/-- The operator `BigInt::operator*=`: the new value of the receiver `x`.  The sign
is computed and both operands are copied before the receiver is written, so the
function is also the call `x *= x`, with `rhs := x`. -/
def op_mul_assign (x rhs : BigInt) : Except Error BigInt :=
  let sign := (x.neg != rhs.neg)
  let aa : BigInt := { d := x.d, neg := false }
  let bb : BigInt := { d := rhs.d, neg := false }
  let n := aa.d.length
  let m := bb.d.length
  if n = 0 ∨ m = 0 then .ok BigInt.zero
  else
    match (if n ≥ KARATSUBA_THRESHOLD ∨ m ≥ KARATSUBA_THRESHOLD
           then mul_karatsuba_abs aa bb else mul_abs aa bb) with
    | .error e => .error e
    | .ok r => .ok { d := r.d, neg := (!r.d.isEmpty && sign) }

/-- The operator `BigInt::operator/=`: the new value of the receiver `x`.  Both
operands are copied and the flags read before the receiver is written, so the
function is also the call `x /= x`, with `rhs := x`. -/
def op_div_assign (x rhs : BigInt) : Except Error BigInt :=
  if rhs.d.isEmpty then .error .domain_error
  else
    match div_mod { d := x.d, neg := false } { d := rhs.d, neg := false } with
    | .error e => .error e
    | .ok qr =>
      .ok { d := qr.1.d, neg := if !qr.1.d.isEmpty then (x.neg != rhs.neg) else false }

/-- The operator `operator+(BigInt lhs, const BigInt &rhs)`: `lhs += rhs` on a copy. -/
def op_add (lhs rhs : BigInt) : BigInt := op_add_assign lhs rhs

/-- The operator `operator-(BigInt lhs, const BigInt &rhs)`: `lhs -= rhs` on a copy. -/
def op_sub (lhs rhs : BigInt) : BigInt := op_sub_assign lhs rhs

/-- The operator `operator*(BigInt lhs, const BigInt &rhs)`: `lhs *= rhs` on a copy. -/
def op_mul (lhs rhs : BigInt) : Except Error BigInt := op_mul_assign lhs rhs

/-- The operator `operator/(BigInt lhs, const BigInt &rhs)`: `lhs /= rhs` on a copy. -/
def op_div (lhs rhs : BigInt) : Except Error BigInt := op_div_assign lhs rhs

/-- The loop of `operator==` over the blocks. -/
def op_eq_loop (a b : List Nat) : Nat → Nat → Bool
  | 0, _ => true
  | k + 1, i => if a.getD i 0 ≠ b.getD i 0 then false else op_eq_loop a b k (i + 1)

/-- The operator `operator==`. -/
def op_eq (a b : BigInt) : Bool :=
  if a.neg ≠ b.neg then
    if a.d.isEmpty && b.d.isEmpty then true else false
  else if a.d.length ≠ b.d.length then false
  else op_eq_loop a.d b.d a.d.length 0

/-- The loop `while (v > 0)` of the constructor `BigInt(long long)` on the
non-negative `v`.  The first argument bounds the number of iterations; `v` decreases
in every iteration, so a bound of `v` is never exhausted while `v > 0`. -/
def ofLongLong_loop : Nat → Nat → List Nat → List Nat
  | 0, _, d => d
  | fuel + 1, v, d =>
    if v > 0 then ofLongLong_loop fuel (v / BASE) (d ++ [(v % BASE) % U32]) else d

/-- The part of the constructor `BigInt(long long)` after the sign has been taken
off: the block loop on `v ≥ 0`, then `trim`, with `neg` as it was set before. -/
def ofLongLong_tail (neg : Bool) (v : Nat) : BigInt :=
  BigInt.trim { d := ofLongLong_loop v v [], neg := neg }

/-- The constructor `BigInt(long long v)`, for `-2^63 ≤ v < 2^63`.  In the branch of
the most negative value the nested constructions `BigInt(q)`, `BigInt(10)` and
`BigInt(r)` are on non-negative arguments, so they are `ofLongLong_tail false`. -/
def BigInt.ofLongLong (v : Int) : Except Error BigInt :=
  if v < 0 then
    if v = -9223372036854775808 then
      let q0 := Int.tdiv v 10
      let r0 := Int.tmod v 10
      let q := if q0 < 0 then -q0 else q0
      let r := if r0 < 0 then -r0 else r0
      match op_mul (ofLongLong_tail false q.toNat) (ofLongLong_tail false 10) with
      | .error e => .error e
      | .ok p =>
        let t := op_add p (ofLongLong_tail false r.toNat)
        .ok { d := t.d, neg := true }
    else .ok (ofLongLong_tail true (-v).toNat)
  else .ok (ofLongLong_tail false v.toNat)

/-! ## Specification vocabulary -/

/-- The magnitude encoded by a block sequence: `Σ block[i] * BASE^i`. -/
def val : List Nat → Nat
  | [] => 0
  | x :: xs => x + BASE * val xs

/-- Every block lies in `[0, BASE)`. -/
def Blocks (d : List Nat) : Prop := ∀ x ∈ d, x < BASE

/-- There is no most-significant zero block. -/
def Trimmed (d : List Nat) : Prop := d.getLast? ≠ some 0

/-- A canonical magnitude: blocks in range and no most-significant zero block. -/
def CanonMag (d : List Nat) : Prop := Blocks d ∧ Trimmed d

/-- Canonical form of a `BigInt`: a canonical magnitude, and a non-negative sign
when the block sequence is empty. -/
def Canonical (x : BigInt) : Prop := CanonMag x.d ∧ (x.d = [] → x.neg = false)

/-- The integer denoted by a `BigInt`. -/
def value (x : BigInt) : Int := if x.neg then -((val x.d : Nat) : Int) else ((val x.d : Nat) : Int)

instance (d : List Nat) : Decidable (Blocks d) := by
  unfold Blocks; infer_instance

instance (d : List Nat) : Decidable (Trimmed d) := by
  unfold Trimmed; infer_instance

instance (d : List Nat) : Decidable (CanonMag d) := by
  unfold CanonMag; infer_instance

instance (x : BigInt) : Decidable (Canonical x) := by
  unfold Canonical; infer_instance

/-- The range of a 64-bit signed integer (`long long`). -/
def InLongLong (v : Int) : Prop := -9223372036854775808 ≤ v ∧ v < 9223372036854775808

instance (v : Int) : Decidable (InLongLong v) := by
  unfold InLongLong; infer_instance

/-! ## Ordering, and the class as built in `Lab2/FastPow`

`Lab2/FastPow/src/bigint.cpp` is the class `mod_exp` is linked with.  Its text is
that of `Lab2/Karatsuba/src/bigint.cpp` without `to_string` and the Karatsuba
functions, and with its own `operator*=`; every other function is the one
embedded above (its header is not among the sources; `BASE` is the `10^9` of the
other header). -/

/-- The operator `operator<`. -/
def op_lt (a b : BigInt) : Bool :=
  if a.neg ≠ b.neg then
    if a.neg then true else false
  else
    let c := cmp_abs a b
    if !a.neg then
      if c < 0 then true else false
    else
      if c > 0 then true else false

/-- The operator `operator>`: `b < a`. -/
def op_gt (a b : BigInt) : Bool := op_lt b a

/-- The operator `BigInt::operator*=` of `Lab2/FastPow/src/bigint.cpp`: always the
schoolbook `mul_abs`. -/
def fastpow_op_mul_assign (x rhs : BigInt) : Except Error BigInt :=
  let sign := if x.neg ≠ rhs.neg then true else false
  match mul_abs x rhs with
  | .error e => .error e
  | .ok r => .ok { d := r.d, neg := if r.d.isEmpty then false else (if sign then true else false) }

/-- The operator `operator*` of `Lab2/FastPow/src/bigint.cpp`: `lhs *= rhs` on a copy. -/
def fastpow_op_mul (lhs rhs : BigInt) : Except Error BigInt := fastpow_op_mul_assign lhs rhs

/-! ## Modular exponentiation (`Lab2/FastPow/src/mod_exp.cpp`)

A construction `BigInt(v)` on a literal `v ≥ 0` is `ofLongLong_tail false v`. -/

/-- The function `mod_reduce` (the same text in `mod_exp.cpp` and in the test file). -/
def mod_reduce (a m : BigInt) : Except Error BigInt :=
  match op_div a m with
  | .error e => .error e
  | .ok q =>
    match fastpow_op_mul q m with
    | .error e => .error e
    | .ok p => .ok (op_sub a p)

/-- The function `abs_big`. -/
def abs_big (x : BigInt) : BigInt :=
  if op_lt x (ofLongLong_tail false 0) then op_sub (ofLongLong_tail false 0) x else x

/-- The function `is_zero`. -/
def is_zero (x : BigInt) : Bool := op_eq x (ofLongLong_tail false 0)

/-- The function `is_odd`. -/
def is_odd (x : BigInt) : Except Error Bool :=
  match mod_reduce x (ofLongLong_tail false 2) with
  | .error e => .error e
  | .ok r => .ok (op_eq r (ofLongLong_tail false 1))

/-- The statement `if (is_odd(e)) result = mod_reduce(result * a, m);` of the loop
of `mod_exp`, given the value `odd` of `is_odd(e)`: the new `result`. -/
def mod_exp_multiply (m a result : BigInt) (odd : Bool) : Except Error BigInt :=
  if odd then
    match fastpow_op_mul result a with
    | .error err => .error err
    | .ok t => mod_reduce t m
  else .ok result

/-- The body of the loop of `mod_exp`: the new `a`, `e` and `result`. -/
def mod_exp_body (m a e result : BigInt) : Except Error (BigInt × BigInt × BigInt) :=
  match is_odd e with
  | .error err => .error err
  | .ok odd =>
    match mod_exp_multiply m a result odd with
    | .error err => .error err
    | .ok result1 =>
      match fastpow_op_mul a a with
      | .error err => .error err
      | .ok sq =>
        match mod_reduce sq m with
        | .error err => .error err
        | .ok a1 =>
          match op_div e (ofLongLong_tail false 2) with
          | .error err => .error err
          | .ok e1 => .ok (a1, e1, result1)

/-- The loop `while (!is_zero(e))` of `mod_exp`, on the state `a`, `e`, `result`.
The first argument bounds the number of iterations. -/
def mod_exp_loop (m : BigInt) : Nat → BigInt → BigInt → BigInt → Except Error BigInt
  | 0, _, e, result => if !is_zero e then .error .out_of_fuel else .ok result
  | fuel + 1, a, e, result =>
    if !is_zero e then
      match mod_exp_body m a e result with
      | .error err => .error err
      | .ok s => mod_exp_loop m fuel s.1 s.2.1 s.2.2
    else .ok result

/-- The reduction of the base at the start of `mod_exp` (and of `slow_pow_mod`):
`a = mod_reduce(base, m)`, then `a = a + m` if `a < BigInt(0)`. -/
def mod_exp_base (base m : BigInt) : Except Error BigInt :=
  match mod_reduce base m with
  | .error e => .error e
  | .ok a => if op_lt a (ofLongLong_tail false 0) then .ok (op_add a m) else .ok a

/-- The function `mod_exp`.  The exponent is halved in every iteration of the loop,
so its magnitude bounds the number of iterations. -/
def mod_exp (base exp mod : BigInt) : Except Error BigInt :=
  if op_eq mod (ofLongLong_tail false 0) then .error .invalid_argument
  else if op_lt exp (ofLongLong_tail false 0) then .error .invalid_argument
  else
    let m := abs_big mod
    match mod_exp_base base m with
    | .error e => .error e
    | .ok a => mod_exp_loop m (val exp.d) a exp (ofLongLong_tail false 1)

/-- The loop `while (exp > BigInt(0))` of the reference `slow_pow_mod` of the test
file, on the state `exp`, `res`.  The first argument bounds the number of iterations. -/
def slow_pow_mod_loop (b m : BigInt) : Nat → BigInt → BigInt → Except Error BigInt
  | 0, exp, res => if op_gt exp (ofLongLong_tail false 0) then .error .out_of_fuel else .ok res
  | fuel + 1, exp, res =>
    if op_gt exp (ofLongLong_tail false 0) then
      match fastpow_op_mul res b with
      | .error err => .error err
      | .ok t =>
        match mod_reduce t m with
        | .error err => .error err
        | .ok res1 => slow_pow_mod_loop b m fuel (op_sub exp (ofLongLong_tail false 1)) res1
    else .ok res

/-- The reference `slow_pow_mod` of `tests/test_mod_exp.cpp`.  The exponent
decreases by one in every iteration, so its magnitude bounds their number. -/
def slow_pow_mod (base_in exp mod : BigInt) : Except Error BigInt :=
  if op_eq mod (ofLongLong_tail false 0) then .error .invalid_argument
  else
    let m := if op_lt mod (ofLongLong_tail false 0)
      then op_sub (ofLongLong_tail false 0) mod else mod
    match mod_exp_base base_in m with
    | .error e => .error e
    | .ok b => slow_pow_mod_loop b m (val exp.d) exp (ofLongLong_tail false 1)

/-! ## Text (`from_string`, `to_string` of `Lab2/Karatsuba/src/bigint.cpp`)

A `std::string` is a `List Char`.  The index `i` that scans the input in
`from_string` is represented by the part of the input not yet read. -/

/-- The test `std::isspace(static_cast<unsigned char>(c)) != 0` in the "C" locale:
space, and the controls `\t`, `\n`, `\v`, `\f`, `\r`. -/
def isspace (c : Char) : Bool :=
  c.toNat == 32 || (9 ≤ c.toNat && c.toNat ≤ 13)

/-- The test `std::isdigit(static_cast<unsigned char>(c)) != 0`. -/
def isdigit (c : Char) : Bool :=
  48 ≤ c.toNat && c.toNat ≤ 57

/-- The optional sign of `from_string`: the flag `is_neg` and the input left. -/
def from_string_sign (s : List Char) : Bool × List Char :=
  match s with
  | [] => (false, [])
  | c :: rest =>
    if c = '+' then (false, rest)
    else if c = '-' then (true, rest)
    else (false, c :: rest)

/-- The inner loop of `from_string` over `k`, computing one block in `uint32_t`. -/
def from_string_block (t : List Char) : Nat → Nat → Nat → Nat
  | 0, _, block => block
  | n + 1, k, block =>
    let digit := ((((t.getD k '0').toNat : Int) - 48) % (U32 : Int)).toNat
    from_string_block t n (k + 1) ((block * 10 % U32 + digit) % U32)

/-- The loop `for (size_t p = t.size(); p > j;)` of `from_string`.  The first
argument bounds the number of iterations; `p` decreases in every iteration, so a
bound of `p` is never exhausted while `p > j`. -/
def from_string_chunks (t : List Char) (j : Nat) : Nat → Nat → List Nat → List Nat
  | 0, _, d => d
  | fuel + 1, p, d =>
    if p > j then
      let start0 := if p ≥ BASE_DIGS then p - BASE_DIGS else 0
      let start := if start0 < j then j else start0
      let len := p - start
      let block := from_string_block t len start 0
      from_string_chunks t j fuel start (d ++ [block])
    else d

/-- The function `BigInt::from_string`. -/
def from_string (s : List Char) : BigInt :=
  let s1 := s.dropWhile isspace
  let sg := from_string_sign s1
  let s2 := sg.2.dropWhile isspace
  let t := s2.takeWhile isdigit
  let j := (t.takeWhile (fun c => c == '0')).length
  if j = t.length then { d := [], neg := false }
  else
    let d := from_string_chunks t j t.length t.length []
    BigInt.trim { d := d, neg := sg.1 }

/-- The digits that `operator<<` writes for an unsigned value `n`, least
significant first, put in front of `acc`.  The first argument bounds the number
of digits. -/
def decimal_loop : Nat → Nat → List Char → List Char
  | 0, _, acc => acc
  | fuel + 1, n, acc =>
    let acc1 := Char.ofNat (48 + n % 10) :: acc
    if n / 10 = 0 then acc1 else decimal_loop fuel (n / 10) acc1

/-- The text that `oss << n` writes for an unsigned value `n`: its decimal digits,
without leading zeros (`0` for zero). -/
def decimal (n : Nat) : List Char := decimal_loop (n + 1) n []

/-- The text that `oss << std::setw(w) << std::setfill('0') << n` writes: the
decimal digits of `n`, filled on the left with `0` up to the width `w`. -/
def decimal_fill (w n : Nat) : List Char :=
  List.replicate (w - (decimal n).length) '0' ++ decimal n

/-- The loop `for (size_t i = d.size(); i > 1; --i)` of `to_string`; the argument
`i + 1` stands for the counter value `i + 2`, so the block written is `d[i]`. -/
def to_string_loop (d : List Nat) : Nat → List Char → List Char
  | 0, oss => oss
  | i + 1, oss => to_string_loop d i (oss ++ decimal_fill BASE_DIGS (d.getD i 0))

/-- The function `BigInt::to_string`. -/
def to_string (x : BigInt) : List Char :=
  if x.d.isEmpty then ['0']
  else
    let s : List Char := if x.neg then ['-'] else []
    let oss := decimal (x.d.getLastD 0)
    s ++ to_string_loop x.d (x.d.length - 1) oss

/-- The number read from a run of decimal digits, continuing from `acc`. -/
def decval : Nat → List Char → Nat
  | acc, [] => acc
  | acc, c :: cs => decval (acc * 10 + (c.toNat - 48)) cs

/-- The text of a block sequence below the most significant block: every block
filled to `BASE_DIGS` digits, most significant first. -/
def blocks_text : List Nat → List Char
  | [] => []
  | b :: lo => blocks_text lo ++ decimal_fill BASE_DIGS b

/-! ## The remaining comparison operators and the string constructor -/

/-- The function `operator!=`. -/
def op_ne (a b : BigInt) : Bool := !(op_eq a b)

/-- The function `operator<=`. -/
def op_le (a b : BigInt) : Bool := !(op_lt b a)

/-- The function `operator>=`. -/
def op_ge (a b : BigInt) : Bool := !(op_lt a b)

/-- The constructor `BigInt(const std::string &)`. -/
def BigInt.ofString (s : List Char) : BigInt := from_string s

/-- The decimal text of an integer: `-` in front of a negative one, then the digits
of its magnitude, without leading zeros (`0` for zero). -/
def int_text (v : Int) : List Char :=
  (if v < 0 then ['-'] else []) ++ Nat.toDigits 10 v.natAbs

/-! ## `my_container::Deque` (`Lab1/Task-3/include/my_container/deque.hpp`)

`Deque<T>` derives from `List<T>` (`Lab1/Task-2/include/my_container/list.hpp`), a
circular doubly linked list around the member node `_sentinel`.  A node pointer is
either the address of `_sentinel` or the index of a node in the store of the nodes
made by `new Node`. -/

/-- The failures of the containers: the exception `std::out_of_range`, and the use
of a pointer that is no node. -/
inductive ContainerError where
  | out_of_range
  | undefined_behaviour
  deriving DecidableEq

/-- A value of type `ListNode<T> *`: `nullptr`, the address of `_sentinel`, or a
node made by `new Node`. -/
inductive NodePtr where
  | null : NodePtr
  | sentinel : NodePtr
  | heap : Nat → NodePtr
  deriving DecidableEq

/-- The struct `ListNode<T>`. -/
structure ListNode (α : Type) where
  prev : NodePtr
  next : NodePtr
  value : α

/-- The state of a `Deque<T>` object: the members `_sentinel` and `_size` of its
base `List<T>`, and the nodes it has allocated. -/
structure Deque (α : Type) where
  _sentinel : ListNode α
  heap : List (ListNode α)
  _size : Nat

/-- The node a pointer points to. -/
def Deque.node {α : Type} (dq : Deque α) : NodePtr → Except ContainerError (ListNode α)
  | NodePtr.null => .error .undefined_behaviour
  | NodePtr.sentinel => .ok dq._sentinel
  | NodePtr.heap i =>
    match dq.heap.get? i with
    | some nd => .ok nd
    | none => .error .undefined_behaviour

/-- The loop `for (size_type i = 0; i < index; ++i) ++it;` of `Deque::at`, with
`operator++` of the iterator (`_p = _p->next`); the first argument is the number
of iterations left. -/
def Deque.at_forward {α : Type} (dq : Deque α) : Nat → NodePtr → Except ContainerError NodePtr
  | 0, p => .ok p
  | k + 1, p =>
    match dq.node p with
    | .error e => .error e
    | .ok nd => Deque.at_forward dq k nd.next

/-- The loop `for (size_type steps = n - index; steps > 0; --steps) --it;` of
`Deque::at`, with `operator--` of the iterator (`_p = _p->prev`). -/
def Deque.at_backward {α : Type} (dq : Deque α) : Nat → NodePtr → Except ContainerError NodePtr
  | 0, p => .ok p
  | steps + 1, p =>
    match dq.node p with
    | .error e => .error e
    | .ok nd => Deque.at_backward dq steps nd.prev

/-- The read `*it` of an iterator (`_p->value`). -/
def Deque.deref {α : Type} (dq : Deque α) (it : Except ContainerError NodePtr) :
    Except ContainerError α :=
  match it with
  | .error e => .error e
  | .ok p =>
    match dq.node p with
    | .error e => .error e
    | .ok nd => .ok nd.value

/-- The method `Deque::at(size_type index) const`; `begin()` is the iterator at
`_sentinel.next` and `end()` the iterator at `&_sentinel`. -/
def Deque.at {α : Type} (dq : Deque α) (index : Nat) : Except ContainerError α :=
  let n := dq._size
  if index ≥ n then .error .out_of_range
  else if index ≤ n / 2 then
    Deque.deref dq (Deque.at_forward dq index dq._sentinel.next)
  else
    Deque.deref dq (Deque.at_backward dq (n - index) NodePtr.sentinel)

/-- The method `Deque::operator[]`. -/
def Deque.index {α : Type} (dq : Deque α) (index : Nat) : Except ContainerError α :=
  Deque.at dq index

/-- A write through a node pointer: the node it points to is replaced by `f` of it. -/
def Deque.update {α : Type} (dq : Deque α) (p : NodePtr) (f : ListNode α → ListNode α) :
    Except ContainerError (Deque α) :=
  match p with
  | NodePtr.null => .error .undefined_behaviour
  | NodePtr.sentinel => .ok { dq with _sentinel := f dq._sentinel }
  | NodePtr.heap i =>
    match dq.heap.get? i with
    | some nd => .ok { dq with heap := dq.heap.set i (f nd) }
    | none => .error .undefined_behaviour

/-- The constructor `List()`: `_sentinel` is linked to itself and holds the value
`T()`, given as `dflt`; `_size` is zero. -/
def Deque.empty {α : Type} (dflt : α) : Deque α :=
  { _sentinel := { prev := NodePtr.sentinel, next := NodePtr.sentinel, value := dflt },
    heap := [], _size := 0 }

/-- The function `List::link_before(Node *pos, Node *node)`. -/
def Deque.link_before {α : Type} (dq : Deque α) (pos node : NodePtr) :
    Except ContainerError (Deque α) := do
  let dq1 ← Deque.update dq node (fun nd => { nd with next := pos })
  let p1 ← Deque.node dq1 pos
  let dq2 ← Deque.update dq1 node (fun nd => { nd with prev := p1.prev })
  let p2 ← Deque.node dq2 pos
  let dq3 ← Deque.update dq2 p2.prev (fun nd => { nd with next := node })
  Deque.update dq3 pos (fun nd => { nd with prev := node })

/-- The function `List::emplace_before(Node *pos, U &&value)`; the node made by
`new Node(value)` is put at the end of the store. -/
def Deque.emplace_before {α : Type} (dq : Deque α) (pos : NodePtr) (value : α) :
    Except ContainerError (Deque α) := do
  let node := NodePtr.heap dq.heap.length
  let dq1 : Deque α :=
    { dq with heap := dq.heap ++ [{ prev := NodePtr.null, next := NodePtr.null, value := value }] }
  let dq2 ← Deque.link_before dq1 pos node
  pure { dq2 with _size := dq2._size + 1 }

/-- The method `List::push_back(const T &value)`. -/
def Deque.push_back {α : Type} (dq : Deque α) (value : α) : Except ContainerError (Deque α) :=
  Deque.emplace_before dq NodePtr.sentinel value

/-- The loop `for (const auto &v : list) push_back(v);` of the constructor from an
initializer list. -/
def Deque.push_back_all {α : Type} : Deque α → List α → Except ContainerError (Deque α)
  | dq, [] => .ok dq
  | dq, v :: vs =>
    match Deque.push_back dq v with
    | .error e => .error e
    | .ok dq1 => Deque.push_back_all dq1 vs

/-- The constructor `Deque(std::initializer_list<T> ilist)`. -/
def Deque.ofList {α : Type} (dflt : α) (ilist : List α) : Except ContainerError (Deque α) :=
  Deque.push_back_all (Deque.empty dflt) ilist

/-- The nodes from `p` on hold the elements `es` in this order, linked in both
directions: the node before the first is `before`, the `next` of the last is
`after`, and `last` is the last node (`before` when there is none). -/
def Deque.Segment {α : Type} (dq : Deque α) :
    NodePtr → NodePtr → List α → NodePtr → NodePtr → Prop
  | before, p, [], after, last => p = after ∧ last = before
  | before, p, e :: es, after, last =>
    ∃ i nd, p = NodePtr.heap i ∧ dq.heap.get? i = some nd ∧ nd.value = e ∧
      nd.prev = before ∧ Deque.Segment dq (NodePtr.heap i) nd.next es after last

/-- The deque holds the elements `es` in front-to-back order: `_size` is their
number, and the nodes between `_sentinel.next` and `_sentinel.prev` hold them, the
circle closing at `_sentinel`. -/
def Deque.Holds {α : Type} (dq : Deque α) (es : List α) : Prop :=
  dq._size = es.length ∧
    Deque.Segment dq NodePtr.sentinel dq._sentinel.next es NodePtr.sentinel dq._sentinel.prev

/-! ## The arithmetic of `mul_abs`, iteration by iteration

The same loops as `mul_abs_inner`, `mul_abs_carry` and `mul_abs_outer`, recording for
every iteration the index of `r.d` it reads and writes, the sum `cur` as an integer
(before it is stored in a `uint64_t`), and the carry it leaves. -/

/-- The iterations of the inner loop of `mul_abs` over `j`, for row `i`: the index
`i + j`, the integer `r.d[i + j] + xi * b.d[j] + carry`, the new carry. -/
def mul_abs_inner_trace (xi : Nat) (b : List Nat) (i : Nat) :
    Nat → Nat → Nat → List Nat → List (Nat × Nat × Nat)
  | 0, _, _, _ => []
  | k + 1, j, carry, r =>
    let cur := (r.getD (i + j) 0 + (xi * b.getD j 0) % U64 + carry) % U64
    (i + j, r.getD (i + j) 0 + xi * b.getD j 0 + carry, cur / BASE)
      :: mul_abs_inner_trace xi b i k (j + 1) (cur / BASE) (r.set (i + j) (cur % BASE % U32))

/-- The iterations of the trailing loop `while (carry > 0)` of `mul_abs`: the index
`pos`, the integer `r.d[pos] + carry`, the new carry.  An iteration that starts with
no block left at `pos` is recorded with its index and ends the list. -/
def mul_abs_carry_trace : Nat → Nat → Nat → List Nat → List (Nat × Nat × Nat)
  | 0, pos, carry, r => if carry > 0 then [(pos, r.getD pos 0 + carry, carry)] else []
  | k + 1, pos, carry, r =>
    if carry > 0 then
      if pos < r.length then
        let cur := (r.getD pos 0 + carry) % U64
        (pos, r.getD pos 0 + carry, cur / BASE)
          :: mul_abs_carry_trace k (pos + 1) (cur / BASE) (r.set pos (cur % BASE % U32))
      else [(pos, r.getD pos 0 + carry, carry)]
    else []

/-- The iterations of all rows of `mul_abs`, in the order in which they run. -/
def mul_abs_outer_trace (a b : List Nat) : Nat → Nat → List Nat → List (Nat × Nat × Nat)
  | 0, _, _ => []
  | k + 1, i, r =>
    let row := mul_abs_inner (a.getD i 0) b i b.length 0 0 r
    mul_abs_inner_trace (a.getD i 0) b i b.length 0 0 r
      ++ mul_abs_carry_trace (row.1.length - (i + b.length)) (i + b.length) row.2 row.1
      ++ (match mul_abs_carry (row.1.length - (i + b.length)) (i + b.length) row.2 row.1 with
          | .error _ => []
          | .ok r2 => mul_abs_outer_trace a b k (i + 1) r2)

/-- The iterations of `mul_abs` on `a` and `b`. -/
def mul_abs_trace (a b : BigInt) : List (Nat × Nat × Nat) :=
  if a.d.isEmpty || b.d.isEmpty then []
  else mul_abs_outer_trace a.d b.d a.d.length 0 (List.replicate (a.d.length + b.d.length) 0)

/-! ## `operator/=` as a step on the receiver -/

/-- The operator `BigInt::operator/=` with the receiver made explicit: the exception
that leaves the call, if any, and the receiver `*this` when the call ends.  The
operands of `div_mod` are copies, and the receiver is written by the last statement
`*this = std::move(qa)` only. -/
def op_div_assign_step (x rhs : BigInt) : Option Error × BigInt :=
  if rhs.d.isEmpty then (some .domain_error, x)
  else
    match div_mod { d := x.d, neg := false } { d := rhs.d, neg := false } with
    | .error e => (some e, x)
    | .ok qr =>
      (none, { d := qr.1.d, neg := if !qr.1.d.isEmpty then (x.neg != rhs.neg) else false })

/-! ## Block sequences and their magnitudes -/

theorem BASE_pos : 0 < BASE := by decide

theorem val_nil : val [] = 0 := rfl

theorem val_cons (x : Nat) (xs : List Nat) : val (x :: xs) = x + BASE * val xs := rfl

theorem val_append (l1 l2 : List Nat) :
    val (l1 ++ l2) = val l1 + BASE ^ l1.length * val l2 := by
  induction l1 with
  | nil => simp [val]
  | cons x xs ih =>
    simp only [List.cons_append, val_cons, ih, List.length_cons, pow_succ]
    ring

theorem val_replicate_zero (n : Nat) : val (List.replicate n 0) = 0 := by
  induction n with
  | zero => rfl
  | succ n ih => simp [List.replicate_succ, val_cons, ih]

theorem Blocks_nil : Blocks [] := by
  intro x hx; simp at hx

theorem Blocks_cons {x : Nat} {xs : List Nat} : Blocks (x :: xs) ↔ x < BASE ∧ Blocks xs := by
  simp [Blocks]

theorem Blocks_append {l1 l2 : List Nat} : Blocks (l1 ++ l2) ↔ Blocks l1 ∧ Blocks l2 := by
  simp only [Blocks, List.mem_append]
  constructor
  · intro h; exact ⟨fun x hx => h x (Or.inl hx), fun x hx => h x (Or.inr hx)⟩
  · rintro ⟨h1, h2⟩ x (hx | hx)
    · exact h1 x hx
    · exact h2 x hx

theorem Blocks_take {l : List Nat} (h : Blocks l) (n : Nat) : Blocks (l.take n) :=
  fun x hx => h x (List.mem_of_mem_take hx)

theorem Blocks_drop {l : List Nat} (h : Blocks l) (n : Nat) : Blocks (l.drop n) :=
  fun x hx => h x (List.mem_of_mem_drop hx)

theorem val_lt_pow {d : List Nat} (h : Blocks d) : val d < BASE ^ d.length := by
  induction d with
  | nil => simp [val]
  | cons x xs ih =>
    rw [Blocks_cons] at h
    have h1 := ih h.2
    simp only [val_cons, List.length_cons, pow_succ]
    have hx := h.1
    nlinarith [BASE_pos]

theorem getD_lt_of_Blocks {d : List Nat} (h : Blocks d) (i : Nat) : d.getD i 0 < BASE := by
  induction d generalizing i with
  | nil => simp [BASE]
  | cons x xs ih =>
    rw [Blocks_cons] at h
    cases i with
    | zero => simpa using h.1
    | succ i => simpa using ih h.2 i

theorem val_take_succ (a : List Nat) (i : Nat) :
    val (a.take (i + 1)) = val (a.take i) + BASE ^ i * a.getD i 0 := by
  induction a generalizing i with
  | nil => simp [val]
  | cons x xs ih =>
    cases i with
    | zero => simp [val]
    | succ i =>
      have := ih i
      simp only [List.take_succ_cons, val_cons, this, pow_succ, List.getD_cons_succ]
      ring

theorem val_take_of_le (a : List Nat) {n : Nat} (h : a.length ≤ n) : val (a.take n) = val a := by
  rw [List.take_of_length_le h]

theorem take_set_same (r : List Nat) (i v : Nat) : (r.set i v).take i = r.take i := by
  induction r generalizing i with
  | nil => simp
  | cons x xs ih =>
    cases i with
    | zero => simp
    | succ i => simp [ih]

theorem take_set_succ (r : List Nat) (i v : Nat) (h : i < r.length) :
    (r.set i v).take (i + 1) = r.take i ++ [v] := by
  induction r generalizing i with
  | nil => simp at h
  | cons x xs ih =>
    cases i with
    | zero => simp
    | succ i =>
      simp only [List.length_cons, Nat.add_lt_add_iff_right] at h
      simp [ih i h]

theorem drop_set_succ (r : List Nat) (i v : Nat) : (r.set i v).drop (i + 1) = r.drop (i + 1) := by
  induction r generalizing i with
  | nil => simp
  | cons x xs ih =>
    cases i with
    | zero => simp
    | succ i => simp [ih]

theorem getD_set_self (r : List Nat) (i v : Nat) (h : i < r.length) : (r.set i v).getD i 0 = v := by
  induction r generalizing i with
  | nil => simp at h
  | cons x xs ih =>
    cases i with
    | zero => simp
    | succ i =>
      simp only [List.length_cons, Nat.add_lt_add_iff_right] at h
      simpa using ih i h

theorem getD_set_ne (r : List Nat) (i j v : Nat) (h : i ≠ j) : (r.set i v).getD j 0 = r.getD j 0 := by
  induction r generalizing i j with
  | nil => simp
  | cons x xs ih =>
    cases i with
    | zero =>
      cases j with
      | zero => exact absurd rfl h
      | succ j => simp
    | succ i =>
      cases j with
      | zero => simp
      | succ j =>
        have : i ≠ j := fun e => h (by rw [e])
        simpa using ih i j this

theorem val_set (r : List Nat) (i v : Nat) (h : i < r.length) :
    val (r.set i v) + BASE ^ i * r.getD i 0 = val r + BASE ^ i * v := by
  induction r generalizing i with
  | nil => simp at h
  | cons x xs ih =>
    cases i with
    | zero => simp [val_cons]; ring
    | succ i =>
      simp only [List.length_cons, Nat.add_lt_add_iff_right] at h
      have := ih i h
      simp only [List.set_cons_succ, val_cons, List.getD_cons_succ, pow_succ]
      nlinarith [this]

theorem Blocks_set {r : List Nat} (hr : Blocks r) (i : Nat) {v : Nat} (hv : v < BASE) :
    Blocks (r.set i v) := by
  intro x hx
  rcases List.mem_or_eq_of_mem_set hx with h | h
  · exact hr x h
  · rw [h]; exact hv

theorem Blocks_replicate_zero (n : Nat) : Blocks (List.replicate n 0) := by
  intro x hx
  rw [List.eq_of_mem_replicate hx]; decide

/-! ### Trimming -/

theorem trim_vec_nil : trim_vec [] = [] := by simp [trim_vec]

theorem trim_vec_concat_zero (l : List Nat) : trim_vec (l ++ [0]) = trim_vec l := by
  unfold trim_vec
  exact List.rdropWhile_concat_pos _ _ _ (by simp)

theorem trim_vec_concat_pos (l : List Nat) {x : Nat} (hx : x ≠ 0) : trim_vec (l ++ [x]) = l ++ [x] := by
  unfold trim_vec
  exact List.rdropWhile_concat_neg _ _ _ (by simpa using hx)

theorem val_trim_vec (v : List Nat) : val (trim_vec v) = val v := by
  induction v using List.reverseRecOn with
  | nil => simp [trim_vec_nil]
  | append_singleton l a ih =>
    by_cases ha : a = 0
    · subst ha
      rw [trim_vec_concat_zero, ih, val_append]; simp [val]
    · rw [trim_vec_concat_pos l ha]

theorem Trimmed_nil : Trimmed [] := by simp [Trimmed]

theorem Trimmed_concat {l : List Nat} {x : Nat} : Trimmed (l ++ [x]) ↔ x ≠ 0 := by
  simp [Trimmed]

theorem Trimmed_trim_vec (v : List Nat) : Trimmed (trim_vec v) := by
  induction v using List.reverseRecOn with
  | nil => simp [trim_vec_nil, Trimmed_nil]
  | append_singleton l a ih =>
    by_cases ha : a = 0
    · subst ha; rw [trim_vec_concat_zero]; exact ih
    · rw [trim_vec_concat_pos l ha]; exact Trimmed_concat.2 ha

theorem trim_vec_initial (v : List Nat) : trim_vec v <+: v := by
  unfold trim_vec; exact List.rdropWhile_prefix _ _

theorem Blocks_trim_vec {v : List Nat} (h : Blocks v) : Blocks (trim_vec v) :=
  fun x hx => h x ((trim_vec_initial v).subset hx)

theorem length_trim_vec_le (v : List Nat) : (trim_vec v).length ≤ v.length :=
  (trim_vec_initial v).length_le

theorem trim_vec_of_Trimmed {v : List Nat} (h : Trimmed v) : trim_vec v = v := by
  induction v using List.reverseRecOn with
  | nil => exact trim_vec_nil
  | append_singleton l a _ =>
    exact trim_vec_concat_pos l (Trimmed_concat.1 h)

theorem CanonMag_trim_vec {v : List Nat} (h : Blocks v) : CanonMag (trim_vec v) :=
  ⟨Blocks_trim_vec h, Trimmed_trim_vec v⟩

theorem CanonMag_nil : CanonMag [] := ⟨Blocks_nil, Trimmed_nil⟩

/-- A trimmed non-empty sequence is at least `BASE ^ (length - 1)`. -/
theorem pow_le_val_of_Trimmed {d : List Nat} (h : Trimmed d) (hne : d ≠ []) :
    BASE ^ (d.length - 1) ≤ val d := by
  induction d using List.reverseRecOn with
  | nil => exact absurd rfl hne
  | append_singleton l a _ =>
    have ha : a ≠ 0 := Trimmed_concat.1 h
    rw [val_append]
    simp only [List.length_append, List.length_singleton, Nat.add_sub_cancel, val_cons, val_nil,
      Nat.mul_zero, Nat.add_zero]
    have : 1 ≤ a := Nat.pos_of_ne_zero ha
    calc BASE ^ l.length = BASE ^ l.length * 1 := by ring
      _ ≤ BASE ^ l.length * a := Nat.mul_le_mul_left _ this
      _ ≤ val l + BASE ^ l.length * a := Nat.le_add_left _ _

theorem val_eq_zero_iff {d : List Nat} (h : Trimmed d) : val d = 0 ↔ d = [] := by
  constructor
  · intro hz
    by_contra hne
    have := pow_le_val_of_Trimmed h hne
    have hp : 0 < BASE ^ (d.length - 1) := Nat.pow_pos BASE_pos
    omega
  · rintro rfl; rfl

theorem length_le_of_val_le {a b : List Nat} (ha : Trimmed a) (hb : Blocks b)
    (h : val a ≤ val b) : a.length ≤ b.length := by
  by_contra hlt
  push_neg at hlt
  have hne : a ≠ [] := by rintro rfl; simp at hlt
  have h1 := pow_le_val_of_Trimmed ha hne
  have h2 := val_lt_pow hb
  have h3 : BASE ^ b.length ≤ BASE ^ (a.length - 1) :=
    Nat.pow_le_pow_right BASE_pos (by omega)
  omega

theorem val_lt_of_length_lt {a b : List Nat} (ha : Blocks a) (hb : Trimmed b)
    (h : a.length < b.length) : val a < val b := by
  by_contra hge
  push_neg at hge
  have := length_le_of_val_le hb ha hge
  omega

theorem eq_of_val_eq_of_length_eq {a b : List Nat} (ha : Blocks a) (hb : Blocks b)
    (hl : a.length = b.length) (h : val a = val b) : a = b := by
  induction a generalizing b with
  | nil =>
    cases b with
    | nil => rfl
    | cons y ys => simp at hl
  | cons x xs ih =>
    cases b with
    | nil => simp at hl
    | cons y ys =>
      rw [Blocks_cons] at ha hb
      simp only [List.length_cons, Nat.add_right_cancel_iff] at hl
      simp only [val_cons] at h
      have hx := ha.1
      have hy := hb.1
      have e1 : x = y := by
        have := congrArg (fun t => t % BASE) h
        simp only [Nat.add_mul_mod_self_left] at this
        rwa [Nat.mod_eq_of_lt hx, Nat.mod_eq_of_lt hy] at this
      subst e1
      have e2 : val xs = val ys := by
        have : BASE * val xs = BASE * val ys := by omega
        exact Nat.eq_of_mul_eq_mul_left BASE_pos this
      rw [ih ha.2 hb.2 hl e2]

/-- Two canonical magnitudes with the same value are the same block sequence. -/
theorem CanonMag_ext {a b : List Nat} (ha : CanonMag a) (hb : CanonMag b)
    (h : val a = val b) : a = b := by
  have h1 := length_le_of_val_le ha.2 hb.1 (le_of_eq h)
  have h2 := length_le_of_val_le hb.2 ha.1 (le_of_eq h.symm)
  exact eq_of_val_eq_of_length_eq ha.1 hb.1 (le_antisymm h1 h2) h

/-! ## Comparison, addition and subtraction of magnitudes -/

theorem val_take_lt {a : List Nat} (h : Blocks a) (n : Nat) : val (a.take n) < BASE ^ n := by
  have h1 := val_lt_pow (Blocks_take h n)
  have h2 : BASE ^ (a.take n).length ≤ BASE ^ n :=
    Nat.pow_le_pow_right BASE_pos (by simp)
  omega

theorem guarded_getD (a : List Nat) (i : Nat) :
    (if i < a.length then a.getD i 0 else 0) = a.getD i 0 := by
  split
  · rfl
  · rename_i h
    rw [List.getD_eq_default _ _ (Nat.le_of_not_lt h)]

theorem cmp_abs_loop_spec {a b : List Nat} (ha : Blocks a) (hb : Blocks b) (n : Nat) :
    cmp_abs_loop a b n =
      if val (b.take n) < val (a.take n) then 1
      else if val (a.take n) < val (b.take n) then -1 else 0 := by
  induction n with
  | zero => simp [cmp_abs_loop, val]
  | succ n ih =>
    have hx := val_take_lt ha n
    have hy := val_take_lt hb n
    simp only [cmp_abs_loop, val_take_succ, ih]
    have hp : 0 < BASE ^ n := Nat.pow_pos BASE_pos
    rcases Nat.lt_trichotomy (a.getD n 0) (b.getD n 0) with h | h | h
    · have h1 : BASE ^ n * (a.getD n 0 + 1) ≤ BASE ^ n * b.getD n 0 := Nat.mul_le_mul_left _ h
      have h2 : val (List.take n a) + BASE ^ n * a.getD n 0 <
          val (List.take n b) + BASE ^ n * b.getD n 0 := by nlinarith
      have h3 : ¬ (b.getD n 0 < a.getD n 0) := by omega
      have h4 : ¬ (val (List.take n b) + BASE ^ n * b.getD n 0 <
          val (List.take n a) + BASE ^ n * a.getD n 0) := by omega
      simp only [gt_iff_lt, h3, h, h2, h4, if_true, if_false]
    · have h3 : ¬ (b.getD n 0 < a.getD n 0) := by omega
      have h5 : ¬ (a.getD n 0 < b.getD n 0) := by omega
      simp only [gt_iff_lt, h, lt_irrefl, if_false, Nat.add_lt_add_iff_right]
    · have h1 : BASE ^ n * (b.getD n 0 + 1) ≤ BASE ^ n * a.getD n 0 := Nat.mul_le_mul_left _ h
      have h2 : val (List.take n b) + BASE ^ n * b.getD n 0 <
          val (List.take n a) + BASE ^ n * a.getD n 0 := by nlinarith
      simp only [gt_iff_lt, h, h2, if_true]

/-- On canonical magnitudes `cmp_abs` is the three-way comparison of the values. -/
theorem cmp_abs_spec {a b : BigInt} (ha : CanonMag a.d) (hb : CanonMag b.d) :
    cmp_abs a b = if val b.d < val a.d then 1 else if val a.d < val b.d then -1 else 0 := by
  unfold cmp_abs
  by_cases h1 : a.d.length > b.d.length
  · have := val_lt_of_length_lt hb.1 ha.2 h1
    simp [h1, this]
  · by_cases h2 : a.d.length < b.d.length
    · have := val_lt_of_length_lt ha.1 hb.2 h2
      have h3 : ¬ (val b.d < val a.d) := by omega
      simp [h1, h2, this, h3]
    · have e : a.d.length = b.d.length := by omega
      simp only [h1, h2, if_false]
      rw [cmp_abs_loop_spec ha.1 hb.1]
      rw [val_take_of_le a.d (le_refl _), val_take_of_le b.d (le_of_eq e.symm)]

theorem cmp_abs_nonneg_iff {a b : BigInt} (ha : CanonMag a.d) (hb : CanonMag b.d) :
    cmp_abs a b ≥ 0 ↔ val b.d ≤ val a.d := by
  rw [cmp_abs_spec ha hb]
  split
  · simp; omega
  · split
    · simp; omega
    · simp; omega

theorem cmp_abs_neg_iff {a b : BigInt} (ha : CanonMag a.d) (hb : CanonMag b.d) :
    cmp_abs a b < 0 ↔ val a.d < val b.d := by
  rw [cmp_abs_spec ha hb]
  split
  · simp; omega
  · split
    · simp; assumption
    · simp; omega

theorem cmp_abs_zero_iff {a b : BigInt} (ha : CanonMag a.d) (hb : CanonMag b.d) :
    cmp_abs a b = 0 ↔ val a.d = val b.d := by
  rw [cmp_abs_spec ha hb]
  split
  · simp; omega
  · split
    · simp; omega
    · simp; omega

/-! ### `BigInt.trim` -/

theorem trim_d (x : BigInt) : (BigInt.trim x).d = trim_vec x.d := rfl

theorem trim_neg_false (d : List Nat) : (BigInt.trim { d := d, neg := false }).neg = false := by
  simp [BigInt.trim]

/-! ### `add_abs` -/

theorem add_abs_loop_spec {a b : List Nat} (ha : Blocks a) (hb : Blocks b) :
    ∀ (k i carry : Nat) (r : List Nat), i + k = r.length → carry ≤ 1 →
      Blocks (r.take i) →
      val (r.take i) + BASE ^ i * carry = val (a.take i) + val (b.take i) →
      (add_abs_loop a b k i carry r).1.length = r.length ∧
      Blocks (add_abs_loop a b k i carry r).1 ∧
      (add_abs_loop a b k i carry r).2 ≤ 1 ∧
      val (add_abs_loop a b k i carry r).1 + BASE ^ (i + k) * (add_abs_loop a b k i carry r).2
        = val (a.take (i + k)) + val (b.take (i + k)) := by
  intro k
  induction k with
  | zero =>
    intro i carry r hlen hc hB hv
    have e : r.take i = r := List.take_of_length_le (by omega)
    rw [e] at hB hv
    simp only [add_abs_loop, Nat.add_zero]
    exact ⟨trivial, hB, hc, hv⟩
  | succ k ih =>
    intro i carry r hlen hc hB hv
    simp only [add_abs_loop, guarded_getD]
    have hx := getD_lt_of_Blocks ha i
    have hy := getD_lt_of_Blocks hb i
    have hs : a.getD i 0 + b.getD i 0 + carry < 2 * BASE := by omega
    have hs64 : (a.getD i 0 + b.getD i 0 + carry) % U64 = a.getD i 0 + b.getD i 0 + carry :=
      Nat.mod_eq_of_lt (by simp only [BASE, U64] at *; omega)
    have hb32 : ∀ t, t % BASE % U32 = t % BASE := fun t =>
      Nat.mod_eq_of_lt (lt_trans (Nat.mod_lt _ BASE_pos) (by decide))
    rw [hs64, hb32]
    set s := a.getD i 0 + b.getD i 0 + carry with hsdef
    have hi : i < r.length := by omega
    have hc' : s / BASE ≤ 1 := by
      have : s / BASE < 2 := Nat.div_lt_of_lt_mul (by omega)
      omega
    have hlen' : (i + 1) + k = (r.set i (s % BASE)).length := by simp; omega
    have hB' : Blocks ((r.set i (s % BASE)).take (i + 1)) := by
      rw [take_set_succ r i _ hi, Blocks_append]
      refine ⟨hB, ?_⟩
      intro x hx'
      simp only [List.mem_singleton] at hx'
      rw [hx']; exact Nat.mod_lt _ BASE_pos
    have hv' : val ((r.set i (s % BASE)).take (i + 1)) + BASE ^ (i + 1) * (s / BASE)
        = val (a.take (i + 1)) + val (b.take (i + 1)) := by
      rw [take_set_succ r i _ hi, val_append, val_take_succ, val_take_succ]
      have hl : (r.take i).length = i := by simp; omega
      rw [hl]
      simp only [val_cons, val_nil, Nat.mul_zero, Nat.add_zero, pow_succ]
      have hdm : s % BASE + BASE * (s / BASE) = s := Nat.mod_add_div s BASE
      have : BASE ^ i * (s % BASE) + BASE ^ i * BASE * (s / BASE)
          = BASE ^ i * (s % BASE + BASE * (s / BASE)) := by ring
      rw [hdm] at this
      have e2 : BASE ^ i * s = BASE ^ i * a.getD i 0 + BASE ^ i * b.getD i 0 + BASE ^ i * carry := by
        rw [hsdef]; ring
      omega
    have := ih (i + 1) (s / BASE) (r.set i (s % BASE)) hlen' hc' hB' hv'
    simp only [List.length_set] at this
    have e3 : i + 1 + k = i + (k + 1) := by omega
    rw [e3] at this
    exact this

/-- The magnitude part of `add_abs`: a canonical sequence of value `|a| + |b|`. -/
theorem add_abs_spec {a b : BigInt} (ha : Blocks a.d) (hb : Blocks b.d) :
    CanonMag (add_abs a b).d ∧ val (add_abs a b).d = val a.d + val b.d ∧
      (add_abs a b).neg = false := by
  unfold add_abs
  simp only [trim_d, trim_neg_false, and_true]
  set sz := if a.d.length > b.d.length then a.d.length else b.d.length with hsz
  have h1 : a.d.length ≤ sz := by rw [hsz]; split <;> omega
  have h2 : b.d.length ≤ sz := by rw [hsz]; split <;> omega
  have := add_abs_loop_spec ha hb sz 0 0 (List.replicate sz 0) (by simp) (by omega)
    (by simpa using Blocks_nil) (by simp [val])
  obtain ⟨hl, hB, hc, hv⟩ := this
  simp only [Nat.zero_add, List.length_replicate] at hl hv
  rw [val_take_of_le a.d h1, val_take_of_le b.d h2] at hv
  set out := add_abs_loop a.d b.d sz 0 0 (List.replicate sz 0)
  by_cases hpos : out.2 > 0
  · have hone : out.2 = 1 := by omega
    simp only [hpos, if_true]
    have hB2 : Blocks (out.1 ++ [out.2 % U32]) := by
      rw [Blocks_append]
      refine ⟨hB, ?_⟩
      rw [hone]; intro x hx; simp [U32] at hx; rw [hx]; decide
    refine ⟨CanonMag_trim_vec hB2, ?_⟩
    rw [val_trim_vec, val_append, hl, ← hv, hone]
    simp [val, U32]
  · have hz : out.2 = 0 := by omega
    simp only [hpos, if_false]
    refine ⟨CanonMag_trim_vec hB, ?_⟩
    rw [val_trim_vec, ← hv, hz]; simp

theorem length_add_abs_le (a b : BigInt) (ha : Blocks a.d) (hb : Blocks b.d) :
    (add_abs a b).d.length ≤ max a.d.length b.d.length + 1 := by
  unfold add_abs
  simp only [trim_d]
  set sz := if a.d.length > b.d.length then a.d.length else b.d.length with hsz
  have hm : sz = max a.d.length b.d.length := by
    rw [hsz]; split <;> omega
  have := add_abs_loop_spec ha hb sz 0 0 (List.replicate sz 0) (by simp) (by omega)
    (by simpa using Blocks_nil) (by simp [val])
  obtain ⟨hl, -, -, -⟩ := this
  simp only [List.length_replicate] at hl
  refine le_trans (length_trim_vec_le _) ?_
  split
  · rw [List.length_append, hl, hm]; simp
  · rw [hl, hm]; omega

/-! ### `sub_abs` and `sub_inplace` -/

theorem sub_step_spec {x y : Nat} {carry : Int} (hx : x < BASE) (hy : y < BASE)
    (hc : carry = 0 ∨ carry = 1) :
    ((sub_step x y carry).2 = 0 ∨ (sub_step x y carry).2 = 1) ∧
    (sub_step x y carry).1 < BASE ∧
    ((sub_step x y carry).1 : Int) + y + carry = x + (BASE : Int) * (sub_step x y carry).2 := by
  unfold sub_step
  simp only [BASE, U32] at *
  by_cases h : (x : Int) - (y : Int) - carry < 0
  · simp only [h, if_true]
    have e : ((x : Int) - y - carry + ((1000000000 : Nat) : Int)) % ((4294967296 : Nat) : Int)
        = (x : Int) - y - carry + 1000000000 := by
      apply Int.emod_eq_of_lt <;> (push_cast; omega)
    rw [e]
    refine ⟨by simp, ?_, ?_⟩
    · omega
    · rw [Int.toNat_of_nonneg (by omega)]; push_cast; ring
  · simp only [h, if_false]
    have e : ((x : Int) - y - carry) % ((4294967296 : Nat) : Int) = (x : Int) - y - carry := by
      apply Int.emod_eq_of_lt <;> (push_cast; omega)
    rw [e]
    refine ⟨by simp, ?_, ?_⟩
    · omega
    · rw [Int.toNat_of_nonneg (by omega)]; push_cast; ring

theorem sub_abs_loop_spec {a b : List Nat} (ha : Blocks a) (hb : Blocks b) :
    ∀ (k i : Nat) (carry : Int) (r : List Nat), i + k = r.length →
      (carry = 0 ∨ carry = 1) → Blocks (r.take i) →
      ((val (r.take i) : Nat) : Int) + (val (b.take i) : Nat)
        = (val (a.take i) : Nat) + ((BASE ^ i : Nat) : Int) * carry →
      (sub_abs_loop a b k i carry r).1.length = r.length ∧
      Blocks (sub_abs_loop a b k i carry r).1 ∧
      ((sub_abs_loop a b k i carry r).2 = 0 ∨ (sub_abs_loop a b k i carry r).2 = 1) ∧
      ((val (sub_abs_loop a b k i carry r).1 : Nat) : Int) + (val (b.take (i + k)) : Nat)
        = (val (a.take (i + k)) : Nat)
          + ((BASE ^ (i + k) : Nat) : Int) * (sub_abs_loop a b k i carry r).2 := by
  intro k
  induction k with
  | zero =>
    intro i carry r hlen hc hB hv
    have e : r.take i = r := List.take_of_length_le (by omega)
    rw [e] at hB hv
    simp only [sub_abs_loop, Nat.add_zero]
    exact ⟨trivial, hB, hc, hv⟩
  | succ k ih =>
    intro i carry r hlen hc hB hv
    simp only [sub_abs_loop, guarded_getD]
    have hx := getD_lt_of_Blocks ha i
    have hy := getD_lt_of_Blocks hb i
    obtain ⟨hc', hlt, heq⟩ := sub_step_spec hx hy hc
    set st := sub_step (a.getD i 0) (b.getD i 0) carry
    have hi : i < r.length := by omega
    have hlen' : (i + 1) + k = (r.set i st.1).length := by simp; omega
    have hB' : Blocks ((r.set i st.1).take (i + 1)) := by
      rw [take_set_succ r i _ hi, Blocks_append]
      refine ⟨hB, ?_⟩
      intro x hx'
      simp only [List.mem_singleton] at hx'
      rw [hx']; exact hlt
    have hv' : ((val ((r.set i st.1).take (i + 1)) : Nat) : Int) + (val (b.take (i + 1)) : Nat)
        = (val (a.take (i + 1)) : Nat) + ((BASE ^ (i + 1) : Nat) : Int) * st.2 := by
      rw [take_set_succ r i _ hi, val_append, val_take_succ, val_take_succ]
      have hl : (r.take i).length = i := by simp; omega
      rw [hl]
      simp only [val_cons, val_nil, Nat.mul_zero, Nat.add_zero, pow_succ]
      push_cast
      push_cast at hv
      linear_combination hv + ((BASE : Int) ^ i) * heq
    have := ih (i + 1) st.2 (r.set i st.1) hlen' hc' hB' hv'
    simp only [List.length_set] at this
    have e3 : i + 1 + k = i + (k + 1) := by omega
    rw [e3] at this
    exact this

/-- The function `sub_abs` on `|a| ≥ |b|`: a canonical sequence of value `|a| - |b|`. -/
theorem sub_abs_spec {a b : BigInt} (ha : Blocks a.d) (hb : CanonMag b.d)
    (hle : val b.d ≤ val a.d) :
    CanonMag (sub_abs a b).d ∧ val (sub_abs a b).d + val b.d = val a.d ∧
      (sub_abs a b).neg = false := by
  unfold sub_abs
  simp only [trim_d, trim_neg_false, and_true]
  have hlen : b.d.length ≤ a.d.length := length_le_of_val_le hb.2 ha hle
  have := sub_abs_loop_spec ha hb.1 a.d.length 0 0 (List.replicate a.d.length 0) (by simp)
    (Or.inl rfl) (by simpa using Blocks_nil) (by simp [val])
  obtain ⟨hl, hB, hc, hv⟩ := this
  simp only [Nat.zero_add, List.length_replicate] at hl hv
  rw [val_take_of_le a.d (le_refl _), val_take_of_le b.d hlen] at hv
  set out := sub_abs_loop a.d b.d a.d.length 0 0 (List.replicate a.d.length 0)
  refine ⟨CanonMag_trim_vec hB, ?_⟩
  rw [val_trim_vec]
  have hlt := val_lt_pow hB
  rw [hl] at hlt
  rcases hc with hc | hc
  · rw [hc] at hv
    simp only [mul_zero, add_zero] at hv
    exact_mod_cast hv
  · rw [hc] at hv
    simp only [mul_one] at hv
    have hv2 : val out.1 + val b.d = val a.d + BASE ^ a.d.length := by exact_mod_cast hv
    omega

theorem sub_inplace_loop_eq (x y : List Nat) :
    ∀ (k i : Nat) (carry : Int) (cur : List Nat),
      (∀ j, i ≤ j → cur.getD j 0 = x.getD j 0) →
      sub_inplace_loop y k i carry cur = sub_abs_loop x y k i carry cur := by
  intro k
  induction k with
  | zero => intro i carry cur _; rfl
  | succ k ih =>
    intro i carry cur h
    simp only [sub_inplace_loop, sub_abs_loop]
    rw [h i (le_refl _)]
    apply ih
    intro j hj
    rw [getD_set_ne _ _ _ _ (by omega)]
    exact h j (by omega)

/-- The function `sub_inplace` on block sequences in range, `y` trimmed: the flag
says whether `|y| ≤ |x|`, and then the new `x` is canonical of value `|x| - |y|`. -/
theorem sub_inplace_spec {x y : List Nat} (hx : Blocks x) (hy : CanonMag y) :
    ((sub_inplace x y).1 = true ↔ val y ≤ val x) ∧
    (val y ≤ val x → CanonMag (sub_inplace x y).2 ∧ val (sub_inplace x y).2 + val y = val x) := by
  unfold sub_inplace
  by_cases hlen : x.length < y.length
  · have hlt := val_lt_of_length_lt hx hy.2 hlen
    simp only [hlen, if_true]
    refine ⟨by simp; omega, fun h => by omega⟩
  · simp only [hlen, if_false]
    rw [sub_inplace_loop_eq x y x.length 0 0 x (fun _ _ => rfl)]
    have := sub_abs_loop_spec hx hy.1 x.length 0 0 x (by simp)
      (Or.inl rfl) (by simpa using Blocks_nil) (by simp [val])
    obtain ⟨hl, hB, hc, hv⟩ := this
    simp only [Nat.zero_add] at hl hv
    rw [val_take_of_le x (le_refl _), val_take_of_le y (by omega)] at hv
    set out := sub_abs_loop x y x.length 0 0 x
    have hlt := val_lt_pow hB
    rw [hl] at hlt
    rcases hc with hc | hc
    · rw [hc] at hv
      simp only [mul_zero, add_zero] at hv
      have hv2 : val out.1 + val y = val x := by exact_mod_cast hv
      simp only [hc, ne_eq, not_true_eq_false, if_false, true_iff]
      refine ⟨by omega, fun _ => ⟨CanonMag_trim_vec hB, ?_⟩⟩
      rw [val_trim_vec]; exact hv2
    · rw [hc] at hv
      simp only [mul_one] at hv
      have hv2 : val out.1 + val y = val x + BASE ^ x.length := by exact_mod_cast hv
      simp only [hc, ne_eq, one_ne_zero, not_false_eq_true, if_true]
      refine ⟨by simp; omega, fun h => by omega⟩

/-! ### `mul_abs` -/

theorem mod_BASE_mod_U32 (t : Nat) : t % BASE % U32 = t % BASE :=
  Nat.mod_eq_of_lt (lt_trans (Nat.mod_lt _ BASE_pos) (by decide))

theorem mul_lt_BASE_sq {x y : Nat} (hx : x < BASE) (hy : y < BASE) :
    x * y ≤ (BASE - 1) * (BASE - 1) :=
  Nat.mul_le_mul (by omega) (by omega)

theorem mul_abs_inner_spec {xi : Nat} {b : List Nat} (hxi : xi < BASE) (hb : Blocks b) (i : Nat) :
    ∀ (k j carry : Nat) (r : List Nat), i + j + k ≤ r.length → carry < BASE → Blocks r →
      (mul_abs_inner xi b i k j carry r).1.length = r.length ∧
      Blocks (mul_abs_inner xi b i k j carry r).1 ∧
      (mul_abs_inner xi b i k j carry r).2 < BASE ∧
      val (mul_abs_inner xi b i k j carry r).1
          + BASE ^ (i + j + k) * (mul_abs_inner xi b i k j carry r).2
          + BASE ^ i * xi * val (b.take j)
        = val r + BASE ^ (i + j) * carry + BASE ^ i * xi * val (b.take (j + k)) := by
  intro k
  induction k with
  | zero =>
    intro j carry r _ hc hB
    simp only [mul_abs_inner, Nat.add_zero]
    exact ⟨trivial, hB, hc, trivial⟩
  | succ k ih =>
    intro j carry r hlen hc hB
    simp only [mul_abs_inner]
    have hr := getD_lt_of_Blocks hB (i + j)
    have hbj := getD_lt_of_Blocks hb j
    have hprod := mul_lt_BASE_sq hxi hbj
    have hp64 : (xi * b.getD j 0) % U64 = xi * b.getD j 0 :=
      Nat.mod_eq_of_lt (by simp only [BASE, U64] at *; omega)
    rw [hp64]
    have hcur : r.getD (i + j) 0 + xi * b.getD j 0 + carry < BASE * BASE := by
      simp only [BASE] at *; omega
    have hc64 : (r.getD (i + j) 0 + xi * b.getD j 0 + carry) % U64
        = r.getD (i + j) 0 + xi * b.getD j 0 + carry :=
      Nat.mod_eq_of_lt (by simp only [BASE, U64] at *; omega)
    rw [hc64, mod_BASE_mod_U32]
    generalize hcurdef : r.getD (i + j) 0 + xi * b.getD j 0 + carry = cur at *
    have hc' : cur / BASE < BASE := Nat.div_lt_of_lt_mul hcur
    have hpos : i + j < r.length := by omega
    have hB' : Blocks (r.set (i + j) (cur % BASE)) := Blocks_set hB _ (Nat.mod_lt _ BASE_pos)
    have hlen' : i + (j + 1) + k ≤ (r.set (i + j) (cur % BASE)).length := by simp; omega
    obtain ⟨h1, h2, h3, h4⟩ := ih (j + 1) (cur / BASE) (r.set (i + j) (cur % BASE)) hlen' hc' hB'
    refine ⟨by simpa using h1, h2, h3, ?_⟩
    have hset := val_set r (i + j) (cur % BASE) hpos
    have htk := val_take_succ b j
    have hdm : cur % BASE + BASE * (cur / BASE) = cur := Nat.mod_add_div cur BASE
    have e1 : i + (j + 1) + k = i + j + (k + 1) := by omega
    have e2 : j + 1 + k = j + (k + 1) := by omega
    rw [e1, e2] at h4
    have e3 : i + (j + 1) = i + j + 1 := by omega
    rw [e3] at h4
    zify at h4 hset htk hdm hcurdef ⊢
    rw [htk] at h4
    linear_combination h4 + hset + ((BASE : Int) ^ (i + j)) * hdm
      - ((BASE : Int) ^ (i + j)) * hcurdef

theorem mul_abs_carry_spec :
    ∀ (k pos carry : Nat) (r : List Nat), pos + k = r.length → Blocks r → carry < BASE →
      val r + BASE ^ pos * carry < BASE ^ r.length →
      ∃ r2, mul_abs_carry k pos carry r = .ok r2 ∧ r2.length = r.length ∧ Blocks r2 ∧
        val r2 = val r + BASE ^ pos * carry := by
  intro k
  induction k with
  | zero =>
    intro pos carry r hlen hB _ hfit
    have hpos : pos = r.length := by omega
    have hc : carry = 0 := by
      by_contra hne
      have : BASE ^ pos * 1 ≤ BASE ^ pos * carry := Nat.mul_le_mul_left _ (Nat.pos_of_ne_zero hne)
      rw [hpos] at this
      rw [hpos] at hfit
      omega
    subst hc
    exact ⟨r, by simp [mul_abs_carry], rfl, hB, by simp⟩
  | succ k ih =>
    intro pos carry r hlen hB hcb hfit
    by_cases hc : carry > 0
    · have hpos : pos < r.length := by omega
      simp only [mul_abs_carry, hc, hpos, if_true]
      have hr := getD_lt_of_Blocks hB pos
      have hc64 : (r.getD pos 0 + carry) % U64 = r.getD pos 0 + carry :=
        Nat.mod_eq_of_lt (by simp only [BASE, U64] at *; omega)
      rw [hc64, mod_BASE_mod_U32]
      generalize hcurdef : r.getD pos 0 + carry = cur at *
      have hc' : cur / BASE < BASE := by
        have : cur / BASE < 2 := Nat.div_lt_of_lt_mul (by omega)
        simp only [BASE] at *; omega
      have hB' : Blocks (r.set pos (cur % BASE)) := Blocks_set hB _ (Nat.mod_lt _ BASE_pos)
      have hset := val_set r pos (cur % BASE) hpos
      have hdm : cur % BASE + BASE * (cur / BASE) = cur := Nat.mod_add_div cur BASE
      have hv : val (r.set pos (cur % BASE)) + BASE ^ (pos + 1) * (cur / BASE)
          = val r + BASE ^ pos * carry := by
        zify at hset hdm hcurdef ⊢
        linear_combination hset + ((BASE : Int) ^ pos) * hdm - ((BASE : Int) ^ pos) * hcurdef
      obtain ⟨r2, h1, h2, h3, h4⟩ := ih (pos + 1) (cur / BASE) (r.set pos (cur % BASE))
        (by simp; omega) hB' hc' (by simp only [List.length_set]; omega)
      exact ⟨r2, h1, by simpa using h2, h3, by omega⟩
    · have hz : carry = 0 := by omega
      subst hz
      exact ⟨r, by simp [mul_abs_carry], rfl, hB, by simp⟩

theorem mul_abs_outer_spec {a b : List Nat} (ha : Blocks a) (hb : Blocks b) :
    ∀ (k i : Nat) (r : List Nat), i + k = a.length → r.length = a.length + b.length →
      Blocks r → val r = val (a.take i) * val b →
      ∃ r2, mul_abs_outer a b k i r = .ok r2 ∧ r2.length = r.length ∧ Blocks r2 ∧
        val r2 = val (a.take (i + k)) * val b := by
  intro k
  induction k with
  | zero =>
    intro i r _ _ hB hv
    exact ⟨r, rfl, rfl, hB, by simpa using hv⟩
  | succ k ih =>
    intro i r hik hlen hB hv
    simp only [mul_abs_outer]
    have hxi := getD_lt_of_Blocks ha i
    obtain ⟨h1, h2, h3, h4⟩ := mul_abs_inner_spec hxi hb i b.length 0 0 r (by omega)
      BASE_pos hB
    generalize mul_abs_inner (a.getD i 0) b i b.length 0 0 r = row at *
    simp only [Nat.add_zero, Nat.zero_add, List.take_zero, val_nil, Nat.mul_zero,
      val_take_of_le b (le_refl _)] at h4
    have htk := val_take_succ a i
    have hrow : val row.1 + BASE ^ (i + b.length) * row.2 = val (a.take (i + 1)) * val b := by
      rw [htk]
      zify at h4 hv ⊢
      linear_combination h4 + hv
    have hfit : val row.1 + BASE ^ (i + b.length) * row.2 < BASE ^ row.1.length := by
      rw [hrow, h1, hlen]
      have ha1 := val_take_lt ha (i + 1)
      have hb1 := val_lt_pow hb
      have hle : BASE ^ (i + 1) * BASE ^ b.length ≤ BASE ^ (a.length + b.length) := by
        rw [← pow_add]
        exact Nat.pow_le_pow_right BASE_pos (by omega)
      have : val (a.take (i + 1)) * val b < BASE ^ (i + 1) * BASE ^ b.length :=
        Nat.mul_lt_mul'' ha1 hb1
      omega
    obtain ⟨r2, g1, g2, g3, g4⟩ := mul_abs_carry_spec (row.1.length - (i + b.length))
      (i + b.length) row.2 row.1 (by omega) h2 h3 hfit
    rw [g1]
    simp only
    obtain ⟨r3, f1, f2, f3, f4⟩ := ih (i + 1) r2 (by omega) (by omega) g3 (by rw [g4, hrow])
    refine ⟨r3, f1, by omega, f3, ?_⟩
    rw [f4]
    have : i + 1 + k = i + (k + 1) := by omega
    rw [this]

/-- The function `mul_abs` on blocks in range: it returns, the result is a canonical
sequence, and its value is `|a| * |b|`. -/
theorem mul_abs_spec {a b : BigInt} (ha : Blocks a.d) (hb : Blocks b.d) :
    ∃ r, mul_abs a b = .ok r ∧ CanonMag r.d ∧ val r.d = val a.d * val b.d ∧ r.neg = false := by
  unfold mul_abs
  by_cases he : (a.d.isEmpty || b.d.isEmpty) = true
  · simp only [he, if_true]
    refine ⟨BigInt.zero, rfl, CanonMag_nil, ?_, rfl⟩
    simp only [Bool.or_eq_true, List.isEmpty_iff] at he
    rcases he with h | h <;> simp [BigInt.zero, h, val]
  · simp only [he, if_false]
    obtain ⟨r2, h1, _, h3, h4⟩ := mul_abs_outer_spec ha hb a.d.length 0
      (List.replicate (a.d.length + b.d.length) 0) (by omega) (by simp)
      (Blocks_replicate_zero _) (by simp [val_replicate_zero, val])
    rw [h1]
    refine ⟨_, rfl, ?_, ?_, trim_neg_false _⟩
    · rw [trim_d]; exact CanonMag_trim_vec h3
    · rw [trim_d, val_trim_vec, h4]
      simp only [Nat.zero_add, val_take_of_le a.d (le_refl _)]

/-! ### `split_at`, `shift_base_abs` and `mul_karatsuba_abs` -/

theorem split_at_spec {a : BigInt} (ha : CanonMag a.d) (k : Nat) :
    CanonMag (split_at a k).1.d ∧ CanonMag (split_at a k).2.d ∧
    val a.d = val (split_at a k).1.d + BASE ^ k * val (split_at a k).2.d ∧
    (split_at a k).1.d.length ≤ k ∧ (split_at a k).1.d.length ≤ a.d.length ∧
    (split_at a k).2.d.length ≤ a.d.length - k ∧
    (split_at a k).1.neg = false ∧ (split_at a k).2.neg = false := by
  unfold split_at
  by_cases h : a.d.length ≤ k
  · rw [if_pos h]
    exact ⟨ha, CanonMag_nil, by simp [val], h, le_refl _, by simp, rfl, rfl⟩
  · simp only [h, if_false, trim_d, trim_neg_false]
    refine ⟨CanonMag_trim_vec (Blocks_take ha.1 k), CanonMag_trim_vec (Blocks_drop ha.1 k),
      ?_, ?_, ?_, ?_, trivial, trivial⟩
    · rw [val_trim_vec, val_trim_vec]
      conv_lhs => rw [← List.take_append_drop k a.d]
      rw [val_append]
      have : (a.d.take k).length = k := by simp; omega
      rw [this]
    · exact le_trans (length_trim_vec_le _) (by simp)
    · exact le_trans (length_trim_vec_le _) (by simp)
    · exact le_trans (length_trim_vec_le _) (by simp)

theorem set_replicate_zero (L i : Nat) : (List.replicate L 0).set i 0 = List.replicate L 0 := by
  induction L generalizing i with
  | zero => simp
  | succ L ih =>
    cases i with
    | zero => simp [List.replicate_succ]
    | succ i => simp [List.replicate_succ, ih]

theorem shift_base_abs_zero_replicate (L : Nat) :
    ∀ n i, shift_base_abs_zero n i (List.replicate L 0) = List.replicate L 0 := by
  intro n
  induction n with
  | zero => intro i; rfl
  | succ n ih => intro i; simp only [shift_base_abs_zero, set_replicate_zero, ih]

theorem drop_eq_getD_cons (a : List Nat) (j : Nat) (h : j < a.length) :
    a.drop j = a.getD j 0 :: a.drop (j + 1) := by
  induction a generalizing j with
  | nil => simp at h
  | cons x xs ih =>
    cases j with
    | zero => simp
    | succ j =>
      simp only [List.length_cons, Nat.add_lt_add_iff_right] at h
      simpa using ih j h

theorem shift_base_abs_copy_spec (a : List Nat) (k : Nat) :
    ∀ (n j : Nat) (r : List Nat), r.length = a.length + k → j + n = a.length →
      shift_base_abs_copy a k n j r = r.take (k + j) ++ a.drop j := by
  intro n
  induction n with
  | zero =>
    intro j r hl hj
    simp only [shift_base_abs_copy]
    have : j = a.length := by omega
    subst this
    rw [List.drop_length, List.append_nil, List.take_of_length_le (by omega)]
  | succ n ih =>
    intro j r hl hj
    simp only [shift_base_abs_copy]
    rw [ih (j + 1) _ (by simpa using hl) (by omega)]
    have e : k + (j + 1) = (k + j) + 1 := by omega
    rw [e, take_set_succ r (k + j) _ (by omega), drop_eq_getD_cons a j (by omega)]
    simp

theorem shift_base_abs_d (a : BigInt) (k : Nat) (hne : a.d ≠ []) :
    (shift_base_abs a k).d = List.replicate k 0 ++ a.d := by
  unfold shift_base_abs
  have he : a.d.isEmpty = false := by
    cases h : a.d with
    | nil => exact absurd h hne
    | cons x xs => rfl
  simp only [he, Bool.false_eq_true, if_false]
  rw [shift_base_abs_zero_replicate,
    shift_base_abs_copy_spec a.d k a.d.length 0 _ (by simp) (by omega)]
  simp

theorem shift_base_abs_spec (a : BigInt) (k : Nat) (ha : Blocks a.d) :
    Blocks (shift_base_abs a k).d ∧ val (shift_base_abs a k).d = BASE ^ k * val a.d ∧
      (shift_base_abs a k).d.length ≤ a.d.length + k := by
  by_cases hne : a.d = []
  · have : shift_base_abs a k = BigInt.zero := by
      unfold shift_base_abs; simp [hne]
    rw [this, hne]
    exact ⟨Blocks_nil, by simp [BigInt.zero, val], by simp [BigInt.zero]⟩
  · rw [shift_base_abs_d a k hne]
    refine ⟨Blocks_append.2 ⟨Blocks_replicate_zero k, ha⟩, ?_, by simp; omega⟩
    rw [val_append, val_replicate_zero]; simp

theorem mul_karatsuba_abs_fuel_spec :
    ∀ (fuel : Nat) (a b : BigInt), CanonMag a.d → CanonMag b.d →
      max a.d.length b.d.length < fuel →
      ∃ r, mul_karatsuba_abs_fuel fuel a b = .ok r ∧ CanonMag r.d ∧
        val r.d = val a.d * val b.d ∧ r.neg = false := by
  intro fuel
  induction fuel with
  | zero => intro a b _ _ h; omega
  | succ fuel ih =>
    intro a b ha hb hfuel
    simp only [mul_karatsuba_abs_fuel]
    by_cases h0 : a.d.length = 0 ∨ b.d.length = 0
    · simp only [h0, if_true]
      refine ⟨BigInt.zero, rfl, CanonMag_nil, ?_, rfl⟩
      rcases h0 with h | h
      · rw [List.length_eq_zero] at h; simp [BigInt.zero, h, val]
      · rw [List.length_eq_zero] at h; simp [BigInt.zero, h, val]
    · simp only [h0, if_false]
      by_cases h1 : a.d.length < KARATSUBA_THRESHOLD ∨ b.d.length < KARATSUBA_THRESHOLD
      · simp only [h1, if_true]
        exact mul_abs_spec ha.1 hb.1
      · simp only [h1, if_false]
        simp only [KARATSUBA_THRESHOLD, not_or, not_lt] at h1
        generalize hk : (if a.d.length > b.d.length then a.d.length else b.d.length) = k
        have hkmax : k = max a.d.length b.d.length := by
          rw [← hk]; split <;> omega
        have hk32 : 32 ≤ k := by omega
        obtain ⟨ax0, ax1, axv, axl, -, axh, -, -⟩ := split_at_spec ha (k / 2)
        obtain ⟨bx0, bx1, bxv, bxl, -, bxh, -, -⟩ := split_at_spec hb (k / 2)
        generalize split_at a (k / 2) = xs at *
        generalize split_at b (k / 2) = ys at *
        obtain ⟨z0, e0, c0, v0, -⟩ := ih xs.1 ys.1 ax0 bx0 (by omega)
        obtain ⟨z2, e2, c2, v2, -⟩ := ih xs.2 ys.2 ax1 bx1 (by omega)
        obtain ⟨csx, vsx, -⟩ := add_abs_spec (a := xs.1) (b := xs.2) ax0.1 ax1.1
        obtain ⟨csy, vsy, -⟩ := add_abs_spec (a := ys.1) (b := ys.2) bx0.1 bx1.1
        have lsx := length_add_abs_le xs.1 xs.2 ax0.1 ax1.1
        have lsy := length_add_abs_le ys.1 ys.2 bx0.1 bx1.1
        obtain ⟨z1, e1, c1, v1, -⟩ := ih (add_abs xs.1 xs.2) (add_abs ys.1 ys.2) csx csy
          (by omega)
        rw [e0, e2]
        simp only
        rw [e1]
        simp only
        have hz10 : val z0.d ≤ val z1.d := by
          rw [v0, v1, vsx, vsy]
          exact Nat.mul_le_mul (Nat.le_add_right _ _) (Nat.le_add_right _ _)
        obtain ⟨ca, va, -⟩ := sub_abs_spec (a := z1) (b := z0) c1.1 c0 hz10
        have hz12 : val z2.d ≤ val (sub_abs z1 z0).d := by
          have : val (sub_abs z1 z0).d + val xs.1.d * val ys.1.d
              = (val xs.1.d + val xs.2.d) * (val ys.1.d + val ys.2.d) := by
            rw [← v0, va, v1, vsx, vsy]
          have e : (val xs.1.d + val xs.2.d) * (val ys.1.d + val ys.2.d)
              = val xs.1.d * val ys.1.d
                + (val xs.1.d * val ys.2.d + val xs.2.d * val ys.1.d + val xs.2.d * val ys.2.d) := by
            ring
          rw [e] at this
          rw [v2]
          omega
        obtain ⟨cb, vb, -⟩ := sub_abs_spec (a := sub_abs z1 z0) (b := z2) ca.1 c2 hz12
        obtain ⟨s1B, s1v, -⟩ := shift_base_abs_spec (sub_abs (sub_abs z1 z0) z2) (k / 2) cb.1
        obtain ⟨s2B, s2v, -⟩ := shift_base_abs_spec z2 (2 * (k / 2)) c2.1
        obtain ⟨cr1, vr1, -⟩ := add_abs_spec
          (a := shift_base_abs (sub_abs (sub_abs z1 z0) z2) (k / 2)) (b := z0) s1B c0.1
        obtain ⟨cr2, vr2, -⟩ := add_abs_spec (a := shift_base_abs z2 (2 * (k / 2)))
          (b := add_abs (shift_base_abs (sub_abs (sub_abs z1 z0) z2) (k / 2)) z0) s2B cr1.1
        refine ⟨_, rfl, ?_, ?_, trim_neg_false _⟩
        · rw [trim_d]; exact CanonMag_trim_vec cr2.1
        · rw [trim_d, val_trim_vec, vr2, vr1, s1v, s2v, axv, bxv, v0, v2]
          rw [v0, v1, vsx, vsy] at va
          rw [v2] at vb
          have hp : BASE ^ (2 * (k / 2)) = BASE ^ (k / 2) * BASE ^ (k / 2) := by
            have h2 : 2 * (k / 2) = k / 2 + k / 2 := by omega
            rw [h2, pow_add]
          rw [hp]
          zify at va vb ⊢
          linear_combination ((BASE : Int) ^ (k / 2)) * vb + ((BASE : Int) ^ (k / 2)) * va

/-- The function `mul_karatsuba_abs` on canonical magnitudes: it returns, the result
is canonical, and its value is `|a| * |b|`. -/
theorem mul_karatsuba_abs_spec {a b : BigInt} (ha : CanonMag a.d) (hb : CanonMag b.d) :
    ∃ r, mul_karatsuba_abs a b = .ok r ∧ CanonMag r.d ∧
      val r.d = val a.d * val b.d ∧ r.neg = false :=
  mul_karatsuba_abs_fuel_spec _ a b ha hb (Nat.lt_succ_self _)

/-! ### The division engine `div_mod` -/

theorem div_mod_prod_loop_spec {b : List Nat} (hb : Blocks b) {mid : Nat} (hmid : mid < BASE) :
    ∀ (k j carry : Nat) (prod : List Nat), j + k = b.length → prod.length = b.length + 1 →
      carry < BASE → Blocks (prod.take j) →
      val (prod.take j) + BASE ^ j * carry = val (b.take j) * mid →
      (div_mod_prod_loop b mid k j carry prod).1.length = b.length + 1 ∧
      Blocks ((div_mod_prod_loop b mid k j carry prod).1.take (j + k)) ∧
      (div_mod_prod_loop b mid k j carry prod).2 < BASE ∧
      val ((div_mod_prod_loop b mid k j carry prod).1.take (j + k))
          + BASE ^ (j + k) * (div_mod_prod_loop b mid k j carry prod).2
        = val (b.take (j + k)) * mid := by
  intro k
  induction k with
  | zero =>
    intro j carry prod _ hl hc hB hv
    simp only [div_mod_prod_loop, Nat.add_zero]
    exact ⟨hl, hB, hc, hv⟩
  | succ k ih =>
    intro j carry prod hjk hl hc hB hv
    simp only [div_mod_prod_loop]
    have hbj := getD_lt_of_Blocks hb j
    have hprod := mul_lt_BASE_sq hbj hmid
    have hp64 : (b.getD j 0 * mid) % U64 = b.getD j 0 * mid :=
      Nat.mod_eq_of_lt (by simp only [BASE, U64] at *; omega)
    rw [hp64]
    have hcur : b.getD j 0 * mid + carry < BASE * BASE := by
      simp only [BASE] at *; omega
    have hc64 : (b.getD j 0 * mid + carry) % U64 = b.getD j 0 * mid + carry :=
      Nat.mod_eq_of_lt (by simp only [BASE, U64] at *; omega)
    rw [hc64, mod_BASE_mod_U32]
    generalize hcurdef : b.getD j 0 * mid + carry = cur at *
    have hc' : cur / BASE < BASE := Nat.div_lt_of_lt_mul hcur
    have hj : j < prod.length := by omega
    have hB' : Blocks ((prod.set j (cur % BASE)).take (j + 1)) := by
      rw [take_set_succ prod j _ hj, Blocks_append]
      refine ⟨hB, ?_⟩
      intro x hx'
      simp only [List.mem_singleton] at hx'
      rw [hx']; exact Nat.mod_lt _ BASE_pos
    have hdm : cur % BASE + BASE * (cur / BASE) = cur := Nat.mod_add_div cur BASE
    have hv' : val ((prod.set j (cur % BASE)).take (j + 1)) + BASE ^ (j + 1) * (cur / BASE)
        = val (b.take (j + 1)) * mid := by
      rw [take_set_succ prod j _ hj, val_append, val_take_succ]
      have hl2 : (prod.take j).length = j := by simp; omega
      rw [hl2]
      simp only [val_cons, val_nil, Nat.mul_zero, Nat.add_zero]
      zify at hv hdm hcurdef ⊢
      linear_combination hv + ((BASE : Int) ^ j) * hdm - ((BASE : Int) ^ j) * hcurdef
    have := ih (j + 1) (cur / BASE) (prod.set j (cur % BASE)) (by omega) (by simpa using hl)
      hc' hB' hv'
    have e3 : j + 1 + k = j + (k + 1) := by omega
    rw [e3] at this
    exact this

/-- The block `prod` of `div_mod` is the canonical sequence of `|b| * mid`. -/
theorem div_mod_prod_spec {b : List Nat} (hb : Blocks b) {mid : Nat} (hmid : mid < BASE) :
    CanonMag (div_mod_prod b mid) ∧ val (div_mod_prod b mid) = val b * mid := by
  unfold div_mod_prod
  obtain ⟨h1, h2, h3, h4⟩ := div_mod_prod_loop_spec hb hmid b.length 0 0
    (List.replicate (b.length + 1) 0) (by omega) (by simp) BASE_pos
    (by simpa using Blocks_nil) (by simp [val])
  generalize div_mod_prod_loop b mid b.length 0 0 (List.replicate (b.length + 1) 0) = out at *
  dsimp only
  simp only [Nat.zero_add] at h2 h4
  rw [val_take_of_le b (le_refl _)] at h4
  have h32 : out.2 % U32 = out.2 := Nat.mod_eq_of_lt (lt_trans h3 (by decide))
  rw [h32]
  have hwhole : out.1.set b.length out.2 = out.1.take b.length ++ [out.2] := by
    have := take_set_succ out.1 b.length out.2 (by omega)
    rw [← this, List.take_of_length_le (by simp; omega)]
  rw [hwhole]
  have hB : Blocks (out.1.take b.length ++ [out.2]) := by
    rw [Blocks_append]
    refine ⟨h2, ?_⟩
    intro x hx
    simp only [List.mem_singleton] at hx
    rw [hx]; exact h3
  refine ⟨CanonMag_trim_vec hB, ?_⟩
  rw [val_trim_vec, val_append]
  have hl2 : (out.1.take b.length).length = b.length := by simp; omega
  rw [hl2]
  simp only [val_cons, val_nil, Nat.mul_zero, Nat.add_zero]
  exact h4

theorem div_mod_search_spec {b r : List Nat} (hb : Blocks b) (hr : Blocks r)
    (hbpos : 0 < val b) (hfit : val r < val b * BASE) :
    ∀ (fuel low high best : Nat), high + 1 - low ≤ fuel → high < BASE →
      low ≤ val r / val b + 1 → val r / val b ≤ high → best = low - 1 →
      div_mod_search b r fuel low high best = val r / val b := by
  have ht : val r / val b < BASE := (Nat.div_lt_iff_lt_mul hbpos).2 (by rw [Nat.mul_comm] at hfit; exact hfit)
  intro fuel
  induction fuel with
  | zero =>
    intro low high best hf _ hlow hhigh hbest
    simp only [div_mod_search]
    omega
  | succ fuel ih =>
    intro low high best hf hhB hlow hhigh hbest
    simp only [div_mod_search]
    by_cases hlh : low ≤ high
    · simp only [hlh, if_true]
      have hd32 : (high - low) % U32 = high - low :=
        Nat.mod_eq_of_lt (by simp only [BASE, U32] at *; omega)
      rw [hd32]
      have hm32 : (low + (high - low) / 2) % U32 = low + (high - low) / 2 :=
        Nat.mod_eq_of_lt (by simp only [BASE, U32] at *; omega)
      rw [hm32]
      generalize hmid : low + (high - low) / 2 = mid
      have hmlo : low ≤ mid := by omega
      have hmhi : mid ≤ high := by omega
      have hmB : mid < BASE := by omega
      obtain ⟨hpc, hpv⟩ := div_mod_prod_spec hb hmB
      obtain ⟨hok, -⟩ := sub_inplace_spec hr hpc
      rw [hpv] at hok
      have hiff : val b * mid ≤ val r ↔ mid ≤ val r / val b := by
        rw [Nat.le_div_iff_mul_le hbpos, Nat.mul_comm]
      by_cases hle : mid ≤ val r / val b
      · have : (sub_inplace r (div_mod_prod b mid)).1 = true := hok.2 (hiff.2 hle)
        simp only [this, if_true]
        have hs32 : (mid + 1) % U32 = mid + 1 :=
          Nat.mod_eq_of_lt (by simp only [BASE, U32] at *; omega)
        rw [hs32]
        exact ih (mid + 1) high mid (by omega) hhB (by omega) hhigh (by omega)
      · have : ¬ ((sub_inplace r (div_mod_prod b mid)).1 = true) := fun h => hle (hiff.1 (hok.1 h))
        simp only [this, if_false]
        have hm0 : mid ≠ 0 := by
          intro h0
          exact hle (by rw [h0]; exact Nat.zero_le _)
        simp only [hm0, if_false]
        have hs32 : (mid - 1) % U32 = mid - 1 :=
          Nat.mod_eq_of_lt (by simp only [BASE, U32] at *; omega)
        rw [hs32]
        exact ih low (mid - 1) best (by omega) (by omega) hlow (by omega) hbest
    · simp only [hlh, if_false]
      omega

theorem div_mod_loop_spec {a b : List Nat} (ha : Blocks a) (hb : CanonMag b) (hbpos : 0 < val b) :
    ∀ (i : Nat) (q r : List Nat), i ≤ a.length → q.length = a.length → Blocks q →
      CanonMag r → val r < val b →
      val (a.drop i) = val (q.drop i) * val b + val r →
      (div_mod_loop a b i q r).1.length = a.length ∧ Blocks (div_mod_loop a b i q r).1 ∧
      CanonMag (div_mod_loop a b i q r).2 ∧ val (div_mod_loop a b i q r).2 < val b ∧
      val a = val (div_mod_loop a b i q r).1 * val b + val (div_mod_loop a b i q r).2 := by
  intro i
  induction i with
  | zero =>
    intro q r _ hq hBq hr hlt hv
    simp only [div_mod_loop]
    exact ⟨hq, hBq, hr, hlt, by simpa using hv⟩
  | succ i ih =>
    intro q r hi hq hBq hr hlt hv
    simp only [div_mod_loop]
    have hai := getD_lt_of_Blocks ha i
    have hcons : (0 :: r).set 0 (a.getD i 0) = a.getD i 0 :: r := rfl
    rw [hcons]
    have hB1 : Blocks (a.getD i 0 :: r) := Blocks_cons.2 ⟨hai, hr.1⟩
    have hc1 : CanonMag (trim_vec (a.getD i 0 :: r)) := CanonMag_trim_vec hB1
    have hv1 : val (trim_vec (a.getD i 0 :: r)) = a.getD i 0 + BASE * val r := by
      rw [val_trim_vec, val_cons]
    generalize trim_vec (a.getD i 0 :: r) = r1 at *
    have hfit : val r1 < val b * BASE := by
      rw [hv1]
      have : BASE * (val r + 1) ≤ BASE * val b := Nat.mul_le_mul_left _ hlt
      rw [Nat.mul_add, Nat.mul_one] at this
      rw [Nat.mul_comm (val b) BASE]
      omega
    have hbest := div_mod_search_spec hb.1 hc1.1 hbpos hfit BASE 0 (BASE - 1) 0
      (by simp [BASE]) (by simp [BASE]) (Nat.zero_le _)
      (Nat.le_sub_one_of_lt
        ((Nat.div_lt_iff_lt_mul hbpos).2 (by rw [Nat.mul_comm] at hfit; exact hfit)))
      rfl
    rw [hbest]
    generalize hbd : val r1 / val b = best at *
    have hbB : best < BASE := by
      rw [← hbd]
      exact (Nat.div_lt_iff_lt_mul hbpos).2 (by rw [Nat.mul_comm] at hfit; exact hfit)
    have hdm : val b * best + val r1 % val b = val r1 := by
      rw [← hbd]; exact Nat.div_add_mod _ _
    have hmodlt : val r1 % val b < val b := Nat.mod_lt _ hbpos
    have hr2 : CanonMag (if best > 0 then (sub_inplace r1 (div_mod_prod b best)).2 else r1) ∧
        val (if best > 0 then (sub_inplace r1 (div_mod_prod b best)).2 else r1)
          = val r1 % val b := by
      by_cases hpos : best > 0
      · simp only [hpos, if_true]
        obtain ⟨hpc, hpv⟩ := div_mod_prod_spec hb.1 hbB
        obtain ⟨-, hsub⟩ := sub_inplace_spec hc1.1 hpc
        rw [hpv] at hsub
        obtain ⟨g1, g2⟩ := hsub (by omega)
        exact ⟨g1, by omega⟩
      · simp only [hpos, if_false]
        have hz : best = 0 := by omega
        rw [hz] at hdm
        exact ⟨hc1, by omega⟩
    obtain ⟨hr2c, hr2v⟩ := hr2
    generalize (if best > 0 then (sub_inplace r1 (div_mod_prod b best)).2 else r1) = r2 at *
    have hiq : i < q.length := by omega
    have hq1d : (q.set i best).drop i = best :: q.drop (i + 1) := by
      rw [drop_eq_getD_cons (q.set i best) i (by simpa using hiq), getD_set_self q i best hiq,
        drop_set_succ]
    have had : a.drop i = a.getD i 0 :: a.drop (i + 1) := drop_eq_getD_cons a i (by omega)
    have hpre : val (a.drop i) = val ((q.set i best).drop i) * val b + val r2 := by
      rw [had, hq1d, val_cons, val_cons, hv, hr2v]
      zify at hdm hv1 ⊢
      linear_combination -hv1 - hdm
    exact ih (q.set i best) r2 (by omega) (by simpa using hq) (Blocks_set hBq i hbB) hr2c
      (by omega) hpre

theorem val_pos_of_ne_nil {d : List Nat} (h : Trimmed d) (hne : d ≠ []) : 0 < val d := by
  rcases Nat.eq_zero_or_pos (val d) with h0 | h0
  · exact absurd ((val_eq_zero_iff h).1 h0) hne
  · exact h0

theorem isEmpty_eq_false_of_ne_nil {d : List Nat} (hne : d ≠ []) : d.isEmpty = false := by
  cases d with
  | nil => exact absurd rfl hne
  | cons x xs => rfl

/-- The function `div_mod` on canonical magnitudes with a non-zero divisor: it
returns canonical non-negative `q`, `r` with `|a| = q * |b| + r` and `r < |b|`. -/
theorem div_mod_spec {a b : BigInt} (ha : CanonMag a.d) (hb : CanonMag b.d) (hne : b.d ≠ []) :
    ∃ q r, div_mod a b = .ok (q, r) ∧ Canonical q ∧ Canonical r ∧ q.neg = false ∧
      r.neg = false ∧ val a.d = val q.d * val b.d + val r.d ∧ val r.d < val b.d := by
  have hbpos : 0 < val b.d := val_pos_of_ne_nil hb.2 hne
  have hbe : b.d.isEmpty = false := isEmpty_eq_false_of_ne_nil hne
  unfold div_mod
  simp only [hbe, Bool.false_eq_true, if_false]
  by_cases hae : a.d = []
  · simp only [hae, List.isEmpty_nil, if_true]
    exact ⟨_, _, rfl, ⟨CanonMag_nil, fun _ => rfl⟩, ⟨CanonMag_nil, fun _ => rfl⟩, rfl, rfl,
      by simp [BigInt.zero, val], by simpa [BigInt.zero, val] using hbpos⟩
  · simp only [isEmpty_eq_false_of_ne_nil hae, Bool.false_eq_true, if_false]
    by_cases hlt : cmp_abs a b < 0
    · simp only [hlt, if_true]
      have := (cmp_abs_neg_iff ha hb).1 hlt
      exact ⟨_, _, rfl, ⟨CanonMag_nil, fun _ => rfl⟩, ⟨ha, fun _ => rfl⟩, rfl, rfl,
        by simp [BigInt.zero, val], this⟩
    · simp only [hlt, if_false]
      by_cases heq : cmp_abs a b = 0
      · simp only [heq, if_true]
        have := (cmp_abs_zero_iff ha hb).1 heq
        refine ⟨_, _, rfl, ⟨⟨?_, ?_⟩, fun _ => rfl⟩, ⟨CanonMag_nil, fun _ => rfl⟩, rfl, rfl,
          by simp [BigInt.zero, val, this], by simpa [BigInt.zero, val] using hbpos⟩
        · intro x hx; simp at hx; rw [hx]; decide
        · simp [Trimmed]
      · simp only [heq, if_false]
        obtain ⟨h1, h2, h3, h4, h5⟩ := div_mod_loop_spec ha.1 hb hbpos a.d.length
          (List.replicate a.d.length 0) [] (le_refl _) (by simp) (Blocks_replicate_zero _)
          CanonMag_nil (by simpa [val] using hbpos) (by simp [val])
        generalize div_mod_loop a.d b.d a.d.length (List.replicate a.d.length 0) [] = out at *
        have hq : CanonMag (trim_vec out.1) := CanonMag_trim_vec h2
        refine ⟨_, _, rfl, ⟨?_, ?_⟩, ⟨?_, ?_⟩, trim_neg_false _, trim_neg_false _, ?_, ?_⟩
        · rw [trim_d]; exact CanonMag_trim_vec hq.1
        · intro _; exact trim_neg_false _
        · rw [trim_d]; exact CanonMag_trim_vec h3.1
        · intro _; exact trim_neg_false _
        · simp only [trim_d, val_trim_vec]; exact h5
        · simp only [trim_d, val_trim_vec]; exact h4

/-! ## The signed layer -/

theorem value_eq (x : BigInt) :
    value x = if x.neg then -((val x.d : Nat) : Int) else ((val x.d : Nat) : Int) := rfl

theorem val_pos_of_neg {x : BigInt} (hx : Canonical x) (hn : x.neg = true) : 0 < val x.d := by
  apply val_pos_of_ne_nil hx.1.2
  intro h
  have := hx.2 h
  rw [hn] at this; cases this

theorem val_nil_of_eq_zero {x : BigInt} (hx : Canonical x) (h : val x.d = 0) :
    x.d = [] ∧ x.neg = false := by
  have := (val_eq_zero_iff hx.1.2).1 h
  exact ⟨this, hx.2 this⟩

/-- Two canonical `BigInt`s with the same integer value are the same object. -/
theorem Canonical_ext {x y : BigInt} (hx : Canonical x) (hy : Canonical y)
    (h : value x = value y) : x = y := by
  have key : val x.d = val y.d ∧ x.neg = y.neg := by
    rw [value_eq, value_eq] at h
    cases hxn : x.neg <;> cases hyn : y.neg <;> simp only [hxn, hyn, if_true, if_false,
      Bool.false_eq_true] at h
    · exact ⟨by exact_mod_cast h, rfl⟩
    · have := val_pos_of_neg hy hyn
      omega
    · have := val_pos_of_neg hx hxn
      omega
    · exact ⟨by omega, rfl⟩
  have hd := CanonMag_ext hx.1 hy.1 key.1
  cases x; cases y
  simp only at hd key
  simp [hd, key.2]

/-- The operator `-=` on canonical operands: canonical, of value `a - b`. -/
theorem op_sub_assign_spec {a b : BigInt} (ha : Canonical a) (hb : Canonical b) :
    Canonical (op_sub_assign a b) ∧ value (op_sub_assign a b) = value a - value b := by
  unfold op_sub_assign
  dsimp only
  by_cases hs : a.neg ≠ b.neg
  · rw [if_pos hs]
    obtain ⟨hc, hv, -⟩ := add_abs_spec ha.1.1 hb.1.1
    refine ⟨⟨hc, ?_⟩, ?_⟩
    · intro he
      simp only at he
      have h0 : val (add_abs a b).d = 0 := by rw [he]; rfl
      have hza : val a.d = 0 := by omega
      exact (val_nil_of_eq_zero ha hza).2
    · simp only [value_eq, hv]
      cases han : a.neg <;> cases hbn : b.neg <;> simp_all
      all_goals omega
  · rw [if_neg hs]
    have hs2 : a.neg = b.neg := by simpa using hs
    by_cases hc : cmp_abs a b ≥ 0
    · rw [if_pos hc]
      have hle := (cmp_abs_nonneg_iff ha.1 hb.1).1 hc
      obtain ⟨hcm, hv, -⟩ := sub_abs_spec ha.1.1 hb.1 hle
      refine ⟨⟨hcm, ?_⟩, ?_⟩
      · intro he
        simp only at he
        simp [he]
      · simp only [value_eq]
        by_cases he : (sub_abs a b).d = []
        · have h0 : val (sub_abs a b).d = 0 := by rw [he]; rfl
          simp only [he, List.isEmpty_nil, if_true, Bool.false_eq_true, if_false, val_nil]
          rw [← hs2]
          split <;> (push_cast; omega)
        · simp only [isEmpty_eq_false_of_ne_nil he, Bool.false_eq_true, if_false]
          rw [← hs2]
          split <;> omega
    · rw [if_neg hc]
      have hlt := (cmp_abs_neg_iff ha.1 hb.1).1 (by omega)
      obtain ⟨hcm, hv, -⟩ := sub_abs_spec hb.1.1 ha.1 (le_of_lt hlt)
      refine ⟨⟨hcm, ?_⟩, ?_⟩
      · intro he
        simp only at he
        have h0 : val (sub_abs b a).d = 0 := by rw [he]; rfl
        omega
      · simp only [value_eq]
        rw [← hs2]
        cases han : a.neg <;> simp <;> omega

/-- The operator `+=` on canonical operands, except for a negative receiver of
larger magnitude than a non-negative right operand: canonical, of value `a + b`. -/
theorem op_add_assign_spec {a b : BigInt} (ha : Canonical a) (hb : Canonical b)
    (hok : ¬ (a.neg = true ∧ b.neg = false ∧ val b.d < val a.d)) :
    Canonical (op_add_assign a b) ∧ value (op_add_assign a b) = value a + value b := by
  unfold op_add_assign
  dsimp only
  by_cases hs : a.neg = b.neg
  · rw [if_pos hs]
    obtain ⟨hc, hv, -⟩ := add_abs_spec ha.1.1 hb.1.1
    refine ⟨⟨hc, ?_⟩, ?_⟩
    · intro he
      simp only at he
      have h0 : val (add_abs a b).d = 0 := by rw [he]; rfl
      have hzb : val b.d = 0 := by omega
      exact (val_nil_of_eq_zero hb hzb).2
    · simp only [value_eq, hv, hs]
      split <;> (push_cast; omega)
  · rw [if_neg hs]
    by_cases hc : cmp_abs a b ≥ 0
    · rw [if_pos hc]
      have hle := (cmp_abs_nonneg_iff ha.1 hb.1).1 hc
      obtain ⟨hcm, hv, hn⟩ := sub_abs_spec ha.1.1 hb.1 hle
      refine ⟨⟨hcm, ?_⟩, ?_⟩
      · intro he
        simp only at he
        simp [he]
      · simp only [value_eq, hn]
        cases han : a.neg <;> cases hbn : b.neg <;> simp_all <;> try omega
    · rw [if_neg hc]
      have hlt := (cmp_abs_neg_iff ha.1 hb.1).1 (by omega)
      obtain ⟨hcm, hv, -⟩ := sub_abs_spec hb.1.1 ha.1 (le_of_lt hlt)
      refine ⟨⟨hcm, ?_⟩, ?_⟩
      · intro he
        simp only at he
        have h0 : val (sub_abs b a).d = 0 := by rw [he]; rfl
        omega
      · simp only [value_eq]
        cases han : a.neg <;> cases hbn : b.neg <;> simp_all <;> try omega

theorem val_eq_zero_of_nil {d : List Nat} (h : d = []) : val d = 0 := by rw [h]; rfl

theorem ne_nil_of_length_ne_zero {d : List Nat} (h : ¬ d.length = 0) : d ≠ [] := by
  intro e; rw [e] at h; exact h rfl

/-- The operator `*=` on canonical operands: it returns, the result is canonical, of
value `a * b`, negative exactly when the signs differ and the product is not zero. -/
theorem op_mul_assign_spec {a b : BigInt} (ha : Canonical a) (hb : Canonical b) :
    ∃ r, op_mul_assign a b = .ok r ∧ Canonical r ∧ value r = value a * value b ∧
      val r.d = val a.d * val b.d ∧ r.neg = (!r.d.isEmpty && (a.neg != b.neg)) := by
  unfold op_mul_assign
  dsimp only
  by_cases h0 : a.d.length = 0 ∨ b.d.length = 0
  · rw [if_pos h0]
    have hz : val a.d * val b.d = 0 := by
      rcases h0 with h | h
      · rw [val_eq_zero_of_nil (List.length_eq_zero.1 h)]; simp
      · rw [val_eq_zero_of_nil (List.length_eq_zero.1 h)]; simp
    refine ⟨BigInt.zero, rfl, ⟨CanonMag_nil, fun _ => rfl⟩, ?_, by simp [BigInt.zero, val, hz],
      by simp [BigInt.zero]⟩
    have hz' : ((val a.d : Nat) : Int) * ((val b.d : Nat) : Int) = 0 := by exact_mod_cast hz
    simp only [value_eq, BigInt.zero, val_nil]
    cases a.neg <;> cases b.neg <;> simp <;> simpa using hz'
  · rw [if_neg h0]
    have hcore : ∃ r, (if a.d.length ≥ KARATSUBA_THRESHOLD ∨ b.d.length ≥ KARATSUBA_THRESHOLD
        then mul_karatsuba_abs { d := a.d, neg := false } { d := b.d, neg := false }
        else mul_abs { d := a.d, neg := false } { d := b.d, neg := false }) = .ok r ∧
        CanonMag r.d ∧ val r.d = val a.d * val b.d ∧ r.neg = false := by
      split
      · exact mul_karatsuba_abs_spec (a := { d := a.d, neg := false })
          (b := { d := b.d, neg := false }) ha.1 hb.1
      · exact mul_abs_spec (a := { d := a.d, neg := false })
          (b := { d := b.d, neg := false }) ha.1.1 hb.1.1
    obtain ⟨r, hr, hc, hv, -⟩ := hcore
    rw [hr]
    dsimp only
    simp only [not_or] at h0
    have hapos := val_pos_of_ne_nil ha.1.2 (ne_nil_of_length_ne_zero h0.1)
    have hbpos := val_pos_of_ne_nil hb.1.2 (ne_nil_of_length_ne_zero h0.2)
    have hrpos : 0 < val r.d := by rw [hv]; exact Nat.mul_pos hapos hbpos
    have hrne : r.d ≠ [] := by
      intro e; rw [val_eq_zero_of_nil e] at hrpos; exact lt_irrefl _ hrpos
    refine ⟨_, rfl, ⟨hc, fun e => absurd e hrne⟩, ?_, hv, rfl⟩
    simp only [value_eq, isEmpty_eq_false_of_ne_nil hrne, hv]
    cases a.neg <;> cases b.neg <;> simp

theorem nat_div_eq_of_eq_mul_add {a b q r : Nat} (h : a = q * b + r) (hr : r < b) : a / b = q := by
  have hb : 0 < b := by omega
  rw [h, Nat.add_comm, Nat.add_mul_div_right _ _ hb, Nat.div_eq_of_lt hr]; simp

/-- The operator `/=` on canonical operands with a non-zero divisor: it returns, the
result is canonical, and its value is the quotient truncated toward zero. -/
theorem op_div_assign_spec {a b : BigInt} (ha : Canonical a) (hb : Canonical b)
    (hne : b.d ≠ []) :
    ∃ q, op_div_assign a b = .ok q ∧ Canonical q ∧ value q = Int.tdiv (value a) (value b) ∧
      val q.d = val a.d / val b.d := by
  unfold op_div_assign
  rw [if_neg (by simp [isEmpty_eq_false_of_ne_nil hne])]
  obtain ⟨q, r, hqr, hq, -, -, -, hv, hlt⟩ := div_mod_spec (a := { d := a.d, neg := false })
    (b := { d := b.d, neg := false }) ha.1 hb.1 hne
  rw [hqr]
  dsimp only
  dsimp only at hv hlt
  have hqv : val a.d / val b.d = val q.d := nat_div_eq_of_eq_mul_add hv hlt
  refine ⟨_, rfl, ⟨hq.1, ?_⟩, ?_, hqv.symm⟩
  · intro e
    simp only at e
    simp [e]
  · simp only [value_eq]
    by_cases he : q.d = []
    · have h0 : val a.d / val b.d = 0 := by rw [hqv, val_eq_zero_of_nil he]
      have h0' : Int.tdiv ((val a.d : Nat) : Int) ((val b.d : Nat) : Int) = 0 := by
        rw [← Int.ofNat_tdiv, h0]; rfl
      simp only [he, List.isEmpty_nil, Bool.not_true, Bool.false_eq_true, if_false, val_nil]
      cases a.neg <;> cases b.neg <;> simp [h0']
    · have htd : Int.tdiv ((val a.d : Nat) : Int) ((val b.d : Nat) : Int)
          = ((val a.d : Nat) : Int) / ((val b.d : Nat) : Int) :=
        Int.tdiv_eq_ediv (Int.ofNat_nonneg _) (Int.ofNat_nonneg _)
      simp only [isEmpty_eq_false_of_ne_nil he, Bool.not_false, if_true, ← hqv]
      cases a.neg <;> cases b.neg <;> simp [htd]

/-! ### The constructor `BigInt(long long)` -/

theorem ofLongLong_loop_spec :
    ∀ (fuel v : Nat) (d : List Nat), v ≤ fuel → Blocks d →
      Blocks (ofLongLong_loop fuel v d) ∧
      val (ofLongLong_loop fuel v d) = val d + BASE ^ d.length * v := by
  intro fuel
  induction fuel with
  | zero =>
    intro v d hv hB
    have : v = 0 := by omega
    subst this
    simp only [ofLongLong_loop]
    exact ⟨hB, by simp⟩
  | succ fuel ih =>
    intro v d hv hB
    simp only [ofLongLong_loop]
    by_cases hpos : v > 0
    · rw [if_pos hpos, mod_BASE_mod_U32]
      have hdiv : v / BASE ≤ fuel := by
        have : v / BASE < v := Nat.div_lt_self hpos (by decide)
        omega
      have hB' : Blocks (d ++ [v % BASE]) := by
        rw [Blocks_append]
        refine ⟨hB, ?_⟩
        intro x hx
        simp only [List.mem_singleton] at hx
        rw [hx]; exact Nat.mod_lt _ BASE_pos
      obtain ⟨h1, h2⟩ := ih (v / BASE) (d ++ [v % BASE]) hdiv hB'
      refine ⟨h1, ?_⟩
      rw [h2, val_append]
      simp only [val_cons, val_nil, Nat.mul_zero, Nat.add_zero, List.length_append,
        List.length_singleton, pow_succ]
      have hdm : v % BASE + BASE * (v / BASE) = v := Nat.mod_add_div v BASE
      zify at hdm ⊢
      linear_combination ((BASE : Int) ^ d.length) * hdm
    · rw [if_neg hpos]
      have : v = 0 := by omega
      subst this
      exact ⟨hB, by simp⟩

theorem ofLongLong_tail_spec (neg : Bool) (v : Nat) :
    Canonical (ofLongLong_tail neg v) ∧ val (ofLongLong_tail neg v).d = v ∧
      (v ≠ 0 → (ofLongLong_tail neg v).neg = neg) := by
  obtain ⟨h1, h2⟩ := ofLongLong_loop_spec v v [] (le_refl _) Blocks_nil
  simp only [val_nil, List.length_nil, pow_zero, Nat.one_mul, Nat.zero_add] at h2
  unfold ofLongLong_tail BigInt.trim
  dsimp only
  have hv : val (trim_vec (ofLongLong_loop v v [])) = v := by rw [val_trim_vec, h2]
  refine ⟨⟨CanonMag_trim_vec h1, ?_⟩, hv, ?_⟩
  · intro e
    simp only at e
    simp [e]
  · intro hne
    have : trim_vec (ofLongLong_loop v v []) ≠ [] := by
      intro e; rw [e] at hv; exact hne hv.symm
    simp [isEmpty_eq_false_of_ne_nil this]

theorem value_ofLongLong_tail_false (v : Nat) : value (ofLongLong_tail false v) = (v : Int) := by
  obtain ⟨hc, hv, hn⟩ := ofLongLong_tail_spec false v
  rw [value_eq, hv]
  by_cases h0 : v = 0
  · subst h0; simp
  · rw [hn h0]; simp

/-- The constructor `BigInt(long long)`: on every 64-bit value it returns the
canonical object of that value. -/
theorem ofLongLong_spec {v : Int} (hv : InLongLong v) :
    ∃ r, BigInt.ofLongLong v = .ok r ∧ Canonical r ∧ value r = v := by
  by_cases hmin : v = -9223372036854775808
  · subst hmin
    refine ⟨⟨[854775808, 223372036, 9], true⟩, by rfl, by decide, by decide⟩
  · unfold BigInt.ofLongLong
    by_cases hneg : v < 0
    · rw [if_pos hneg, if_neg hmin]
      obtain ⟨hc, hval, hn⟩ := ofLongLong_tail_spec true (-v).toNat
      refine ⟨_, rfl, hc, ?_⟩
      have hne : (-v).toNat ≠ 0 := by omega
      rw [value_eq, hval, hn hne]
      simp only [if_true]
      omega
    · rw [if_neg hneg]
      refine ⟨_, rfl, (ofLongLong_tail_spec false v.toNat).1, ?_⟩
      rw [value_ofLongLong_tail_false]
      omega

/-! ### `operator==` -/

theorem op_eq_loop_self (a : List Nat) : ∀ k i, op_eq_loop a a k i = true := by
  intro k
  induction k with
  | zero => intro i; rfl
  | succ k ih => intro i; simp [op_eq_loop, ih]

theorem op_eq_self (a : BigInt) : op_eq a a = true := by
  unfold op_eq
  simp [op_eq_loop_self]

/-! ## Equality, ordering and the class of `Lab2/FastPow` -/

theorem ne_nil_of_value_ne_zero {b : BigInt} (h : value b ≠ 0) : b.d ≠ [] := by
  intro e
  apply h
  rw [value_eq, e]
  simp [val]

theorem neg_of_value_neg {r : BigInt} (h : value r < 0) : r.neg = true := by
  rw [value_eq] at h
  cases hn : r.neg
  · rw [hn] at h
    simp only [Bool.false_eq_true, if_false] at h
    omega
  · rfl

/-- The branch of `operator+=` for a negative receiver of strictly larger magnitude
than a non-negative right operand: the result is the non-negative `|a| - |b|`. -/
theorem op_add_assign_negative_receiver {a b : BigInt} (ha : Canonical a) (hb : Canonical b)
    (han : a.neg = true) (hbn : b.neg = false) (hlt : val b.d < val a.d) :
    (op_add_assign a b).neg = false ∧
      value (op_add_assign a b) = -(value a + value b) := by
  unfold op_add_assign
  dsimp only
  rw [if_neg (by rw [han, hbn]; simp)]
  have hc : cmp_abs a b ≥ 0 := (cmp_abs_nonneg_iff ha.1 hb.1).2 (le_of_lt hlt)
  rw [if_pos hc]
  obtain ⟨-, hv, hn⟩ := sub_abs_spec ha.1.1 hb.1 (le_of_lt hlt)
  refine ⟨by simp [hn], ?_⟩
  simp only [value_eq, hn, han, hbn]
  simp
  omega

theorem ext_getD : ∀ (a b : List Nat), a.length = b.length →
    (∀ j, j < a.length → a.getD j 0 = b.getD j 0) → a = b := by
  intro a
  induction a with
  | nil =>
    intro b hl _
    cases b with
    | nil => rfl
    | cons y ys => simp at hl
  | cons x xs ih =>
    intro b hl h
    cases b with
    | nil => simp at hl
    | cons y ys =>
      simp only [List.length_cons, Nat.add_right_cancel_iff] at hl
      have h0 := h 0 (by simp)
      simp only [List.getD_cons_zero] at h0
      have ht : xs = ys := ih ys hl (fun j hj => by
        have := h (j + 1) (by simp; omega)
        simpa using this)
      rw [h0, ht]

theorem op_eq_loop_true_iff (a b : List Nat) :
    ∀ k i, op_eq_loop a b k i = true ↔
      ∀ j, i ≤ j → j < i + k → a.getD j 0 = b.getD j 0 := by
  intro k
  induction k with
  | zero =>
    intro i
    simp only [op_eq_loop, true_iff]
    intro j h1 h2
    omega
  | succ k ih =>
    intro i
    simp only [op_eq_loop]
    by_cases h : a.getD i 0 = b.getD i 0
    · rw [if_neg (by simpa using h), ih (i + 1)]
      constructor
      · intro hh j h1 h2
        by_cases e : j = i
        · rw [e]; exact h
        · exact hh j (by omega) (by omega)
      · intro hh j h1 h2
        exact hh j (by omega) (by omega)
    · rw [if_pos (by simpa using h)]
      simp only [Bool.false_eq_true, false_iff]
      intro hh
      exact h (hh i (le_refl _) (by omega))

/-- On canonical operands `operator==` is equality of the objects. -/
theorem op_eq_spec {a b : BigInt} (ha : Canonical a) (hb : Canonical b) :
    op_eq a b = true ↔ a = b := by
  unfold op_eq
  by_cases hn : a.neg ≠ b.neg
  · rw [if_pos hn]
    have hne : a ≠ b := fun e => hn (by rw [e])
    have : ¬ (a.d.isEmpty = true ∧ b.d.isEmpty = true) := by
      rintro ⟨h1, h2⟩
      rw [List.isEmpty_iff] at h1 h2
      exact hn (by rw [ha.2 h1, hb.2 h2])
    simp only [Bool.and_eq_true]
    rw [if_neg this]
    simp [hne]
  · rw [if_neg hn]
    have hn2 : a.neg = b.neg := by simpa using hn
    by_cases hl : a.d.length ≠ b.d.length
    · rw [if_pos hl]
      have hne : a ≠ b := fun e => hl (by rw [e])
      simp [hne]
    · rw [if_neg hl]
      have hl2 : a.d.length = b.d.length := by simpa using hl
      rw [op_eq_loop_true_iff]
      constructor
      · intro h
        have hd : a.d = b.d := ext_getD a.d b.d hl2 (fun j hj => h j (Nat.zero_le _) (by omega))
        cases a; cases b
        simp only at hd hn2
        simp [hd, hn2]
      · intro e j _ _
        rw [e]

theorem op_eq_eq_false {a b : BigInt} (ha : Canonical a) (hb : Canonical b) (h : a ≠ b) :
    op_eq a b = false := by
  cases hab : op_eq a b
  · rfl
  · exact absurd ((op_eq_spec ha hb).1 hab) h

theorem cmp_abs_pos_iff {a b : BigInt} (ha : CanonMag a.d) (hb : CanonMag b.d) :
    cmp_abs a b > 0 ↔ val b.d < val a.d := by
  rw [cmp_abs_spec ha hb]
  split
  · simp; assumption
  · split
    · simp; omega
    · simp; omega

/-- On canonical operands `operator<` is the order of the integer values. -/
theorem op_lt_spec {a b : BigInt} (ha : Canonical a) (hb : Canonical b) :
    op_lt a b = true ↔ value a < value b := by
  unfold op_lt
  dsimp only
  cases han : a.neg <;> cases hbn : b.neg
  · have h1 := cmp_abs_neg_iff ha.1 hb.1
    simp only [value_eq, han, hbn, ne_eq, not_true_eq_false, if_false, Bool.not_false, if_true,
      Bool.false_eq_true]
    by_cases hc : cmp_abs a b < 0
    · rw [if_pos hc]
      have := h1.1 hc
      simp only [true_iff]
      exact_mod_cast this
    · rw [if_neg hc]
      simp only [Bool.false_eq_true, false_iff, not_lt]
      have : ¬ val a.d < val b.d := fun h => hc (h1.2 h)
      exact_mod_cast Nat.le_of_not_lt this
  · have := val_pos_of_neg hb hbn
    simp only [value_eq, han, hbn, ne_eq, Bool.false_eq_true, not_false_eq_true, if_true,
      if_false, false_iff, not_lt]
    omega
  · have := val_pos_of_neg ha han
    simp only [value_eq, han, hbn, ne_eq, Bool.true_eq_false, not_false_eq_true, if_true,
      Bool.false_eq_true, if_false, true_iff]
    omega
  · have h1 := cmp_abs_pos_iff ha.1 hb.1
    simp only [value_eq, han, hbn, ne_eq, not_true_eq_false, if_false, Bool.not_true, if_true,
      Bool.false_eq_true]
    by_cases hc : cmp_abs a b > 0
    · rw [if_pos hc]
      have := h1.1 hc
      simp only [true_iff]
      omega
    · rw [if_neg hc]
      simp only [Bool.false_eq_true, false_iff, not_lt]
      have : ¬ val b.d < val a.d := fun h => hc (h1.2 h)
      omega

theorem lit_zero : ofLongLong_tail false 0 = ⟨[], false⟩ := by decide

theorem lit_one : ofLongLong_tail false 1 = ⟨[1], false⟩ := by decide

theorem lit_two : ofLongLong_tail false 2 = ⟨[2], false⟩ := by decide

theorem Canonical_zero : Canonical ⟨[], false⟩ := by decide

theorem Canonical_one : Canonical ⟨[1], false⟩ := by decide

theorem Canonical_two : Canonical ⟨[2], false⟩ := by decide

/-- A canonical object of non-negative value has a clear sign flag, and its
magnitude is its value. -/
theorem nonneg_of_value_nonneg {r : BigInt} (hr : Canonical r) (h : 0 ≤ value r) :
    r.neg = false ∧ ((val r.d : Nat) : Int) = value r := by
  cases hn : r.neg
  · exact ⟨rfl, by rw [value_eq, hn]; simp⟩
  · have := val_pos_of_neg hr hn
    rw [value_eq, hn] at h
    simp only [if_true] at h
    omega

theorem value_of_not_neg {r : BigInt} (h : r.neg = false) :
    value r = ((val r.d : Nat) : Int) := by
  rw [value_eq, h]; simp

/-- The operator `*=` of `Lab2/FastPow` on canonical operands: it returns, the
result is canonical, of value `a * b`. -/
theorem fastpow_op_mul_assign_spec {a b : BigInt} (ha : Canonical a) (hb : Canonical b) :
    ∃ r, fastpow_op_mul_assign a b = .ok r ∧ Canonical r ∧ value r = value a * value b ∧
      val r.d = val a.d * val b.d := by
  unfold fastpow_op_mul_assign
  dsimp only
  obtain ⟨r, hr, hc, hv, -⟩ := mul_abs_spec ha.1.1 hb.1.1
  rw [hr]
  dsimp only
  refine ⟨_, rfl, ⟨hc, ?_⟩, ?_, hv⟩
  · intro e
    simp only at e
    simp [e]
  · simp only [value_eq, hv]
    by_cases he : r.d = []
    · have h0 : val a.d * val b.d = 0 := by rw [← hv, he]; rfl
      have h0' : ((val a.d : Nat) : Int) * ((val b.d : Nat) : Int) = 0 := by exact_mod_cast h0
      simp only [he, List.isEmpty_nil, if_true, Bool.false_eq_true, if_false, h0]
      cases a.neg <;> cases b.neg <;> simp <;> simpa using h0'
    · simp only [isEmpty_eq_false_of_ne_nil he, Bool.false_eq_true, if_false]
      cases a.neg <;> cases b.neg <;> simp

/-- The function `mod_reduce` on canonical operands with `m ≠ 0`: it returns the
canonical remainder of the truncated division, `± (|a| mod |m|)` with the sign of `a`. -/
theorem mod_reduce_spec {a m : BigInt} (ha : Canonical a) (hm : Canonical m) (hne : m.d ≠ []) :
    ∃ r, mod_reduce a m = .ok r ∧ Canonical r ∧
      value r = if a.neg then -((val a.d % val m.d : Nat) : Int)
        else ((val a.d % val m.d : Nat) : Int) := by
  unfold mod_reduce
  obtain ⟨q, hq, hqc, hqv, -⟩ := op_div_assign_spec ha hm hne
  obtain ⟨p, hp, hpc, hpv, -⟩ := fastpow_op_mul_assign_spec hqc hm
  obtain ⟨hrc, hrv⟩ := op_sub_assign_spec ha hpc
  have hq' : op_div a m = .ok q := hq
  have hp' : fastpow_op_mul q m = .ok p := hp
  rw [hq']
  dsimp only
  rw [hp']
  dsimp only
  refine ⟨_, rfl, hrc, ?_⟩
  have hdm : ((val m.d : Nat) : Int) * ((val a.d / val m.d : Nat) : Int)
      + ((val a.d % val m.d : Nat) : Int) = ((val a.d : Nat) : Int) := by
    exact_mod_cast Nat.div_add_mod (val a.d) (val m.d)
  show value (op_sub_assign a p) = _
  rw [hrv, hpv, hqv]
  simp only [value_eq]
  cases a.neg <;> cases m.neg <;>
    simp only [Bool.false_eq_true, if_true, if_false, Int.neg_tdiv, Int.tdiv_neg,
      ← Int.ofNat_tdiv] <;>
    linarith

/-- The function `mod_reduce` on non-negative canonical operands: `|a| mod |m|`. -/
theorem mod_reduce_nonneg {a m : BigInt} (ha : Canonical a) (hm : Canonical m)
    (han : a.neg = false) (hne : m.d ≠ []) :
    ∃ r, mod_reduce a m = .ok r ∧ Canonical r ∧ r.neg = false ∧
      val r.d = val a.d % val m.d := by
  obtain ⟨r, hr, hc, hv⟩ := mod_reduce_spec ha hm hne
  rw [han] at hv
  simp only [Bool.false_eq_true, if_false] at hv
  obtain ⟨h1, h2⟩ := nonneg_of_value_nonneg hc (by rw [hv]; exact Int.ofNat_nonneg _)
  exact ⟨r, hr, hc, h1, by rw [hv] at h2; exact_mod_cast h2⟩

theorem fastpow_op_mul_nonneg {a b : BigInt} (ha : Canonical a) (hb : Canonical b)
    (han : a.neg = false) (hbn : b.neg = false) :
    ∃ r, fastpow_op_mul a b = .ok r ∧ Canonical r ∧ r.neg = false ∧
      val r.d = val a.d * val b.d := by
  obtain ⟨r, hr, hc, hv, hm⟩ := fastpow_op_mul_assign_spec ha hb
  rw [value_of_not_neg han, value_of_not_neg hbn] at hv
  obtain ⟨h1, -⟩ := nonneg_of_value_nonneg hc
    (by rw [hv]; exact mul_nonneg (Int.ofNat_nonneg _) (Int.ofNat_nonneg _))
  exact ⟨r, hr, hc, h1, hm⟩

theorem op_div_nonneg {a b : BigInt} (ha : Canonical a) (hb : Canonical b)
    (han : a.neg = false) (hbn : b.neg = false) (hne : b.d ≠ []) :
    ∃ q, op_div a b = .ok q ∧ Canonical q ∧ q.neg = false ∧ val q.d = val a.d / val b.d := by
  obtain ⟨q, hq, hc, hv, hm⟩ := op_div_assign_spec ha hb hne
  rw [value_of_not_neg han, value_of_not_neg hbn] at hv
  obtain ⟨h1, -⟩ := nonneg_of_value_nonneg hc
    (by rw [hv]; exact Int.tdiv_nonneg (Int.ofNat_nonneg _) (Int.ofNat_nonneg _))
  exact ⟨q, hq, hc, h1, hm⟩

/-! ## Modular exponentiation -/

theorem Canonical_mk_false {d : List Nat} (h : CanonMag d) : Canonical ⟨d, false⟩ :=
  ⟨h, fun _ => rfl⟩

theorem eq_mk_of_not_neg {x : BigInt} (h : x.neg = false) : x = ⟨x.d, false⟩ := by
  cases x
  simp only at h
  simp [h]

/-- The function `abs_big` on a canonical object is the same blocks with a clear sign. -/
theorem abs_big_spec {x : BigInt} (hx : Canonical x) : abs_big x = ⟨x.d, false⟩ := by
  unfold abs_big
  rw [lit_zero]
  by_cases hlt : op_lt x ⟨[], false⟩ = true
  · rw [if_pos hlt]
    have hv := (op_lt_spec hx Canonical_zero).1 hlt
    obtain ⟨hc, hs⟩ := op_sub_assign_spec Canonical_zero hx
    apply Canonical_ext hc (Canonical_mk_false hx.1)
    show value (op_sub_assign ⟨[], false⟩ x) = _
    rw [hs]
    have hn := neg_of_value_neg (by simpa [value_eq, val] using hv)
    simp [value_eq, hn, val]
  · rw [if_neg hlt]
    have hv : ¬ value x < value ⟨[], false⟩ := fun h => hlt ((op_lt_spec hx Canonical_zero).2 h)
    have h0 : 0 ≤ value x := by simpa [value_eq, val] using hv
    exact eq_mk_of_not_neg (nonneg_of_value_nonneg hx h0).1

theorem is_zero_eq (x : BigInt) (hx : Canonical x) : is_zero x = true ↔ x.d = [] := by
  unfold is_zero
  rw [lit_zero, op_eq_spec hx Canonical_zero]
  constructor
  · intro e; rw [e]
  · intro e
    have := hx.2 e
    cases x
    simp only at e this
    simp [e, this]

theorem is_zero_iff_val {x : BigInt} (hx : Canonical x) : is_zero x = true ↔ val x.d = 0 := by
  rw [is_zero_eq x hx, val_eq_zero_iff hx.1.2]

theorem is_odd_spec {x : BigInt} (hx : Canonical x) (hn : x.neg = false) :
    is_odd x = .ok (decide (val x.d % 2 = 1)) := by
  unfold is_odd
  rw [lit_two, lit_one]
  obtain ⟨r, hr, hc, hrn, hv⟩ := mod_reduce_nonneg hx Canonical_two hn (by simp)
  rw [hr]
  dsimp only
  have h2 : val ([2] : List Nat) = 2 := by decide
  rw [h2] at hv
  congr 1
  by_cases h1 : val x.d % 2 = 1
  · have : r = ⟨[1], false⟩ := Canonical_ext hc Canonical_one (by
      rw [value_of_not_neg hrn, hv, h1]; decide)
    rw [this]
    simp [h1, op_eq_self]
  · have : r ≠ ⟨[1], false⟩ := by
      intro e
      have hv1 : val r.d = 1 := by rw [e]; decide
      omega
    rw [op_eq_eq_false hc Canonical_one this]
    simp [h1]

/-- The reduction of the base: for a canonical base and a canonical positive `m`
it returns the canonical non-negative residue of the base modulo `m`. -/
theorem mod_exp_base_spec {base m : BigInt} (hb : Canonical base) (hm : Canonical m)
    (hmn : m.neg = false) (hne : m.d ≠ []) :
    ∃ a, mod_exp_base base m = .ok a ∧ Canonical a ∧ a.neg = false ∧
      val a.d < val m.d ∧ value a = value base % value m := by
  unfold mod_exp_base
  rw [lit_zero]
  obtain ⟨r, hr, hc, hv⟩ := mod_reduce_spec hb hm hne
  rw [hr]
  dsimp only
  have hM : 0 < val m.d := val_pos_of_ne_nil hm.1.2 hne
  have hml : val base.d % val m.d < val m.d := Nat.mod_lt _ hM
  have hvm : value m = ((val m.d : Nat) : Int) := value_of_not_neg hmn
  have hdm : ((val m.d : Nat) : Int) * ((val base.d / val m.d : Nat) : Int)
      + ((val base.d % val m.d : Nat) : Int) = ((val base.d : Nat) : Int) := by
    exact_mod_cast Nat.div_add_mod (val base.d) (val m.d)
  have hMi : (0 : Int) < ((val m.d : Nat) : Int) := by exact_mod_cast hM
  have hmli : ((val base.d % val m.d : Nat) : Int) < ((val m.d : Nat) : Int) := by
    exact_mod_cast hml
  by_cases hlt : op_lt r ⟨[], false⟩ = true
  · rw [if_pos hlt]
    have hneg : value r < 0 := by
      simpa [value_eq, val] using (op_lt_spec hc Canonical_zero).1 hlt
    have hbn : base.neg = true := by
      cases h : base.neg
      · rw [h] at hv
        simp only [Bool.false_eq_true, if_false] at hv
        omega
      · rfl
    rw [hbn] at hv
    simp only [if_true] at hv
    have hrn := neg_of_value_neg hneg
    have hrv : ((val r.d : Nat) : Int) = ((val base.d % val m.d : Nat) : Int) := by
      have := value_eq r
      rw [hrn] at this
      simp only [if_true] at this
      omega
    have hrv' : val r.d = val base.d % val m.d := by exact_mod_cast hrv
    obtain ⟨hac, hav⟩ := op_add_assign_spec hc hm (by
      rintro ⟨-, -, h3⟩
      omega)
    have hav' : value (op_add r m) = ((val m.d : Nat) : Int) - ((val base.d % val m.d : Nat) : Int) := by
      show value (op_add_assign r m) = _
      rw [hav, hv, hvm]; ring
    have hpos : (0 : Int) < ((val base.d % val m.d : Nat) : Int) := by omega
    obtain ⟨n1, n2⟩ := nonneg_of_value_nonneg hac (by
      show 0 ≤ value (op_add r m)
      rw [hav']; omega)
    refine ⟨_, rfl, hac, n1, ?_, ?_⟩
    · have : ((val (op_add r m).d : Nat) : Int) < ((val m.d : Nat) : Int) := by
        have h2 : ((val (op_add r m).d : Nat) : Int) = value (op_add r m) := n2
        rw [h2, hav']; omega
      exact_mod_cast this
    · rw [hav', hvm, value_eq base, hbn]
      simp only [if_true]
      symm
      have e : -((val base.d : Nat) : Int)
          = (((val m.d : Nat) : Int) - ((val base.d % val m.d : Nat) : Int))
            + ((val m.d : Nat) : Int) * (-((val base.d / val m.d : Nat) : Int) - 1) := by
        linarith
      rw [e, Int.add_mul_emod_self_left]
      exact Int.emod_eq_of_lt (by omega) (by omega)
  · rw [if_neg hlt]
    have hnn : 0 ≤ value r := by
      have : ¬ value r < value ⟨[], false⟩ := fun h => hlt ((op_lt_spec hc Canonical_zero).2 h)
      simpa [value_eq, val] using this
    obtain ⟨n1, n2⟩ := nonneg_of_value_nonneg hc hnn
    have hz : value r = ((val base.d % val m.d : Nat) : Int) ∧
        (base.neg = true → val base.d % val m.d = 0) := by
      cases h : base.neg
      · rw [h] at hv
        simp only [Bool.false_eq_true, if_false] at hv
        exact ⟨hv, fun h' => by cases h'⟩
      · rw [h] at hv
        simp only [if_true] at hv
        have h0 : ((val base.d % val m.d : Nat) : Int) = 0 := by omega
        exact ⟨by omega, fun _ => by exact_mod_cast h0⟩
    refine ⟨_, rfl, hc, n1, ?_, ?_⟩
    · have : ((val r.d : Nat) : Int) < ((val m.d : Nat) : Int) := by
        rw [n2, hz.1]; exact hmli
      exact_mod_cast this
    · rw [hz.1, hvm, value_eq base]
      cases h : base.neg
      · simp only [Bool.false_eq_true, if_false]
        exact_mod_cast rfl
      · simp only [if_true]
        have h0 := hz.2 h
        have hd : ((val m.d : Nat) : Int) ∣ -((val base.d : Nat) : Int) := by
          rw [Int.dvd_neg]
          exact_mod_cast Nat.dvd_of_mod_eq_zero h0
        rw [Int.emod_eq_zero_of_dvd hd, h0]
        rfl

theorem mod_exp_multiply_spec {m a result : BigInt} (hm : Canonical m) (hne : m.d ≠ [])
    (ha : Canonical a) (han : a.neg = false) (hr : Canonical result)
    (hrn : result.neg = false) (odd : Bool) :
    ∃ r1, mod_exp_multiply m a result odd = .ok r1 ∧ Canonical r1 ∧ r1.neg = false ∧
      (odd = true → val r1.d = (val result.d * val a.d) % val m.d) ∧
      (odd = false → r1 = result) := by
  unfold mod_exp_multiply
  cases odd
  · rw [if_neg (by simp)]
    exact ⟨result, rfl, hr, hrn, fun h => absurd h (by decide), fun _ => rfl⟩
  · rw [if_pos rfl]
    obtain ⟨t, ht, htc, htn, htv⟩ := fastpow_op_mul_nonneg hr ha hrn han
    rw [ht]
    dsimp only
    obtain ⟨r1, h1, h1c, h1n, h1v⟩ := mod_reduce_nonneg htc hm htn hne
    exact ⟨r1, h1, h1c, h1n, fun _ => by rw [h1v, htv], fun h => absurd h (by decide)⟩

/-- One iteration of the loop of `mod_exp` on canonical non-negative state. -/
theorem mod_exp_body_spec {m a e result : BigInt} (hm : Canonical m) (hne : m.d ≠ [])
    (ha : Canonical a) (han : a.neg = false) (he : Canonical e) (hen : e.neg = false)
    (hr : Canonical result) (hrn : result.neg = false) :
    ∃ a1 e1 r1, mod_exp_body m a e result = .ok (a1, e1, r1) ∧
      Canonical a1 ∧ a1.neg = false ∧ Canonical e1 ∧ e1.neg = false ∧
      Canonical r1 ∧ r1.neg = false ∧
      val a1.d = (val a.d * val a.d) % val m.d ∧ val e1.d = val e.d / 2 ∧
      (val e.d % 2 = 1 → val r1.d = (val result.d * val a.d) % val m.d) ∧
      (val e.d % 2 ≠ 1 → r1 = result) := by
  unfold mod_exp_body
  rw [is_odd_spec he hen]
  dsimp only
  obtain ⟨r1, hr1, hr1c, hr1n, hr1odd, hr1even⟩ :=
    mod_exp_multiply_spec hm hne ha han hr hrn (decide (val e.d % 2 = 1))
  rw [hr1]
  dsimp only
  obtain ⟨sq, hsq, hsqc, hsqn, hsqv⟩ := fastpow_op_mul_nonneg ha ha han han
  rw [hsq]
  dsimp only
  obtain ⟨a1, ha1, ha1c, ha1n, ha1v⟩ := mod_reduce_nonneg hsqc hm hsqn hne
  rw [ha1]
  dsimp only
  rw [lit_two]
  obtain ⟨e1, he1, he1c, he1n, he1v⟩ := op_div_nonneg he Canonical_two hen rfl (by simp)
  rw [he1]
  dsimp only
  have h2 : val ([2] : List Nat) = 2 := by decide
  simp only at he1v
  rw [h2] at he1v
  exact ⟨a1, e1, r1, rfl, ha1c, ha1n, he1c, he1n, hr1c, hr1n, by rw [ha1v, hsqv], he1v,
    fun h => hr1odd (by simpa using h), fun h => hr1even (by simpa using h)⟩

theorem pow_step_odd (R A M E : Nat) (h : E % 2 = 1) :
    ((R * A) % M * ((A * A) % M) ^ (E / 2)) % M = (R * A ^ E) % M := by
  have he2 : E = 2 * (E / 2) + 1 := by omega
  have hsq2 : (A * A) ^ (E / 2) = A ^ (2 * (E / 2)) := by
    rw [← pow_two, ← pow_mul]
  conv_rhs => rw [he2, pow_succ]
  rw [Nat.mul_mod, Nat.mod_mod, Nat.pow_mod, Nat.mod_mod, ← Nat.pow_mod, ← Nat.mul_mod, hsq2]
  congr 1
  ring

theorem pow_step_even (R A M E : Nat) (h : E % 2 ≠ 1) :
    (R * ((A * A) % M) ^ (E / 2)) % M = (R * A ^ E) % M := by
  have he2 : E = 2 * (E / 2) := by omega
  have hsq2 : (A * A) ^ (E / 2) = A ^ (2 * (E / 2)) := by
    rw [← pow_two, ← pow_mul]
  conv_rhs => rw [he2]
  rw [Nat.mul_mod, Nat.pow_mod, Nat.mod_mod, ← Nat.pow_mod, ← Nat.mul_mod, hsq2]

/-- The square-and-multiply loop on canonical non-negative state: it returns; with
exponent zero the result is the `result` it was given, otherwise it is the
canonical residue of `result * a ^ e` modulo `m`. -/
theorem mod_exp_loop_spec {m : BigInt} (hm : Canonical m) (hne : m.d ≠ []) :
    ∀ (fuel : Nat) (a e result : BigInt), Canonical a → a.neg = false →
      Canonical e → e.neg = false → Canonical result → result.neg = false →
      val e.d ≤ fuel →
      ∃ r, mod_exp_loop m fuel a e result = .ok r ∧ Canonical r ∧ r.neg = false ∧
        (val e.d = 0 → r = result) ∧
        (0 < val e.d → val r.d = (val result.d * val a.d ^ val e.d) % val m.d) := by
  intro fuel
  induction fuel with
  | zero =>
    intro a e result _ _ he _ hr hrn hf
    have h0 : val e.d = 0 := by omega
    have hz : is_zero e = true := (is_zero_iff_val he).2 h0
    simp only [mod_exp_loop, hz, Bool.not_true, Bool.false_eq_true, if_false]
    exact ⟨result, rfl, hr, hrn, fun _ => rfl, fun h => by omega⟩
  | succ fuel ih =>
    intro a e result ha han he hen hr hrn hf
    simp only [mod_exp_loop]
    by_cases h0 : val e.d = 0
    · have hz : is_zero e = true := (is_zero_iff_val he).2 h0
      simp only [hz, Bool.not_true, Bool.false_eq_true, if_false]
      exact ⟨result, rfl, hr, hrn, fun _ => rfl, fun h => by omega⟩
    · have hz : is_zero e = false := by
        cases h : is_zero e
        · rfl
        · exact absurd ((is_zero_iff_val he).1 h) h0
      simp only [hz, Bool.not_false, if_true]
      obtain ⟨a1, e1, r1, hb, ha1c, ha1n, he1c, he1n, hr1c, hr1n, ha1v, he1v, hodd, heven⟩ :=
        mod_exp_body_spec hm hne ha han he hen hr hrn
      rw [hb]
      dsimp only
      obtain ⟨r, hrr, hrc, hrrn, hr0, hrpos⟩ := ih a1 e1 r1 ha1c ha1n he1c he1n hr1c hr1n
        (by rw [he1v]; omega)
      refine ⟨r, hrr, hrc, hrrn, fun h => absurd h h0, fun _ => ?_⟩
      by_cases he0 : val e1.d = 0
      · have hone : val e.d = 1 := by omega
        have ho : val e.d % 2 = 1 := by omega
        rw [hr0 he0, hodd ho, hone, pow_one]
      · rw [hrpos (Nat.pos_of_ne_zero he0), ha1v, he1v]
        by_cases ho : val e.d % 2 = 1
        · rw [hodd ho]; exact pow_step_odd _ _ _ _ ho
        · rw [heven ho]; exact pow_step_even _ _ _ _ ho

theorem op_gt_zero_iff {e : BigInt} (he : Canonical e) (hen : e.neg = false) :
    op_gt e ⟨[], false⟩ = true ↔ 0 < val e.d := by
  unfold op_gt
  rw [op_lt_spec Canonical_zero he, value_of_not_neg hen]
  simp [value_eq, val]

/-- The loop of the reference `slow_pow_mod` on canonical non-negative state. -/
theorem slow_pow_mod_loop_spec {b m : BigInt} (hm : Canonical m) (hne : m.d ≠ [])
    (hb : Canonical b) (hbn : b.neg = false) :
    ∀ (fuel : Nat) (e res : BigInt), Canonical e → e.neg = false →
      Canonical res → res.neg = false → val e.d ≤ fuel →
      ∃ r, slow_pow_mod_loop b m fuel e res = .ok r ∧ Canonical r ∧ r.neg = false ∧
        (val e.d = 0 → r = res) ∧
        (0 < val e.d → val r.d = (val res.d * val b.d ^ val e.d) % val m.d) := by
  intro fuel
  induction fuel with
  | zero =>
    intro e res he hen hr hrn hf
    have h0 : ¬ (op_gt e ⟨[], false⟩ = true) := by
      rw [op_gt_zero_iff he hen]; omega
    simp only [slow_pow_mod_loop, lit_zero]
    rw [if_neg h0]
    exact ⟨res, rfl, hr, hrn, fun _ => rfl, fun h => by omega⟩
  | succ fuel ih =>
    intro e res he hen hr hrn hf
    simp only [slow_pow_mod_loop, lit_zero, lit_one]
    by_cases h0 : 0 < val e.d
    · rw [if_pos ((op_gt_zero_iff he hen).2 h0)]
      obtain ⟨t, ht, htc, htn, htv⟩ := fastpow_op_mul_nonneg hr hb hrn hbn
      rw [ht]
      dsimp only
      obtain ⟨r1, h1, h1c, h1n, h1v⟩ := mod_reduce_nonneg htc hm htn hne
      rw [h1]
      dsimp only
      obtain ⟨hsc, hsv⟩ := op_sub_assign_spec he Canonical_one
      have hsv' : value (op_sub e ⟨[1], false⟩) = ((val e.d : Nat) : Int) - 1 := by
        show value (op_sub_assign e ⟨[1], false⟩) = _
        rw [hsv, value_of_not_neg hen]
        simp [value_eq, val]
      obtain ⟨n1, n2⟩ := nonneg_of_value_nonneg hsc (by
        show 0 ≤ value (op_sub e ⟨[1], false⟩)
        rw [hsv']; omega)
      have hev : val (op_sub e ⟨[1], false⟩).d = val e.d - 1 := by
        have h3 : ((val (op_sub e ⟨[1], false⟩).d : Nat) : Int) = ((val e.d : Nat) : Int) - 1 := by
          have h4 : ((val (op_sub e ⟨[1], false⟩).d : Nat) : Int)
              = value (op_sub e ⟨[1], false⟩) := n2
          rw [h4, hsv']
        omega
      obtain ⟨r, hrr, hrc, hrrn, hr0, hrpos⟩ := ih (op_sub e ⟨[1], false⟩) r1 hsc n1 h1c h1n
        (by rw [hev]; omega)
      refine ⟨r, hrr, hrc, hrrn, fun h => by omega, fun _ => ?_⟩
      by_cases he0 : val (op_sub e ⟨[1], false⟩).d = 0
      · have hone : val e.d = 1 := by omega
        rw [hr0 he0, h1v, htv, hone, pow_one]
      · rw [hrpos (Nat.pos_of_ne_zero he0), h1v, htv, hev]
        have he2 : val e.d = (val e.d - 1) + 1 := by omega
        conv_rhs => rw [he2, pow_succ]
        rw [Nat.mul_mod, Nat.mod_mod, ← Nat.mul_mod]
        congr 1
        ring
    · rw [if_neg (fun h => h0 ((op_gt_zero_iff he hen).1 h))]
      exact ⟨res, rfl, hr, hrn, fun _ => rfl, fun h => absurd h h0⟩

theorem value_eq_zero_iff {x : BigInt} (hx : Canonical x) : value x = 0 ↔ x = ⟨[], false⟩ := by
  constructor
  · intro h
    exact Canonical_ext hx Canonical_zero (by rw [h]; decide)
  · intro e; rw [e]; decide

theorem abs_value (x : BigInt) : |value x| = ((val x.d : Nat) : Int) := by
  rw [value_eq]
  cases x.neg
  · simp only [Bool.false_eq_true, if_false]
    exact abs_of_nonneg (Int.ofNat_nonneg _)
  · simp only [if_true, abs_neg]
    exact abs_of_nonneg (Int.ofNat_nonneg _)

theorem op_eq_zero_false {m : BigInt} (hm : Canonical m) (hnz : value m ≠ 0) :
    op_eq m (ofLongLong_tail false 0) = false := by
  rw [lit_zero]
  exact op_eq_eq_false hm Canonical_zero (fun e => hnz ((value_eq_zero_iff hm).2 e))

theorem op_lt_zero_false {e : BigInt} (he : Canonical e) (h : 0 ≤ value e) :
    op_lt e (ofLongLong_tail false 0) = false := by
  rw [lit_zero]
  cases hlt : op_lt e ⟨[], false⟩
  · rfl
  · have := (op_lt_spec he Canonical_zero).1 hlt
    have h0 : value (⟨[], false⟩ : BigInt) = 0 := by decide
    omega

/-- The function `mod_exp` on canonical arguments with a non-negative exponent and a
non-zero modulus: the base is reduced to a canonical `a` in `[0, |m|)`, the call
returns a canonical non-negative `r`, which is `1` for the exponent zero and the
residue of `a ^ e` modulo `|m|` otherwise. -/
theorem mod_exp_spec {base exp mod : BigInt} (hb : Canonical base) (he : Canonical exp)
    (hm : Canonical mod) (hE : 0 ≤ value exp) (hM : value mod ≠ 0) :
    ∃ a r, mod_exp_base base ⟨mod.d, false⟩ = .ok a ∧ Canonical a ∧ a.neg = false ∧
      val a.d < val mod.d ∧ value a = value base % ((val mod.d : Nat) : Int) ∧
      mod_exp base exp mod = .ok r ∧ Canonical r ∧ r.neg = false ∧
      (val exp.d = 0 → r = ⟨[1], false⟩) ∧
      (0 < val exp.d → val r.d = (val a.d ^ val exp.d) % val mod.d) := by
  have hne : mod.d ≠ [] := ne_nil_of_value_ne_zero hM
  have hmc : Canonical ⟨mod.d, false⟩ := Canonical_mk_false hm.1
  obtain ⟨a, ha, hac, han, halt, hav⟩ := mod_exp_base_spec hb hmc rfl hne
  have hen := (nonneg_of_value_nonneg he hE).1
  obtain ⟨r, hr, hrc, hrn, hr0, hrpos⟩ := mod_exp_loop_spec hmc hne (val exp.d) a exp
    ⟨[1], false⟩ hac han he hen Canonical_one rfl (le_refl _)
  refine ⟨a, r, ha, hac, han, halt, ?_, ?_, hrc, hrn, hr0, ?_⟩
  · rw [hav]; rfl
  · unfold mod_exp
    rw [op_eq_zero_false hm hM, op_lt_zero_false he hE, abs_big_spec hm]
    simp only [Bool.false_eq_true, if_false]
    rw [ha]
    dsimp only
    rw [lit_one]
    exact hr
  · intro h
    have := hrpos h
    simp only at this
    rw [this]
    have h1 : val ([1] : List Nat) = 1 := by decide
    rw [h1, Nat.one_mul]

/-- The reference `slow_pow_mod` on the same arguments: the same reduced base, and
the same description of the result. -/
theorem slow_pow_mod_spec {base exp mod : BigInt} (hb : Canonical base) (he : Canonical exp)
    (hm : Canonical mod) (hE : 0 ≤ value exp) (hM : value mod ≠ 0) :
    ∃ a r, mod_exp_base base ⟨mod.d, false⟩ = .ok a ∧
      slow_pow_mod base exp mod = .ok r ∧ Canonical r ∧ r.neg = false ∧
      (val exp.d = 0 → r = ⟨[1], false⟩) ∧
      (0 < val exp.d → val r.d = (val a.d ^ val exp.d) % val mod.d) := by
  have hne : mod.d ≠ [] := ne_nil_of_value_ne_zero hM
  have hmc : Canonical ⟨mod.d, false⟩ := Canonical_mk_false hm.1
  obtain ⟨a, ha, hac, han, -, -⟩ := mod_exp_base_spec hb hmc rfl hne
  have hen := (nonneg_of_value_nonneg he hE).1
  obtain ⟨r, hr, hrc, hrn, hr0, hrpos⟩ := slow_pow_mod_loop_spec hmc hne hac han (val exp.d) exp
    ⟨[1], false⟩ he hen Canonical_one rfl (le_refl _)
  refine ⟨a, r, ha, ?_, hrc, hrn, hr0, ?_⟩
  · have habs := abs_big_spec hm
    unfold abs_big at habs
    unfold slow_pow_mod
    rw [op_eq_zero_false hm hM]
    simp only [Bool.false_eq_true, if_false]
    rw [habs, ha]
    dsimp only
    rw [lit_one]
    exact hr
  · intro h
    have := hrpos h
    simp only at this
    rw [this]
    have h1 : val ([1] : List Nat) = 1 := by decide
    rw [h1, Nat.one_mul]

/-- On canonical arguments `mod_exp` either fails with `invalid_argument`, exactly
when the modulus is zero or the exponent negative, or returns. -/
theorem mod_exp_error_spec {base exp mod : BigInt} (hb : Canonical base) (he : Canonical exp)
    (hm : Canonical mod) :
    ((value mod = 0 ∨ value exp < 0) → mod_exp base exp mod = .error .invalid_argument) ∧
    (¬ (value mod = 0 ∨ value exp < 0) → ∃ r, mod_exp base exp mod = .ok r) := by
  constructor
  · intro h
    unfold mod_exp
    by_cases h0 : value mod = 0
    · have : mod = ⟨[], false⟩ := (value_eq_zero_iff hm).1 h0
      rw [this, lit_zero, op_eq_self]
      rfl
    · have hlt : value exp < 0 := by
        rcases h with h | h
        · exact absurd h h0
        · exact h
      rw [op_eq_zero_false hm h0]
      have : op_lt exp (ofLongLong_tail false 0) = true := by
        rw [lit_zero]
        exact (op_lt_spec he Canonical_zero).2 (by
          have h0 : value (⟨[], false⟩ : BigInt) = 0 := by decide
          omega)
      rw [this]
      rfl
  · intro h
    have h1 : value mod ≠ 0 := fun e => h (Or.inl e)
    have h2 : 0 ≤ value exp := by
      by_contra hc
      exact h (Or.inr (by omega))
    obtain ⟨a, r, -, -, -, -, -, hr, -⟩ := mod_exp_spec hb he hm h2 h1
    exact ⟨r, hr⟩

/-- The model of `div_mod` fails only through its first test. -/
theorem div_mod_ok (a b : BigInt) (hne : b.d ≠ []) : ∃ qr, div_mod a b = .ok qr := by
  unfold div_mod
  rw [if_neg (by simp [isEmpty_eq_false_of_ne_nil hne])]
  dsimp only
  split
  · exact ⟨_, rfl⟩
  · split
    · exact ⟨_, rfl⟩
    · split
      · exact ⟨_, rfl⟩
      · exact ⟨_, rfl⟩

theorem op_div_assign_error_iff (a b : BigInt) :
    (op_div_assign a b = .error .domain_error ↔ b.d = []) ∧
    (b.d ≠ [] → ∃ q, op_div_assign a b = .ok q) := by
  have hok : b.d ≠ [] → ∃ q, op_div_assign a b = .ok q := by
    intro hne
    unfold op_div_assign
    rw [if_neg (by simp [isEmpty_eq_false_of_ne_nil hne])]
    obtain ⟨qr, h⟩ := div_mod_ok ⟨a.d, false⟩ ⟨b.d, false⟩ hne
    rw [h]
    exact ⟨_, rfl⟩
  refine ⟨⟨?_, ?_⟩, hok⟩
  · intro h
    by_contra hne
    obtain ⟨q, hq⟩ := hok hne
    rw [hq] at h
    cases h
  · intro e
    unfold op_div_assign
    rw [if_pos (by simp [e])]

/-! ## Text: `to_string` and `from_string` -/

theorem ofNat_digit_toNat : ∀ k, k < 10 → (Char.ofNat (48 + k)).toNat = 48 + k := by decide

theorem isdigit_iff (c : Char) : isdigit c = true ↔ 48 ≤ c.toNat ∧ c.toNat ≤ 57 := by
  unfold isdigit
  simp

theorem isdigit_ofNat_digit (k : Nat) (h : k < 10) : isdigit (Char.ofNat (48 + k)) = true := by
  rw [isdigit_iff, ofNat_digit_toNat k h]
  omega

theorem isspace_eq_false_of_isdigit {c : Char} (h : isdigit c = true) : isspace c = false := by
  rw [isdigit_iff] at h
  unfold isspace
  have h1 : (c.toNat == 32) = false := by
    rw [beq_eq_false_iff_ne]; omega
  have h2 : (decide (9 ≤ c.toNat) && decide (c.toNat ≤ 13)) = false := by
    rw [Bool.and_eq_false_iff]
    right
    exact decide_eq_false (by omega)
  rw [h1, h2]
  rfl

theorem decval_nil (a : Nat) : decval a [] = a := rfl

theorem decval_cons (a : Nat) (c : Char) (cs : List Char) :
    decval a (c :: cs) = decval (a * 10 + (c.toNat - 48)) cs := rfl

theorem decval_append (a : Nat) (xs ys : List Char) :
    decval a (xs ++ ys) = decval (decval a xs) ys := by
  induction xs generalizing a with
  | nil => rw [List.nil_append, decval_nil]
  | cons c cs ih => rw [List.cons_append, decval_cons, decval_cons, ih]

theorem le_decval (a : Nat) (cs : List Char) : a ≤ decval a cs := by
  induction cs generalizing a with
  | nil => exact le_refl _
  | cons c cs ih =>
    rw [decval_cons]
    exact le_trans (by omega) (ih _)

theorem decval_replicate_zero (k : Nat) : decval 0 (List.replicate k '0') = 0 := by
  induction k with
  | zero => rfl
  | succ k ih =>
    rw [List.replicate_succ, decval_cons]
    exact ih

theorem decimal_loop_append : ∀ (fuel n : Nat) (acc : List Char),
    decimal_loop fuel n acc = decimal_loop fuel n [] ++ acc := by
  intro fuel
  induction fuel with
  | zero => intro n acc; rfl
  | succ fuel ih =>
    intro n acc
    simp only [decimal_loop]
    by_cases h : n / 10 = 0
    · rw [if_pos h, if_pos h]; rfl
    · rw [if_neg h, if_neg h, ih (n / 10) (Char.ofNat (48 + n % 10) :: acc),
        ih (n / 10) [Char.ofNat (48 + n % 10)]]
      simp

theorem decimal_loop_small (fuel n : Nat) (h : n / 10 = 0) :
    decimal_loop (fuel + 1) n [] = [Char.ofNat (48 + n % 10)] := by
  simp only [decimal_loop]
  rw [if_pos h]

theorem decimal_loop_big (fuel n : Nat) (h : ¬ n / 10 = 0) :
    decimal_loop (fuel + 1) n []
      = decimal_loop fuel (n / 10) [] ++ [Char.ofNat (48 + n % 10)] := by
  simp only [decimal_loop]
  rw [if_neg h, decimal_loop_append]

theorem decval_digit (a k : Nat) (h : k < 10) : decval a [Char.ofNat (48 + k)] = a * 10 + k := by
  rw [decval_cons, decval_nil, ofNat_digit_toNat k h]
  omega

theorem decval_decimal_loop : ∀ (fuel n : Nat), n < fuel →
    decval 0 (decimal_loop fuel n []) = n := by
  intro fuel
  induction fuel with
  | zero => intro n h; omega
  | succ fuel ih =>
    intro n h
    have hm : n % 10 < 10 := Nat.mod_lt _ (by decide)
    by_cases h0 : n / 10 = 0
    · rw [decimal_loop_small fuel n h0, decval_digit 0 _ hm]
      omega
    · rw [decimal_loop_big fuel n h0, decval_append, ih (n / 10) (by omega), decval_digit _ _ hm]
      omega

theorem isdigit_decimal_loop : ∀ (fuel n : Nat), ∀ c ∈ decimal_loop fuel n [], isdigit c = true := by
  intro fuel
  induction fuel with
  | zero => intro n c hc; simp [decimal_loop] at hc
  | succ fuel ih =>
    intro n c hc
    have hm : n % 10 < 10 := Nat.mod_lt _ (by decide)
    by_cases h0 : n / 10 = 0
    · rw [decimal_loop_small fuel n h0] at hc
      simp only [List.mem_singleton] at hc
      rw [hc]; exact isdigit_ofNat_digit _ hm
    · rw [decimal_loop_big fuel n h0] at hc
      rcases List.mem_append.1 hc with h | h
      · exact ih _ c h
      · simp only [List.mem_singleton] at h
        rw [h]; exact isdigit_ofNat_digit _ hm

theorem length_decimal_loop_le : ∀ (fuel n k : Nat), 1 ≤ k → n < 10 ^ k →
    (decimal_loop fuel n []).length ≤ k := by
  intro fuel
  induction fuel with
  | zero => intro n k _ _; simp [decimal_loop]
  | succ fuel ih =>
    intro n k hk hn
    by_cases h0 : n / 10 = 0
    · rw [decimal_loop_small fuel n h0]; simpa using hk
    · rw [decimal_loop_big fuel n h0]
      have hk2 : 2 ≤ k := by
        by_contra hc
        have : k = 1 := by omega
        rw [this] at hn
        simp only [pow_one] at hn
        exact h0 (Nat.div_eq_of_lt hn)
      have : n / 10 < 10 ^ (k - 1) := by
        apply Nat.div_lt_of_lt_mul
        have e : 10 * 10 ^ (k - 1) = 10 ^ k := by
          rw [← pow_succ']
          congr 1
          omega
        omega
      have := ih (n / 10) (k - 1) (by omega) this
      simp only [List.length_append, List.length_singleton]
      omega

theorem head_decimal_loop : ∀ (fuel n : Nat), 0 < n → n < fuel →
    ∃ c rest, decimal_loop fuel n [] = c :: rest ∧ c.toNat ≠ 48 ∧ isdigit c = true := by
  intro fuel
  induction fuel with
  | zero => intro n _ h; omega
  | succ fuel ih =>
    intro n hpos h
    have hm : n % 10 < 10 := Nat.mod_lt _ (by decide)
    by_cases h0 : n / 10 = 0
    · rw [decimal_loop_small fuel n h0]
      refine ⟨_, [], rfl, ?_, isdigit_ofNat_digit _ hm⟩
      rw [ofNat_digit_toNat _ hm]
      omega
    · rw [decimal_loop_big fuel n h0]
      obtain ⟨c, rest, e, h1, h2⟩ := ih (n / 10) (Nat.pos_of_ne_zero h0) (by omega)
      rw [e]
      exact ⟨c, rest ++ [Char.ofNat (48 + n % 10)], rfl, h1, h2⟩

theorem decval_decimal (n : Nat) : decval 0 (decimal n) = n :=
  decval_decimal_loop (n + 1) n (Nat.lt_succ_self n)

theorem isdigit_decimal (n : Nat) : ∀ c ∈ decimal n, isdigit c = true :=
  isdigit_decimal_loop (n + 1) n

theorem length_decimal_le {n : Nat} (h : n < BASE) : (decimal n).length ≤ BASE_DIGS :=
  length_decimal_loop_le (n + 1) n 9 (by decide) h

theorem head_decimal {n : Nat} (h : 0 < n) :
    ∃ c rest, decimal n = c :: rest ∧ c.toNat ≠ 48 ∧ isdigit c = true :=
  head_decimal_loop (n + 1) n h (Nat.lt_succ_self n)

theorem length_decimal_fill {n : Nat} (h : n < BASE) :
    (decimal_fill BASE_DIGS n).length = BASE_DIGS := by
  unfold decimal_fill
  have := length_decimal_le h
  simp only [List.length_append, List.length_replicate]
  omega

theorem decval_decimal_fill (n : Nat) : decval 0 (decimal_fill BASE_DIGS n) = n := by
  unfold decimal_fill
  rw [decval_append, decval_replicate_zero, decval_decimal]

theorem isdigit_decimal_fill (n : Nat) : ∀ c ∈ decimal_fill BASE_DIGS n, isdigit c = true := by
  intro c hc
  unfold decimal_fill at hc
  rcases List.mem_append.1 hc with h | h
  · rw [List.eq_of_mem_replicate h]; decide
  · exact isdigit_decimal n c h

theorem getD_append_cons (pre : List Char) (c : Char) (post : List Char) :
    (pre ++ c :: post).getD pre.length '0' = c := by
  induction pre with
  | nil => rfl
  | cons x xs ih => simpa using ih

/-- The inner loop of `from_string` on a run of digits that fits a `uint32_t`
reads the number the digits denote. -/
theorem from_string_block_spec : ∀ (cs pre post : List Char) (block : Nat),
    (∀ c ∈ cs, isdigit c = true) → decval block cs < U32 →
    from_string_block (pre ++ cs ++ post) cs.length pre.length block = decval block cs := by
  intro cs
  induction cs with
  | nil => intro pre post block _ _; rfl
  | cons c cs ih =>
    intro pre post block hd hlt
    rw [decval_cons]
    simp only [List.length_cons, from_string_block]
    have hc := (isdigit_iff c).1 (hd c (List.mem_cons_self _ _))
    have hget : (pre ++ c :: cs ++ post).getD pre.length '0' = c := by
      rw [List.append_assoc]
      exact getD_append_cons pre c (cs ++ post)
    rw [hget]
    have hle := le_decval (block * 10 + (c.toNat - 48)) cs
    rw [decval_cons] at hlt
    have hdig : ((((c.toNat : Nat) : Int) - 48) % ((U32 : Nat) : Int)).toNat = c.toNat - 48 := by
      have : (((c.toNat : Nat) : Int) - 48) % ((U32 : Nat) : Int) = ((c.toNat : Nat) : Int) - 48 := by
        apply Int.emod_eq_of_lt
        · omega
        · simp only [U32]; omega
      rw [this]
      omega
    rw [hdig]
    have hb : block * 10 % U32 = block * 10 := Nat.mod_eq_of_lt (by omega)
    rw [hb, Nat.mod_eq_of_lt (by omega)]
    have := ih (pre ++ [c]) post (block * 10 + (c.toNat - 48))
      (fun x hx => hd x (List.mem_cons_of_mem _ hx)) hlt
    simp only [List.length_append, List.length_singleton, List.append_assoc,
      List.singleton_append] at this
    simpa [List.append_assoc] using this

theorem blocks_text_concat (lo : List Nat) (x : Nat) :
    blocks_text (lo ++ [x]) = decimal_fill BASE_DIGS x ++ blocks_text lo := by
  induction lo with
  | nil => simp [blocks_text]
  | cons b lo ih => simp [blocks_text, ih]

theorem take_succ_getD (d : List Nat) (k : Nat) (h : k < d.length) :
    d.take (k + 1) = d.take k ++ [d.getD k 0] := by
  induction d generalizing k with
  | nil => simp at h
  | cons x xs ih =>
    cases k with
    | zero => simp
    | succ k =>
      simp only [List.length_cons, Nat.add_lt_add_iff_right] at h
      simpa using ih k h

theorem to_string_loop_spec (d : List Nat) : ∀ (k : Nat) (oss : List Char), k ≤ d.length →
    to_string_loop d k oss = oss ++ blocks_text (d.take k) := by
  intro k
  induction k with
  | zero => intro oss _; simp [to_string_loop, blocks_text]
  | succ k ih =>
    intro oss hk
    simp only [to_string_loop]
    rw [ih _ (by omega), take_succ_getD d k (by omega), blocks_text_concat]
    simp

theorem length_decimal_pos (n : Nat) : 0 < (decimal n).length := by
  unfold decimal
  by_cases h0 : n / 10 = 0
  · rw [decimal_loop_small n n h0]; simp
  · rw [decimal_loop_big n n h0]; simp

theorem isdigit_blocks_text (lo : List Nat) : ∀ c ∈ blocks_text lo, isdigit c = true := by
  induction lo with
  | nil => intro c hc; simp [blocks_text] at hc
  | cons b lo ih =>
    intro c hc
    simp only [blocks_text] at hc
    rcases List.mem_append.1 hc with h | h
    · exact ih c h
    · exact isdigit_decimal_fill b c h

theorem from_string_chunks_done (t : List Char) (j fuel p : Nat) (d : List Nat) (h : ¬ p > j) :
    from_string_chunks t j fuel p d = d := by
  cases fuel with
  | zero => rfl
  | succ f =>
    simp only [from_string_chunks]
    rw [if_neg h]

/-- The chunk loop of `from_string` on the text of a block sequence reads back the
blocks, least significant first. -/
theorem from_string_chunks_spec : ∀ (lo : List Nat) (top : Nat) (S : List Char)
    (acc : List Nat) (fuel : Nat), Blocks lo → top < BASE →
    (decimal top ++ blocks_text lo).length ≤ fuel →
    from_string_chunks ((decimal top ++ blocks_text lo) ++ S) 0 fuel
      (decimal top ++ blocks_text lo).length acc = acc ++ lo ++ [top] := by
  intro lo
  induction lo with
  | nil =>
    intro top S acc fuel _ htop hf
    simp only [blocks_text, List.append_nil] at hf ⊢
    have hL1 := length_decimal_pos top
    have hL9 := length_decimal_le htop
    simp only [BASE_DIGS] at hL9
    cases fuel with
    | zero => omega
    | succ f =>
      simp only [from_string_chunks, BASE_DIGS]
      rw [if_pos (by omega)]
      have hs0 : (if (decimal top).length ≥ 9 then (decimal top).length - 9 else 0) = 0 := by
        split <;> omega
      rw [hs0]
      simp only [lt_irrefl, if_false, Nat.sub_zero]
      have hb := from_string_block_spec (decimal top) [] S 0 (isdigit_decimal top)
        (by rw [decval_decimal]; simp only [BASE, U32] at *; omega)
      simp only [List.nil_append, List.length_nil] at hb
      rw [hb, decval_decimal, from_string_chunks_done _ _ _ _ _ (by omega)]
  | cons b lo ih =>
    intro top S acc fuel hB htop hf
    rw [Blocks_cons] at hB
    have hfl := length_decimal_fill hB.1
    simp only [BASE_DIGS] at hfl
    have hlen : (decimal top ++ blocks_text (b :: lo)).length
        = (decimal top ++ blocks_text lo).length + 9 := by
      simp only [blocks_text, List.length_append, hfl, BASE_DIGS]
      omega
    rw [hlen] at hf ⊢
    cases fuel with
    | zero => omega
    | succ f =>
      simp only [from_string_chunks, BASE_DIGS]
      rw [if_pos (by omega)]
      have hs0 : (if (decimal top ++ blocks_text lo).length + 9 ≥ 9
          then (decimal top ++ blocks_text lo).length + 9 - 9 else 0)
          = (decimal top ++ blocks_text lo).length := by
        split <;> omega
      rw [hs0]
      rw [if_neg (by omega)]
      have hsub : (decimal top ++ blocks_text lo).length + 9
          - (decimal top ++ blocks_text lo).length = 9 := by omega
      rw [hsub]
      have htext : (decimal top ++ blocks_text (b :: lo)) ++ S
          = (decimal top ++ blocks_text lo) ++ decimal_fill 9 b ++ S := by
        simp only [blocks_text, BASE_DIGS, List.append_assoc]
      rw [htext]
      have hdv : decval 0 (decimal_fill 9 b) = b := decval_decimal_fill b
      have hb : from_string_block ((decimal top ++ blocks_text lo) ++ decimal_fill 9 b ++ S)
          (decimal_fill 9 b).length (decimal top ++ blocks_text lo).length 0
          = decval 0 (decimal_fill 9 b) :=
        from_string_block_spec (decimal_fill 9 b) (decimal top ++ blocks_text lo)
          S 0 (isdigit_decimal_fill b)
          (by rw [hdv]; simp only [BASE, U32] at *; omega)
      rw [hfl] at hb
      rw [hb, hdv]
      have := ih top (decimal_fill 9 b ++ S) (acc ++ [b]) f hB.2 htop (by omega)
      simp only [List.append_assoc] at this ⊢
      rw [this]
      simp

theorem isspace_minus : isspace '-' = false := by decide

/-- Round trip: parsing the text of a canonical object gives the object back. -/
theorem from_string_to_string {x : BigInt} (hx : Canonical x) :
    from_string (to_string x) = x := by
  by_cases he : x.d = []
  · have hn := hx.2 he
    have hx0 : x = ⟨[], false⟩ := by
      cases x
      simp only at he hn
      simp [he, hn]
    rw [hx0]
    decide
  · obtain ⟨lo, top, hd⟩ : ∃ lo top, x.d = lo ++ [top] := by
      rcases List.eq_nil_or_concat x.d with h | ⟨lo, top, h⟩
      · exact absurd h he
      · exact ⟨lo, top, by rw [h, List.concat_eq_append]⟩
    have hBl : Blocks (lo ++ [top]) := by rw [← hd]; exact hx.1.1
    rw [Blocks_append] at hBl
    have htop : top < BASE := hBl.2 top (by simp)
    have htop0 : top ≠ 0 := by
      have := hx.1.2
      rw [hd] at this
      exact Trimmed_concat.1 this
    -- the text written
    have htxt : to_string x
        = (if x.neg then ['-'] else []) ++ (decimal top ++ blocks_text lo) := by
      unfold to_string
      rw [if_neg (by simp [isEmpty_eq_false_of_ne_nil he])]
      dsimp only
      rw [to_string_loop_spec x.d _ _ (by omega), hd]
      simp
    obtain ⟨c0, rest, hc0, hc0n, hc0d⟩ := head_decimal (Nat.pos_of_ne_zero htop0)
    have hT : decimal top ++ blocks_text lo = c0 :: (rest ++ blocks_text lo) := by
      rw [hc0]; rfl
    have hTd : ∀ c ∈ decimal top ++ blocks_text lo, isdigit c = true := by
      intro c hc
      rcases List.mem_append.1 hc with h | h
      · exact isdigit_decimal top c h
      · exact isdigit_blocks_text lo c h
    generalize hTdef : decimal top ++ blocks_text lo = T at *
    have hc0s : isspace c0 = false := isspace_eq_false_of_isdigit hc0d
    have hc0t := (isdigit_iff c0).1 hc0d
    have hplus : c0 ≠ '+' := by
      intro e
      rw [e] at hc0t
      revert hc0t
      decide
    have hminus : c0 ≠ '-' := by
      intro e
      rw [e] at hc0t
      revert hc0t
      decide
    -- the scan
    have h1 : (to_string x).dropWhile isspace = to_string x := by
      rw [htxt, hT]
      cases x.neg
      · simp only [Bool.false_eq_true, if_false, List.nil_append]
        exact List.dropWhile_cons_of_neg (by rw [hc0s]; simp)
      · simp only [if_true, List.singleton_append]
        exact List.dropWhile_cons_of_neg (by rw [isspace_minus]; simp)
    have h2 : from_string_sign (to_string x) = (x.neg, T) := by
      rw [htxt, hT]
      cases x.neg
      · simp only [Bool.false_eq_true, if_false, List.nil_append, from_string_sign]
        rw [if_neg hplus, if_neg hminus]
      · simp only [if_true, List.singleton_append]
        rfl
    have h3 : T.dropWhile isspace = T := by
      rw [hT]
      exact List.dropWhile_cons_of_neg (by rw [hc0s]; simp)
    have h4 : T.takeWhile isdigit = T := List.takeWhile_eq_self_iff.2 hTd
    have h5 : (T.takeWhile (fun c => c == '0')).length = 0 := by
      rw [hT, List.takeWhile_cons_of_neg]
      · rfl
      · intro hh
        have : c0 = '0' := by simpa using hh
        rw [this] at hc0n
        exact hc0n rfl
    have h6 : ¬ (0 = T.length) := by
      rw [hT]; simp
    have h7 : from_string_chunks T 0 T.length T.length [] = lo ++ [top] := by
      have := from_string_chunks_spec lo top [] [] T.length hBl.1 htop (by rw [hTdef])
      rw [hTdef] at this
      simpa using this
    unfold from_string
    dsimp only
    rw [h1, h2]
    dsimp only
    rw [h3, h4, h5, if_neg h6, h7]
    unfold BigInt.trim
    dsimp only
    have htr : trim_vec (lo ++ [top]) = lo ++ [top] := trim_vec_concat_pos lo htop0
    rw [htr]
    have : (lo ++ [top]).isEmpty = false := by simp
    rw [this]
    cases x
    simp only at hd
    simp [hd]

/-! ### `from_string` on an arbitrary input -/

theorem decval_acc (a : Nat) (cs : List Char) :
    decval a cs = a * 10 ^ cs.length + decval 0 cs := by
  induction cs generalizing a with
  | nil => simp [decval_nil]
  | cons c cs ih =>
    rw [decval_cons, decval_cons, ih, ih (0 * 10 + (c.toNat - 48))]
    simp only [List.length_cons, pow_succ]
    ring

theorem decval_lt_pow (cs : List Char) (h : ∀ c ∈ cs, isdigit c = true) :
    decval 0 cs < 10 ^ cs.length := by
  induction cs using List.reverseRecOn with
  | nil => simp [decval_nil]
  | append_singleton cs c ih =>
    have hc := (isdigit_iff c).1 (h c (by simp))
    have := ih (fun x hx => h x (by simp [hx]))
    rw [decval_append, decval_cons, decval_nil]
    simp only [List.length_append, List.length_singleton, pow_succ]
    omega

theorem decval_append_zero (xs ys : List Char) :
    decval 0 (xs ++ ys) = decval 0 xs * 10 ^ ys.length + decval 0 ys := by
  rw [decval_append, decval_acc]

theorem decval_zeros (zs : List Char) (h : ∀ c ∈ zs, (c == '0') = true) : decval 0 zs = 0 := by
  induction zs with
  | nil => rfl
  | cons c zs ih =>
    have hc : c = '0' := by simpa using h c (List.mem_cons_self _ _)
    rw [decval_cons, hc]
    exact ih (fun x hx => h x (List.mem_cons_of_mem _ hx))

/-- The chunk loop of `from_string` on a run of digits `U` standing after `Z`:
blocks in range whose magnitude is the number `U` denotes. -/
theorem from_string_chunks_digits : ∀ (fuel : Nat) (U Z V : List Char) (acc : List Nat),
    (∀ c ∈ U, isdigit c = true) → U.length ≤ fuel →
    ∃ d, from_string_chunks (Z ++ U ++ V) Z.length fuel (Z.length + U.length) acc = acc ++ d ∧
      Blocks d ∧ val d = decval 0 U := by
  intro fuel
  induction fuel with
  | zero =>
    intro U Z V acc _ hf
    have hU : U = [] := List.length_eq_zero.1 (by omega)
    subst hU
    exact ⟨[], by simp [from_string_chunks], Blocks_nil, rfl⟩
  | succ f ih =>
    intro U Z V acc hd hf
    by_cases hU : U = []
    · subst hU
      refine ⟨[], ?_, Blocks_nil, rfl⟩
      rw [from_string_chunks_done _ _ _ _ _ (by simp)]
      simp
    · have hpos : 0 < U.length := List.length_pos.2 hU
      simp only [from_string_chunks, BASE_DIGS]
      rw [if_pos (by omega)]
      have hstart : (if (if Z.length + U.length ≥ 9 then Z.length + U.length - 9 else 0) < Z.length
          then Z.length else (if Z.length + U.length ≥ 9 then Z.length + U.length - 9 else 0))
          = Z.length + (U.length - 9) := by
        split_ifs <;> omega
      rw [hstart]
      have hsplit : U = U.take (U.length - 9) ++ U.drop (U.length - 9) :=
        (List.take_append_drop _ _).symm
      generalize hU1 : U.take (U.length - 9) = U1 at hsplit
      generalize hU2 : U.drop (U.length - 9) = U2 at hsplit
      have hl1 : U1.length = U.length - 9 := by
        rw [← hU1, List.length_take]; omega
      have hl2 : U2.length = U.length - (U.length - 9) := by
        rw [← hU2, List.length_drop]
      have hd1 : ∀ c ∈ U1, isdigit c = true := fun c hc => hd c (by rw [hsplit]; simp [hc])
      have hd2 : ∀ c ∈ U2, isdigit c = true := fun c hc => hd c (by rw [hsplit]; simp [hc])
      have hlt2 := decval_lt_pow U2 hd2
      have hle9 : U2.length ≤ 9 := by omega
      have hpow : 10 ^ U2.length ≤ 10 ^ 9 := Nat.pow_le_pow_right (by decide) hle9
      have hblock : from_string_block (Z ++ U ++ V)
          (Z.length + U.length - (Z.length + (U.length - 9))) (Z.length + (U.length - 9)) 0
          = decval 0 U2 := by
        have := from_string_block_spec U2 (Z ++ U1) V 0 hd2 (by simp only [U32]; omega)
        have e1 : Z ++ U1 ++ U2 ++ V = Z ++ U ++ V := by rw [hsplit]; simp
        have e2 : (Z ++ U1).length = Z.length + (U.length - 9) := by simp [hl1]
        have e3 : Z.length + U.length - (Z.length + (U.length - 9)) = U2.length := by omega
        rw [e1, e2] at this
        rw [e3]
        exact this
      rw [hblock]
      obtain ⟨d, hd', hB, hv⟩ := ih U1 Z (U2 ++ V) (acc ++ [decval 0 U2]) hd1 (by omega)
      have e4 : Z ++ U1 ++ (U2 ++ V) = Z ++ U ++ V := by rw [hsplit]; simp
      rw [e4, hl1] at hd'
      refine ⟨decval 0 U2 :: d, ?_, ?_, ?_⟩
      · rw [hd']; simp
      · rw [Blocks_cons]
        exact ⟨by simp only [BASE]; omega, hB⟩
      · rw [val_cons, hv]
        conv_rhs => rw [hsplit, decval_append_zero]
        by_cases h9 : 9 ≤ U.length
        · have : U2.length = 9 := by omega
          rw [this]
          simp only [BASE]
          ring
        · have hU1nil : U1 = [] := List.length_eq_zero.1 (by omega)
          rw [hU1nil, decval_nil]
          simp

theorem Canonical_trim {x : BigInt} (h : Blocks x.d) : Canonical (BigInt.trim x) := by
  unfold BigInt.trim
  refine ⟨CanonMag_trim_vec h, ?_⟩
  intro he
  simp only at he ⊢
  rw [he]
  rfl

theorem value_trim (x : BigInt) : value (BigInt.trim x) = value x := by
  unfold BigInt.trim
  rw [value_eq, value_eq]
  dsimp only
  rw [val_trim_vec]
  by_cases he : trim_vec x.d = []
  · have h0 : val x.d = 0 := by rw [← val_trim_vec, he]; rfl
    rw [he, h0]
    simp
  · rw [isEmpty_eq_false_of_ne_nil he]
    simp

/-- The sign flag `is_neg` and the digit run `t` that `from_string` reads from `s`. -/
theorem from_string_spec (s : List Char) :
    Canonical (from_string s) ∧
      value (from_string s)
        = (if (from_string_sign (s.dropWhile isspace)).1 then -1 else 1)
          * ((decval 0 (((from_string_sign (s.dropWhile isspace)).2.dropWhile
              isspace).takeWhile isdigit) : Nat) : Int) := by
  unfold from_string
  dsimp only
  generalize (from_string_sign (s.dropWhile isspace)).1 = sg
  generalize hD : ((from_string_sign (s.dropWhile isspace)).2.dropWhile
      isspace).takeWhile isdigit = D
  have hdig : ∀ c ∈ D, isdigit c = true := by
    intro c hc
    rw [← hD] at hc
    exact List.mem_takeWhile_imp hc
  have hsplit : D = D.takeWhile (fun c => c == '0') ++ D.dropWhile (fun c => c == '0') :=
    (List.takeWhile_append_dropWhile _ _).symm
  generalize hZ : D.takeWhile (fun c => c == '0') = Z at hsplit ⊢
  generalize hU : D.dropWhile (fun c => c == '0') = U at hsplit
  have hz : ∀ c ∈ Z, (c == '0') = true := by
    intro c hc
    rw [← hZ] at hc
    have h := List.mem_takeWhile_imp hc
    exact h
  have hdU : ∀ c ∈ U, isdigit c = true := fun c hc => hdig c (by rw [hsplit]; simp [hc])
  have hval : decval 0 D = decval 0 U := by
    rw [hsplit, decval_append, decval_zeros Z hz]
  have hlen : D.length = Z.length + U.length := by rw [hsplit]; simp
  by_cases hj : Z.length = D.length
  · rw [if_pos hj]
    have hUnil : U = [] := List.length_eq_zero.1 (by omega)
    rw [hval, hUnil, decval_nil]
    refine ⟨by decide, ?_⟩
    simp [value_eq, val_nil]
  · rw [if_neg hj]
    obtain ⟨d, hd, hB, hv⟩ := from_string_chunks_digits D.length U Z [] [] hdU (by omega)
    have e : Z ++ U ++ [] = D := by rw [hsplit]; simp
    rw [e, ← hlen] at hd
    rw [hd, List.nil_append]
    refine ⟨Canonical_trim hB, ?_⟩
    rw [value_trim, value_eq]
    dsimp only
    rw [hv, hval]
    cases sg <;> simp

/-- The result of `from_string` depends on the sign flag and the digit run only. -/
theorem from_string_congr (s s' : List Char)
    (h1 : (from_string_sign (s.dropWhile isspace)).1
        = (from_string_sign (s'.dropWhile isspace)).1)
    (h2 : ((from_string_sign (s.dropWhile isspace)).2.dropWhile isspace).takeWhile isdigit
        = ((from_string_sign (s'.dropWhile isspace)).2.dropWhile isspace).takeWhile isdigit) :
    from_string s = from_string s' := by
  unfold from_string
  dsimp only
  rw [h1, h2]

theorem dropWhile_append_of_all {p : Char → Bool} (W r : List Char) (h : ∀ x ∈ W, p x = true) :
    (W ++ r).dropWhile p = r.dropWhile p := by
  induction W with
  | nil => rfl
  | cons w W ih =>
    rw [List.cons_append, List.dropWhile_cons_of_pos (h w (List.mem_cons_self _ _))]
    exact ih (fun x hx => h x (List.mem_cons_of_mem _ hx))

theorem takeWhile_append_of_all {p : Char → Bool} (D r : List Char) (h : ∀ x ∈ D, p x = true) :
    (D ++ r).takeWhile p = D ++ r.takeWhile p := by
  induction D with
  | nil => rfl
  | cons w W ih =>
    rw [List.cons_append, List.takeWhile_cons_of_pos (h w (List.mem_cons_self _ _))]
    rw [ih (fun x hx => h x (List.mem_cons_of_mem _ hx))]
    rfl

theorem takeWhile_isdigit_rest (t : List Char)
    (ht : ∀ c rest, t = c :: rest → isdigit c = false) : t.takeWhile isdigit = [] := by
  cases t with
  | nil => rfl
  | cons c rest =>
    exact List.takeWhile_cons_of_neg (by rw [ht c rest rfl]; simp)

theorem dropWhile_isspace_digits (D t : List Char) (hne : D ≠ [])
    (hD : ∀ c ∈ D, isdigit c = true) : (D ++ t).dropWhile isspace = D ++ t := by
  cases D with
  | nil => exact absurd rfl hne
  | cons c cs =>
    have := isspace_eq_false_of_isdigit (hD c (List.mem_cons_self _ _))
    exact List.dropWhile_cons_of_neg (by rw [this]; simp)

theorem from_string_sign_digits (D t : List Char) (hne : D ≠ [])
    (hD : ∀ c ∈ D, isdigit c = true) : from_string_sign (D ++ t) = (false, D ++ t) := by
  cases D with
  | nil => exact absurd rfl hne
  | cons c cs =>
    have hc := (isdigit_iff c).1 (hD c (List.mem_cons_self _ _))
    have hplus : c ≠ '+' := by
      intro e; rw [e] at hc; revert hc; decide
    have hminus : c ≠ '-' := by
      intro e; rw [e] at hc; revert hc; decide
    simp only [List.cons_append, from_string_sign]
    rw [if_neg hplus, if_neg hminus]

/-- The scan of `from_string` over whitespace, an optional sign, whitespace and a
non-empty digit run that is followed by no further digit. -/
theorem from_string_scan (W1 sgn W2 D t : List Char)
    (hW1 : ∀ c ∈ W1, isspace c = true) (hs : sgn = [] ∨ sgn = ['+'] ∨ sgn = ['-'])
    (hW2 : ∀ c ∈ W2, isspace c = true) (hne : D ≠ []) (hD : ∀ c ∈ D, isdigit c = true)
    (ht : ∀ c rest, t = c :: rest → isdigit c = false) :
    (from_string_sign ((W1 ++ sgn ++ W2 ++ D ++ t).dropWhile isspace)).1
        = decide (sgn = ['-']) ∧
      ((from_string_sign ((W1 ++ sgn ++ W2 ++ D ++ t).dropWhile isspace)).2.dropWhile
          isspace).takeWhile isdigit = D := by
  have hlast : ((D ++ t).dropWhile isspace).takeWhile isdigit = D := by
    rw [dropWhile_isspace_digits D t hne hD,
      takeWhile_append_of_all D t hD, takeWhile_isdigit_rest t ht, List.append_nil]
  have hlast2 : ((W2 ++ (D ++ t)).dropWhile isspace).takeWhile isdigit = D := by
    rw [dropWhile_append_of_all W2 _ hW2, hlast]
  rcases hs with h | h | h
  · subst h
    have e : W1 ++ [] ++ W2 ++ D ++ t = W1 ++ (W2 ++ (D ++ t)) := by simp
    rw [e, dropWhile_append_of_all W1 _ hW1, dropWhile_append_of_all W2 _ hW2,
      dropWhile_isspace_digits D t hne hD, from_string_sign_digits D t hne hD]
    exact ⟨rfl, hlast⟩
  · subst h
    have e : W1 ++ ['+'] ++ W2 ++ D ++ t = W1 ++ ('+' :: (W2 ++ (D ++ t))) := by simp
    rw [e, dropWhile_append_of_all W1 _ hW1,
      List.dropWhile_cons_of_neg (by decide)]
    exact ⟨rfl, hlast2⟩
  · subst h
    have e : W1 ++ ['-'] ++ W2 ++ D ++ t = W1 ++ ('-' :: (W2 ++ (D ++ t))) := by simp
    rw [e, dropWhile_append_of_all W1 _ hW1,
      List.dropWhile_cons_of_neg (by decide)]
    exact ⟨rfl, hlast2⟩

/-! ### Inputs without a digit run -/

theorem from_string_sign_split (s : List Char) :
    ∃ sgn, (sgn = [] ∨ sgn = ['+'] ∨ sgn = ['-']) ∧ s = sgn ++ (from_string_sign s).2 := by
  cases s with
  | nil => exact ⟨[], Or.inl rfl, rfl⟩
  | cons c rest =>
    by_cases hp : c = '+'
    · refine ⟨['+'], Or.inr (Or.inl rfl), ?_⟩
      simp only [from_string_sign]
      rw [if_pos hp, hp]
      rfl
    · by_cases hm : c = '-'
      · refine ⟨['-'], Or.inr (Or.inr rfl), ?_⟩
        simp only [from_string_sign]
        rw [if_neg hp, if_pos hm, hm]
        rfl
      · refine ⟨[], Or.inl rfl, ?_⟩
        simp only [from_string_sign]
        rw [if_neg hp, if_neg hm]
        rfl

theorem from_string_of_no_run (s : List Char)
    (h : ((from_string_sign (s.dropWhile isspace)).2.dropWhile isspace).takeWhile isdigit = []) :
    from_string s = BigInt.zero := by
  unfold from_string
  dsimp only
  rw [h]
  rfl

/-- An input in which no digit stands after whitespace, an optional sign and
whitespace is read as zero. -/
theorem from_string_no_digit (s : List Char)
    (h : ∀ (W1 sgn W2 : List Char) (c : Char) (rest : List Char),
      s = W1 ++ sgn ++ W2 ++ c :: rest → (∀ x ∈ W1, isspace x = true) →
      (sgn = [] ∨ sgn = ['+'] ∨ sgn = ['-']) → (∀ x ∈ W2, isspace x = true) →
      isdigit c = false) :
    from_string s = BigInt.zero := by
  apply from_string_of_no_run
  apply takeWhile_isdigit_rest
  intro c rest hc
  obtain ⟨sgn, hsgn, hsplit⟩ := from_string_sign_split (s.dropWhile isspace)
  have h1 : s = s.takeWhile isspace ++ s.dropWhile isspace :=
    (List.takeWhile_append_dropWhile _ _).symm
  have h2 : (from_string_sign (s.dropWhile isspace)).2
      = (from_string_sign (s.dropWhile isspace)).2.takeWhile isspace
        ++ (from_string_sign (s.dropWhile isspace)).2.dropWhile isspace :=
    (List.takeWhile_append_dropWhile _ _).symm
  refine h (s.takeWhile isspace) sgn
    ((from_string_sign (s.dropWhile isspace)).2.takeWhile isspace) c rest ?_ ?_ hsgn ?_
  · rw [← hc, List.append_assoc, List.append_assoc, ← h2, ← hsplit, ← h1]
  · intro x hx
    exact List.mem_takeWhile_imp hx
  · intro x hx
    exact List.mem_takeWhile_imp hx

/-! ### The text `to_string` writes -/

theorem decimal_loop_eq_toDigitsCore : ∀ (fuel n : Nat) (acc : List Char),
    decimal_loop fuel n acc = Nat.toDigitsCore 10 fuel n acc := by
  intro fuel
  induction fuel with
  | zero => intro n acc; rfl
  | succ f ih =>
    intro n acc
    have hd : Char.ofNat (48 + n % 10) = Nat.digitChar (n % 10) := by
      have : n % 10 < 10 := Nat.mod_lt _ (by decide)
      revert this
      generalize n % 10 = k
      intro hk
      interval_cases k <;> rfl
    simp only [decimal_loop, Nat.toDigitsCore]
    rw [hd, ih]

theorem decimal_eq_toDigits (n : Nat) : decimal n = Nat.toDigits 10 n :=
  decimal_loop_eq_toDigitsCore (n + 1) n []

theorem decval_pos_of_head {c : Char} {rest : List Char} (hc : isdigit c = true)
    (h0 : c ≠ '0') : 0 < decval 0 (c :: rest) := by
  rw [decval_cons, decval_acc]
  have ht := (isdigit_iff c).1 hc
  have hne : c.toNat ≠ 48 := by
    intro e
    apply h0
    apply Char.ext
    have : ('0' : Char).val = (48 : UInt32) := rfl
    rw [this]
    apply UInt32.ext
    exact e
  have hp : 0 < 10 ^ rest.length := Nat.pow_pos (by decide)
  have h1 : 1 ≤ 0 * 10 + (c.toNat - 48) := by omega
  calc 0 < 10 ^ rest.length := hp
    _ = 1 * 10 ^ rest.length := (Nat.one_mul _).symm
    _ ≤ (0 * 10 + (c.toNat - 48)) * 10 ^ rest.length := Nat.mul_le_mul_right _ h1
    _ ≤ _ := Nat.le_add_right _ _

theorem ofNat_toNat_digit (c : Char) (hc : isdigit c = true) :
    Char.ofNat (48 + (c.toNat - 48)) = c := by
  have ht := (isdigit_iff c).1 hc
  have : 48 + (c.toNat - 48) = c.toNat := by omega
  rw [this]
  exact Char.ofNat_toNat c

/-- A digit run without a leading zero is the text `decimal` writes for the number
it denotes. -/
theorem decimal_loop_decval : ∀ (ds : List Char), (∀ c ∈ ds, isdigit c = true) → ds ≠ [] →
    (ds = ['0'] ∨ ds.head? ≠ some '0') →
    ∀ fuel, decval 0 ds < fuel → decimal_loop fuel (decval 0 ds) [] = ds := by
  intro ds
  induction ds using List.reverseRecOn with
  | nil => intro _ h; exact absurd rfl h
  | append_singleton ds c ih =>
    intro hd _ h0 fuel hf
    have hc := hd c (by simp)
    have htc := (isdigit_iff c).1 hc
    have hv : decval 0 (ds ++ [c]) = decval 0 ds * 10 + (c.toNat - 48) := by
      rw [decval_append, decval_cons, decval_nil]
    rw [hv] at hf ⊢
    have hdiv : (decval 0 ds * 10 + (c.toNat - 48)) / 10 = decval 0 ds := by omega
    have hmod : (decval 0 ds * 10 + (c.toNat - 48)) % 10 = c.toNat - 48 := by omega
    cases fuel with
    | zero => omega
    | succ f =>
      by_cases hds : ds = []
      · subst hds
        rw [decimal_loop_small _ _ (by rw [hdiv]; rfl), hmod, ofNat_toNat_digit c hc]
        rfl
      · have hhead : ds.head? ≠ some '0' := by
          rcases h0 with h | h
          · exfalso
            have := congrArg List.length h
            have hl : 0 < ds.length := List.length_pos.2 hds
            rw [List.length_append] at this
            simp only [List.length_singleton] at this
            omega
          · rw [List.head?_append_of_ne_nil _ hds] at h
            exact h
        obtain ⟨c0, r0, hcr⟩ := List.exists_cons_of_ne_nil hds
        have hc0 : c0 ≠ '0' := by
          intro e
          apply hhead
          rw [hcr, e]
          rfl
        have hpos : 0 < decval 0 ds := by
          rw [hcr]
          exact decval_pos_of_head (hd c0 (by rw [hcr]; simp)) hc0
        rw [decimal_loop_big _ _ (by rw [hdiv]; omega), hdiv, hmod, ofNat_toNat_digit c hc]
        rw [ih (fun x hx => hd x (by simp [hx])) hds (Or.inr hhead) f (by omega)]

theorem decimal_decval {ds : List Char} (hd : ∀ c ∈ ds, isdigit c = true) (hne : ds ≠ [])
    (h0 : ds = ['0'] ∨ ds.head? ≠ some '0') : decimal (decval 0 ds) = ds :=
  decimal_loop_decval ds hd hne h0 _ (Nat.lt_succ_self _)

theorem to_string_empty {x : BigInt} (h : x.d = []) : to_string x = ['0'] := by
  unfold to_string
  rw [h]
  rfl

/-- The text of an object with blocks: the sign, the most significant block as it
is, the lower blocks filled to nine digits. -/
theorem to_string_blocks {x : BigInt} {lo : List Nat} {top : Nat} (hd : x.d = lo ++ [top]) :
    to_string x = (if x.neg then ['-'] else []) ++ (decimal top ++ blocks_text lo) := by
  have he : x.d ≠ [] := by rw [hd]; simp
  unfold to_string
  rw [if_neg (by simp [isEmpty_eq_false_of_ne_nil he])]
  dsimp only
  rw [to_string_loop_spec x.d _ _ (by omega), hd]
  simp

theorem decval_blocks_text (X : List Char) : ∀ (lo : List Nat), Blocks lo →
    decval 0 (X ++ blocks_text lo) = decval 0 X * BASE ^ lo.length + val lo := by
  intro lo
  induction lo with
  | nil => intro _; simp [blocks_text, val_nil]
  | cons b lo ih =>
    intro hB
    rw [Blocks_cons] at hB
    have hfl := length_decimal_fill hB.1
    simp only [blocks_text]
    rw [← List.append_assoc, decval_append_zero, ih hB.2, hfl, decval_decimal_fill, val_cons]
    simp only [List.length_cons, pow_succ, BASE_DIGS, BASE]
    ring

theorem decval_body {lo : List Nat} {top : Nat} (hB : Blocks lo) :
    decval 0 (decimal top ++ blocks_text lo) = val (lo ++ [top]) := by
  rw [decval_blocks_text _ lo hB, decval_decimal, val_append, val_cons, val_nil]
  ring

theorem isdigit_body (lo : List Nat) (top : Nat) :
    ∀ c ∈ decimal top ++ blocks_text lo, isdigit c = true := by
  intro c hc
  rcases List.mem_append.1 hc with h | h
  · exact isdigit_decimal top c h
  · exact isdigit_blocks_text lo c h

theorem head_body (lo : List Nat) {top : Nat} (h : 0 < top) :
    (decimal top ++ blocks_text lo).head? ≠ some '0' := by
  obtain ⟨c0, rest, hc0, hc0n, _⟩ := head_decimal h
  rw [hc0]
  intro e
  have : c0 = '0' := by simpa using e
  rw [this] at hc0n
  exact hc0n rfl

theorem body_ne_nil (lo : List Nat) (top : Nat) : decimal top ++ blocks_text lo ≠ [] := by
  intro e
  have := length_decimal_pos top
  have h := congrArg List.length e
  rw [List.length_append] at h
  simp only [List.length_nil] at h
  omega

theorem int_text_zero : int_text 0 = ['0'] := by decide

theorem int_text_of_pos_val (neg : Bool) {n : Nat} (hn : 0 < n) :
    int_text (if neg then -((n : Nat) : Int) else ((n : Nat) : Int))
      = (if neg then ['-'] else []) ++ decimal n := by
  unfold int_text
  rw [decimal_eq_toDigits]
  cases neg
  · simp only [Bool.false_eq_true, if_false, Int.natAbs_ofNat]
    rw [if_neg (by omega)]
  · simp only [if_true, Int.natAbs_neg, Int.natAbs_ofNat]
    rw [if_pos (by omega)]

/-- The text `to_string` writes for a canonical object is the decimal text of its
value. -/
theorem to_string_eq_int_text {x : BigInt} (hx : Canonical x) :
    to_string x = int_text (value x) := by
  by_cases he : x.d = []
  · rw [to_string_empty he, value_eq, he, val_nil]
    simp [int_text_zero]
  · obtain ⟨lo, top, hd⟩ : ∃ lo top, x.d = lo ++ [top] := by
      rcases List.eq_nil_or_concat x.d with h | ⟨lo, top, h⟩
      · exact absurd h he
      · exact ⟨lo, top, by rw [h, List.concat_eq_append]⟩
    have hBl : Blocks (lo ++ [top]) := by rw [← hd]; exact hx.1.1
    rw [Blocks_append] at hBl
    have htop0 : top ≠ 0 := by
      have := hx.1.2
      rw [hd] at this
      exact Trimmed_concat.1 this
    have hpos : 0 < val x.d := by
      rcases Nat.eq_zero_or_pos (val x.d) with h | h
      · exact absurd ((val_eq_zero_iff hx.1.2).1 h) he
      · exact h
    rw [to_string_blocks hd, value_eq, int_text_of_pos_val x.neg hpos, hd,
      ← decval_body hBl.1,
      decimal_decval (isdigit_body lo top) (body_ne_nil lo top)
        (Or.inr (head_body lo (Nat.pos_of_ne_zero htop0)))]

/-- The decimal text of an integer: the sign of a negative one, then a non-empty
run of digits without a leading zero that denotes the magnitude. -/
theorem int_text_shape (v : Int) :
    ∃ body, int_text v = (if v < 0 then ['-'] else []) ++ body ∧
      (∀ c ∈ body, isdigit c = true) ∧ decval 0 body = v.natAbs ∧
      (body = ['0'] ∨ body.head? ≠ some '0') ∧ body ≠ [] := by
  refine ⟨decimal v.natAbs, ?_, isdigit_decimal _, decval_decimal _, ?_, ?_⟩
  · unfold int_text
    rw [decimal_eq_toDigits]
  · rcases Nat.eq_zero_or_pos v.natAbs with h | h
    · left; rw [h]; rfl
    · right
      have := head_body [] h
      simpa [blocks_text] using this
  · intro e
    have := length_decimal_pos v.natAbs
    rw [e] at this
    exact absurd this (by decide)

theorem int_text_ne_minus_zero (v : Int) : int_text v ≠ ['-', '0'] := by
  obtain ⟨body, hb, hdig, hval, hhead, hne⟩ := int_text_shape v
  rw [hb]
  by_cases hv : v < 0
  · rw [if_pos hv]
    intro e
    have hbody : body = ['0'] := by simpa using e
    rw [hbody] at hval
    have : v.natAbs = 0 := by rw [← hval]; rfl
    omega
  · rw [if_neg hv, List.nil_append]
    intro e
    have := hdig '-' (by rw [e]; simp)
    revert this
    decide

theorem value_neg_iff {x : BigInt} (hx : Canonical x) : value x < 0 ↔ x.neg = true := by
  constructor
  · exact neg_of_value_neg
  · intro hn
    have := val_pos_of_neg hx hn
    rw [value_eq, hn]
    simp only [if_true]
    omega

theorem natAbs_value (x : BigInt) : (value x).natAbs = val x.d := by
  rw [value_eq]
  cases x.neg <;> simp

/-- The sign flag of a canonical object with a given value. -/
theorem neg_iff_of_value {r : BigInt} (hr : Canonical r) (sg : Bool) (n : Nat)
    (hv : value r = if sg then -((n : Nat) : Int) else ((n : Nat) : Int)) :
    r.neg = true ↔ sg = true ∧ n ≠ 0 := by
  rw [← value_neg_iff hr, hv]
  cases sg
  · simp only [Bool.false_eq_true, if_false, false_and, iff_false]
    omega
  · simp only [if_true, true_and]
    omega

/-- The text of `BigInt(v)` is the decimal text of `v`, and reading that text gives
`BigInt(v)` back. -/
theorem ofLongLong_text {v : Int} (hv : InLongLong v) :
    ∃ x, BigInt.ofLongLong v = .ok x ∧ Canonical x ∧ value x = v ∧
      to_string x = int_text v ∧ BigInt.ofString (int_text v) = x := by
  obtain ⟨x, hx, hc, hval⟩ := ofLongLong_spec hv
  refine ⟨x, hx, hc, hval, ?_, ?_⟩
  · rw [to_string_eq_int_text hc, hval]
  · rw [← hval, ← to_string_eq_int_text hc]
    exact from_string_to_string hc

/-- A way to show that no digit stands after whitespace, an optional sign and
whitespace: no digit among the leading whitespace and sign characters, nor right
after them. -/
theorem no_digit_after_scan (s : List Char)
    (h1 : ∀ x ∈ s.takeWhile (fun x => isspace x || (x == '+' || x == '-')), isdigit x = false)
    (h2 : ∀ x ∈ (s.dropWhile (fun x => isspace x || (x == '+' || x == '-'))).head?,
      isdigit x = false) :
    ∀ (W1 sgn W2 : List Char) (c : Char) (rest : List Char),
      s = W1 ++ sgn ++ W2 ++ c :: rest → (∀ x ∈ W1, isspace x = true) →
      (sgn = [] ∨ sgn = ['+'] ∨ sgn = ['-']) → (∀ x ∈ W2, isspace x = true) →
      isdigit c = false := by
  intro W1 sgn W2 c rest he hW1 hs hW2
  have hP : ∀ x ∈ W1 ++ sgn ++ W2,
      (fun x => isspace x || (x == '+' || x == '-')) x = true := by
    intro x hx
    simp only [List.mem_append] at hx
    rcases hx with (hx | hx) | hx
    · simp [hW1 x hx]
    · rcases hs with h | h | h <;> rw [h] at hx <;> simp at hx <;> simp [hx]
    · simp [hW2 x hx]
  rw [he, takeWhile_append_of_all _ _ hP] at h1
  rw [he, dropWhile_append_of_all _ _ hP] at h2
  generalize (fun x => isspace x || (x == '+' || x == '-')) = P at h1 h2
  by_cases hc : P c = true
  · apply h1
    rw [List.takeWhile_cons_of_pos hc]
    simp
  · apply h2
    rw [List.dropWhile_cons_of_neg hc]
    rfl

/-! ### The canonical form as an invariant -/

/-- The result of `operator+=` on canonical operands, the right one another object
than the receiver, is canonical in every branch. -/
theorem Canonical_op_add_assign {a b : BigInt} (ha : Canonical a) (hb : Canonical b) :
    Canonical (op_add_assign a b) := by
  by_cases hok : a.neg = true ∧ b.neg = false ∧ val b.d < val a.d
  · obtain ⟨han, hbn, hlt⟩ := hok
    unfold op_add_assign
    dsimp only
    rw [if_neg (by rw [han, hbn]; simp)]
    have hc : cmp_abs a b ≥ 0 := (cmp_abs_nonneg_iff ha.1 hb.1).2 (le_of_lt hlt)
    rw [if_pos hc]
    obtain ⟨hcm, -, hn⟩ := sub_abs_spec ha.1.1 hb.1 (le_of_lt hlt)
    refine ⟨hcm, ?_⟩
    intro _
    simp [hn]
  · exact (op_add_assign_spec ha hb hok).1

/-- The call `x += x` on blocks in range returns the canonical object of value
`2 * |x|`, with the sign flag not set, whatever the sign of `x`. -/
theorem op_add_assign_self_spec {x : BigInt} (hx : Blocks x.d) :
    Canonical (op_add_assign_self x) ∧ (op_add_assign_self x).neg = false ∧
      (op_add_assign_self x).d = (add_abs x x).d ∧
      val (op_add_assign_self x).d = 2 * val x.d := by
  obtain ⟨hc, hv, hn⟩ := add_abs_spec (a := x) (b := x) hx hx
  unfold op_add_assign_self
  rw [if_pos rfl]
  dsimp only
  rw [hn]
  exact ⟨⟨hc, fun _ => rfl⟩, rfl, rfl, by omega⟩

/-- The operator `/=` either reports a zero divisor or returns a canonical object. -/
theorem op_div_assign_total {a b : BigInt} (ha : Canonical a) (hb : Canonical b) :
    (b.d = [] ∧ op_div_assign a b = .error .domain_error) ∨
      (b.d ≠ [] ∧ ∃ q, op_div_assign a b = .ok q ∧ Canonical q) := by
  by_cases hne : b.d = []
  · exact Or.inl ⟨hne, (op_div_assign_error_iff a b).1.2 hne⟩
  · obtain ⟨q, hq, hc, -⟩ := op_div_assign_spec ha hb hne
    exact Or.inr ⟨hne, q, hq, hc⟩

/-! ### Equality and order -/

/-- The function `operator==` holds iff the block sequences are the same and the
sign flags agree or there is no block. -/
theorem op_eq_structure (a b : BigInt) :
    op_eq a b = true ↔ a.d = b.d ∧ (a.neg = b.neg ∨ a.d = []) := by
  unfold op_eq
  by_cases hn : a.neg ≠ b.neg
  · rw [if_pos hn]
    by_cases he : a.d.isEmpty = true ∧ b.d.isEmpty = true
    · simp only [Bool.and_eq_true]
      rw [if_pos he]
      obtain ⟨h1, h2⟩ := he
      rw [List.isEmpty_iff] at h1 h2
      simp [h1, h2]
    · simp only [Bool.and_eq_true]
      rw [if_neg he]
      simp only [Bool.false_eq_true, false_iff, not_and, not_or]
      intro hd
      refine ⟨hn, ?_⟩
      intro h1
      apply he
      rw [← hd, h1]
      exact ⟨rfl, rfl⟩
  · rw [if_neg hn]
    have hn2 : a.neg = b.neg := by simpa using hn
    by_cases hl : a.d.length ≠ b.d.length
    · rw [if_pos hl]
      simp only [Bool.false_eq_true, false_iff, not_and]
      intro hd
      exact absurd (by rw [hd]) hl
    · rw [if_neg hl]
      have hl2 : a.d.length = b.d.length := by simpa using hl
      rw [op_eq_loop_true_iff]
      constructor
      · intro h
        exact ⟨ext_getD a.d b.d hl2 (fun j hj => h j (Nat.zero_le _) (by omega)), Or.inl hn2⟩
      · intro e j _ _
        rw [e.1]

theorem value_eq_iff_structure {a b : BigInt} (ha : CanonMag a.d) (hb : CanonMag b.d) :
    value a = value b ↔ a.d = b.d ∧ (a.neg = b.neg ∨ a.d = []) := by
  constructor
  · intro h
    have hv : val a.d = val b.d := by
      rw [← natAbs_value a, ← natAbs_value b, h]
    have hd : a.d = b.d := CanonMag_ext ha hb hv
    refine ⟨hd, ?_⟩
    by_cases hn : a.neg = b.neg
    · exact Or.inl hn
    · right
      apply (val_eq_zero_iff ha.2).1
      rw [value_eq, value_eq, ← hv] at h
      revert h hn
      cases a.neg <;> cases b.neg <;> simp <;> omega
  · rintro ⟨hd, hn | he⟩
    · rw [value_eq, value_eq, hd, hn]
    · have hbe : b.d = [] := by rw [← hd]; exact he
      rw [value_eq, value_eq, he, hbe, val_nil]
      simp

/-- On objects with trimmed blocks in range, `operator==` is the equality of the
values. -/
theorem op_eq_value_iff {a b : BigInt} (ha : CanonMag a.d) (hb : CanonMag b.d) :
    op_eq a b = true ↔ value a = value b := by
  rw [op_eq_structure, value_eq_iff_structure ha hb]

theorem op_lt_of_sign_ne {a b : BigInt} (h : a.neg ≠ b.neg) : op_lt a b = a.neg := by
  unfold op_lt
  rw [if_pos h]
  cases a.neg <;> rfl

theorem op_lt_nonneg {a b : BigInt} (ha : CanonMag a.d) (hb : CanonMag b.d)
    (han : a.neg = false) (hbn : b.neg = false) :
    op_lt a b = true ↔ val a.d < val b.d := by
  unfold op_lt
  dsimp only
  rw [if_neg (by rw [han, hbn]; simp), han]
  simp only [Bool.not_false, if_true]
  rw [← cmp_abs_neg_iff ha hb]
  by_cases hc : cmp_abs a b < 0
  · rw [if_pos hc]; simp [hc]
  · rw [if_neg hc]; simp [hc]

theorem op_lt_neg {a b : BigInt} (ha : CanonMag a.d) (hb : CanonMag b.d)
    (han : a.neg = true) (hbn : b.neg = true) :
    op_lt a b = true ↔ val b.d < val a.d := by
  unfold op_lt
  dsimp only
  rw [if_neg (by rw [han, hbn]; simp), han]
  simp only [Bool.not_true, Bool.false_eq_true, if_false]
  rw [← cmp_abs_pos_iff ha hb]
  by_cases hc : cmp_abs a b > 0
  · rw [if_pos hc]; simp [hc]
  · rw [if_neg hc]; simp [hc]

theorem op_gt_spec {a b : BigInt} (ha : Canonical a) (hb : Canonical b) :
    op_gt a b = true ↔ value a > value b := by
  unfold op_gt
  exact op_lt_spec hb ha

theorem op_le_spec {a b : BigInt} (ha : Canonical a) (hb : Canonical b) :
    op_le a b = true ↔ value a ≤ value b := by
  unfold op_le
  rw [Bool.not_eq_true', ← Bool.not_eq_true, op_lt_spec hb ha]
  omega

theorem op_ge_spec {a b : BigInt} (ha : Canonical a) (hb : Canonical b) :
    op_ge a b = true ↔ value a ≥ value b := by
  unfold op_ge
  rw [Bool.not_eq_true', ← Bool.not_eq_true, op_lt_spec ha hb]
  omega

theorem op_ne_value_iff {a b : BigInt} (ha : CanonMag a.d) (hb : CanonMag b.d) :
    op_ne a b = true ↔ value a ≠ value b := by
  unfold op_ne
  rw [Bool.not_eq_true', ← Bool.not_eq_true, op_eq_value_iff ha hb]

/-! ### `Deque::at` -/

theorem Deque.node_heap {α : Type} (dq : Deque α) {i : Nat} {nd : ListNode α}
    (h : dq.heap.get? i = some nd) : Deque.node dq (NodePtr.heap i) = .ok nd := by
  simp only [Deque.node, h]

theorem Deque.at_forward_zero {α : Type} (dq : Deque α) (p : NodePtr) :
    Deque.at_forward dq 0 p = .ok p := rfl

theorem Deque.at_forward_succ {α : Type} (dq : Deque α) (k : Nat) {p : NodePtr}
    {nd : ListNode α} (h : Deque.node dq p = .ok nd) :
    Deque.at_forward dq (k + 1) p = Deque.at_forward dq k nd.next := by
  simp only [Deque.at_forward, h]

theorem Deque.at_backward_zero {α : Type} (dq : Deque α) (p : NodePtr) :
    Deque.at_backward dq 0 p = .ok p := rfl

theorem Deque.at_backward_succ {α : Type} (dq : Deque α) (k : Nat) {p : NodePtr}
    {nd : ListNode α} (h : Deque.node dq p = .ok nd) :
    Deque.at_backward dq (k + 1) p = Deque.at_backward dq k nd.prev := by
  simp only [Deque.at_backward, h]

theorem Deque.deref_ok {α : Type} (dq : Deque α) {p : NodePtr} {nd : ListNode α}
    (h : Deque.node dq p = .ok nd) : Deque.deref dq (.ok p) = .ok nd.value := by
  simp only [Deque.deref, h]

/-- Walking forward `k` steps from the first node of a segment reaches the node
that holds the element of index `k`. -/
theorem Deque.Segment_forward {α : Type} (dq : Deque α) : ∀ (es : List α)
    (before p after last : NodePtr) (k : Nat) (e : α),
    Deque.Segment dq before p es after last → es.get? k = some e →
    Deque.deref dq (Deque.at_forward dq k p) = .ok e := by
  intro es
  induction es with
  | nil => intro _ _ _ _ k e _ h; simp at h
  | cons e0 es ih =>
    intro before p after last k e hseg hk
    obtain ⟨i, nd, hp, hget, hval, -, hrest⟩ := hseg
    have hnode := Deque.node_heap dq hget
    rw [hp]
    cases k with
    | zero =>
      rw [Deque.at_forward_zero, Deque.deref_ok dq hnode, hval]
      simp only [List.get?_cons_zero, Option.some.injEq] at hk
      rw [hk]
    | succ k =>
      rw [Deque.at_forward_succ dq k hnode]
      simp only [List.get?_cons_succ] at hk
      exact ih _ _ _ _ k e hrest hk

/-- A segment that ends with the element `e`: its last node holds `e`, points
forward to `after`, and the nodes before it form a segment. -/
theorem Deque.Segment_snoc {α : Type} (dq : Deque α) : ∀ (es : List α) (e : α)
    (before p after last : NodePtr),
    Deque.Segment dq before p (es ++ [e]) after last →
    ∃ i nd, last = NodePtr.heap i ∧ dq.heap.get? i = some nd ∧ nd.value = e ∧
      nd.next = after ∧ Deque.Segment dq before p es (NodePtr.heap i) nd.prev := by
  intro es
  induction es with
  | nil =>
    intro e before p after last hseg
    obtain ⟨i, nd, hp, hget, hval, hprev, hnext, hlast⟩ := hseg
    exact ⟨i, nd, hlast, hget, hval, hnext, hp, hprev⟩
  | cons e0 es ih =>
    intro e before p after last hseg
    obtain ⟨i0, nd0, hp, hget, hval, hprev, hrest⟩ := hseg
    obtain ⟨i, nd, h1, h2, h3, h4, h5⟩ := ih e _ _ _ _ hrest
    exact ⟨i, nd, h1, h2, h3, h4, i0, nd0, hp, hget, hval, hprev, h5⟩

/-- Walking backward `m` steps from the last node of a segment reaches the node
that holds the element of index `m` counted from the back. -/
theorem Deque.Segment_backward {α : Type} (dq : Deque α) : ∀ (es : List α)
    (before p after last : NodePtr) (m : Nat) (e : α),
    Deque.Segment dq before p es after last → es.reverse.get? m = some e →
    Deque.deref dq (Deque.at_backward dq m last) = .ok e := by
  intro es
  induction es using List.reverseRecOn with
  | nil => intro _ _ _ _ m e _ h; simp at h
  | append_singleton es e1 ih =>
    intro before p after last m e hseg hm
    obtain ⟨i, nd, hlast, hget, hval, -, hrest⟩ := Deque.Segment_snoc dq es e1 _ _ _ _ hseg
    have hnode := Deque.node_heap dq hget
    rw [hlast]
    rw [List.reverse_append, List.reverse_singleton, List.singleton_append] at hm
    cases m with
    | zero =>
      rw [Deque.at_backward_zero, Deque.deref_ok dq hnode, hval]
      simp only [List.get?_cons_zero, Option.some.injEq] at hm
      rw [hm]
    | succ m =>
      rw [Deque.at_backward_succ dq m hnode]
      simp only [List.get?_cons_succ] at hm
      exact ih _ _ _ _ m e hrest hm

/-- The method `Deque::at` on a deque that holds `es`: the element of index
`index`, or `std::out_of_range` from the size on. -/
theorem Deque.at_spec {α : Type} {dq : Deque α} {es : List α} (h : Deque.Holds dq es)
    (index : Nat) :
    (∀ e, es.get? index = some e → Deque.at dq index = .ok e) ∧
      (es.length ≤ index → Deque.at dq index = .error .out_of_range) := by
  obtain ⟨hsize, hseg⟩ := h
  constructor
  · intro e he
    have hlt : index < es.length := by
      by_contra hge
      rw [List.get?_eq_none.2 (by omega)] at he
      cases he
    unfold Deque.at
    dsimp only
    rw [hsize, if_neg (by omega)]
    by_cases hhalf : index ≤ es.length / 2
    · rw [if_pos hhalf]
      exact Deque.Segment_forward dq es _ _ _ _ index e hseg he
    · rw [if_neg hhalf]
      obtain ⟨m, hm⟩ : ∃ m, es.length - index = m + 1 := ⟨es.length - index - 1, by omega⟩
      rw [hm, Deque.at_backward_succ dq m (show Deque.node dq NodePtr.sentinel = .ok dq._sentinel
        from rfl)]
      apply Deque.Segment_backward dq es _ _ _ _ m e hseg
      rw [List.get?_eq_getElem?, List.getElem?_reverse (by omega), ← List.get?_eq_getElem?]
      have : es.length - 1 - m = index := by omega
      rw [this]
      exact he
  · intro hge
    unfold Deque.at
    dsimp only
    rw [hsize, if_pos hge]

/-! ### The binary search of `div_mod` -/

/-- The binary search of `div_mod` from `low = 0`, `high = BASE - 1`, `best = 0`
ends with the quotient of the magnitudes, whatever bound of at least `BASE`
iterations it is given. -/
theorem div_mod_search_floor {b r : List Nat} (hb : Blocks b) (hr : Blocks r)
    (hbpos : 0 < val b) (hfit : val r < val b * BASE) (fuel : Nat) (hf : BASE ≤ fuel) :
    div_mod_search b r fuel 0 (BASE - 1) 0 = val r / val b := by
  have hq : val r / val b < BASE := (Nat.div_lt_iff_lt_mul hbpos).2 (by rw [Nat.mul_comm]; exact hfit)
  apply div_mod_search_spec hb hr hbpos hfit fuel 0 (BASE - 1) 0
  · simp only [BASE] at hf ⊢; omega
  · decide
  · exact Nat.zero_le _
  · exact Nat.le_sub_one_of_lt hq
  · rfl

/-! ### The recursion of `mul_karatsuba_abs` -/

/-- The block lengths of the operands of the three recursive calls of
`mul_karatsuba_abs`, with `half = max n m / 2`. -/
theorem karatsuba_operand_lengths {a b : BigInt} (ha : CanonMag a.d) (hb : CanonMag b.d) :
    (split_at a (max a.d.length b.d.length / 2)).1.d.length ≤ max a.d.length b.d.length / 2 ∧
    (split_at b (max a.d.length b.d.length / 2)).1.d.length ≤ max a.d.length b.d.length / 2 ∧
    (split_at a (max a.d.length b.d.length / 2)).2.d.length
      ≤ max a.d.length b.d.length / 2 + 1 ∧
    (split_at b (max a.d.length b.d.length / 2)).2.d.length
      ≤ max a.d.length b.d.length / 2 + 1 ∧
    (add_abs (split_at a (max a.d.length b.d.length / 2)).1
        (split_at a (max a.d.length b.d.length / 2)).2).d.length
      ≤ max a.d.length b.d.length / 2 + 2 ∧
    (add_abs (split_at b (max a.d.length b.d.length / 2)).1
        (split_at b (max a.d.length b.d.length / 2)).2).d.length
      ≤ max a.d.length b.d.length / 2 + 2 := by
  generalize hk : max a.d.length b.d.length = k
  have hna : a.d.length ≤ k := by rw [← hk]; exact le_max_left _ _
  have hnb : b.d.length ≤ k := by rw [← hk]; exact le_max_right _ _
  obtain ⟨ax0, ax1, -, axl, -, axh, -, -⟩ := split_at_spec ha (k / 2)
  obtain ⟨bx0, bx1, -, bxl, -, bxh, -, -⟩ := split_at_spec hb (k / 2)
  have lsx := length_add_abs_le (split_at a (k / 2)).1 (split_at a (k / 2)).2 ax0.1 ax1.1
  have lsy := length_add_abs_le (split_at b (k / 2)).1 (split_at b (k / 2)).2 bx0.1 bx1.1
  refine ⟨axl, bxl, by omega, by omega, ?_, ?_⟩
  · have : max (split_at a (k / 2)).1.d.length (split_at a (k / 2)).2.d.length ≤ k / 2 + 1 :=
      max_le (by omega) (by omega)
    omega
  · have : max (split_at b (k / 2)).1.d.length (split_at b (k / 2)).2.d.length ≤ k / 2 + 1 :=
      max_le (by omega) (by omega)
    omega

/-- With both block lengths at least the threshold, `mul_karatsuba_abs` makes its
three recursive calls, each of them returns, and the result is put together from
what they return. -/
theorem mul_karatsuba_abs_fuel_unfold (fuel : Nat) {a b : BigInt} (ha : CanonMag a.d)
    (hb : CanonMag b.d) (hn : KARATSUBA_THRESHOLD ≤ a.d.length)
    (hm : KARATSUBA_THRESHOLD ≤ b.d.length) (hf : max a.d.length b.d.length ≤ fuel) :
    ∃ z0 z2 z1,
      mul_karatsuba_abs_fuel fuel (split_at a (max a.d.length b.d.length / 2)).1
        (split_at b (max a.d.length b.d.length / 2)).1 = .ok z0 ∧
      mul_karatsuba_abs_fuel fuel (split_at a (max a.d.length b.d.length / 2)).2
        (split_at b (max a.d.length b.d.length / 2)).2 = .ok z2 ∧
      mul_karatsuba_abs_fuel fuel
        (add_abs (split_at a (max a.d.length b.d.length / 2)).1
          (split_at a (max a.d.length b.d.length / 2)).2)
        (add_abs (split_at b (max a.d.length b.d.length / 2)).1
          (split_at b (max a.d.length b.d.length / 2)).2) = .ok z1 ∧
      mul_karatsuba_abs_fuel (fuel + 1) a b
        = .ok (BigInt.trim
            { d := (add_abs (shift_base_abs z2 (2 * (max a.d.length b.d.length / 2)))
                (add_abs (shift_base_abs (sub_abs (sub_abs z1 z0) z2)
                  (max a.d.length b.d.length / 2)) z0)).d,
              neg := false }) ∧
      (CanonMag z0.d ∧ val z0.d = val (split_at a (max a.d.length b.d.length / 2)).1.d
          * val (split_at b (max a.d.length b.d.length / 2)).1.d) ∧
      (CanonMag z2.d ∧ val z2.d = val (split_at a (max a.d.length b.d.length / 2)).2.d
          * val (split_at b (max a.d.length b.d.length / 2)).2.d) ∧
      (CanonMag z1.d ∧ val z1.d
          = (val (split_at a (max a.d.length b.d.length / 2)).1.d
              + val (split_at a (max a.d.length b.d.length / 2)).2.d)
            * (val (split_at b (max a.d.length b.d.length / 2)).1.d
              + val (split_at b (max a.d.length b.d.length / 2)).2.d)) := by
  simp only [KARATSUBA_THRESHOLD] at hn hm
  obtain ⟨l1, l2, l3, l4, l5, l6⟩ := karatsuba_operand_lengths ha hb
  have hkif : (if a.d.length > b.d.length then a.d.length else b.d.length)
      = max a.d.length b.d.length := by
    split <;> omega
  generalize hk : max a.d.length b.d.length = k at *
  have hk32 : 32 ≤ k := by
    have : a.d.length ≤ k := by rw [← hk]; exact le_max_left _ _
    omega
  obtain ⟨ax0, ax1, -⟩ := split_at_spec ha (k / 2)
  obtain ⟨bx0, bx1, -⟩ := split_at_spec hb (k / 2)
  obtain ⟨csx, vsx, -⟩ := add_abs_spec (a := (split_at a (k / 2)).1)
    (b := (split_at a (k / 2)).2) ax0.1 ax1.1
  obtain ⟨csy, vsy, -⟩ := add_abs_spec (a := (split_at b (k / 2)).1)
    (b := (split_at b (k / 2)).2) bx0.1 bx1.1
  obtain ⟨z0, e0, c0, v0, -⟩ := mul_karatsuba_abs_fuel_spec fuel _ _ ax0 bx0
    (by rw [max_lt_iff]; omega)
  obtain ⟨z2, e2, c2, v2, -⟩ := mul_karatsuba_abs_fuel_spec fuel _ _ ax1 bx1
    (by rw [max_lt_iff]; omega)
  obtain ⟨z1, e1, c1, v1, -⟩ := mul_karatsuba_abs_fuel_spec fuel _ _ csx csy
    (by rw [max_lt_iff]; omega)
  refine ⟨z0, z2, z1, e0, e2, e1, ?_, ⟨c0, v0⟩, ⟨c2, v2⟩, ⟨c1, ?_⟩⟩
  · simp only [mul_karatsuba_abs_fuel]
    rw [if_neg (by omega), if_neg (by simp only [KARATSUBA_THRESHOLD]; omega), hkif]
    rw [e0]
    simp only
    rw [e2]
    simp only
    rw [e1]
  · rw [v1, vsx, vsy]

/-- The two subtractions of `mul_karatsuba_abs` are on operands in the right order. -/
theorem karatsuba_sub_order {x0 x1 y0 y1 : Nat} :
    x0 * y0 ≤ (x0 + x1) * (y0 + y1) ∧ x1 * y1 ≤ (x0 + x1) * (y0 + y1) - x0 * y0 := by
  have e : (x0 + x1) * (y0 + y1) = x0 * y0 + (x0 * y1 + x1 * y0 + x1 * y1) := by ring
  rw [e]
  constructor
  · omega
  · omega

/-- The borrow that leaves the loop of `sub_abs` is zero when `|b| ≤ |a|`. -/
theorem sub_abs_borrow_zero {a b : BigInt} (ha : Blocks a.d) (hb : CanonMag b.d)
    (hle : val b.d ≤ val a.d) :
    (sub_abs_loop a.d b.d a.d.length 0 0 (List.replicate a.d.length 0)).2 = 0 := by
  have hlen : b.d.length ≤ a.d.length := length_le_of_val_le hb.2 ha hle
  have := sub_abs_loop_spec ha hb.1 a.d.length 0 0 (List.replicate a.d.length 0) (by simp)
    (Or.inl rfl) (by simpa using Blocks_nil) (by simp [val])
  obtain ⟨hl, hB, hc, hv⟩ := this
  simp only [Nat.zero_add, List.length_replicate] at hl hv
  rw [val_take_of_le a.d (le_refl _), val_take_of_le b.d hlen] at hv
  rcases hc with hc | hc
  · exact hc
  · exfalso
    rw [hc] at hv
    simp only [mul_one] at hv
    have hlt := val_lt_pow hB
    rw [hl] at hlt
    generalize (sub_abs_loop a.d b.d a.d.length 0 0 (List.replicate a.d.length 0)).1 = out at *
    have hv2 : val out + val b.d = val a.d + BASE ^ a.d.length := by exact_mod_cast hv
    omega

/-! ### The iterations of `mul_abs` -/

theorem mul_abs_inner_trace_spec {xi : Nat} {b : List Nat} (hxi : xi < BASE) (hb : Blocks b)
    (i : Nat) :
    ∀ (k j carry : Nat) (r : List Nat), i + j + k ≤ r.length → carry < BASE → Blocks r →
      ∀ e ∈ mul_abs_inner_trace xi b i k j carry r,
        e.1 < r.length ∧ e.2.1 < U64 ∧ e.2.2 < BASE := by
  intro k
  induction k with
  | zero =>
    intro j carry r _ _ _ e he
    simp [mul_abs_inner_trace] at he
  | succ k ih =>
    intro j carry r hlen hc hB e he
    simp only [mul_abs_inner_trace] at he
    have hr := getD_lt_of_Blocks hB (i + j)
    have hbj := getD_lt_of_Blocks hb j
    have hprod := mul_lt_BASE_sq hxi hbj
    have hp64 : (xi * b.getD j 0) % U64 = xi * b.getD j 0 :=
      Nat.mod_eq_of_lt (by simp only [BASE, U64] at *; omega)
    rw [hp64] at he
    have hcur : r.getD (i + j) 0 + xi * b.getD j 0 + carry < BASE * BASE := by
      simp only [BASE] at *; omega
    have hlt64 : r.getD (i + j) 0 + xi * b.getD j 0 + carry < U64 := by
      simp only [BASE, U64] at *; omega
    have hc64 : (r.getD (i + j) 0 + xi * b.getD j 0 + carry) % U64
        = r.getD (i + j) 0 + xi * b.getD j 0 + carry := Nat.mod_eq_of_lt hlt64
    rw [hc64, mod_BASE_mod_U32] at he
    generalize hcurdef : r.getD (i + j) 0 + xi * b.getD j 0 + carry = cur at *
    have hc' : cur / BASE < BASE := Nat.div_lt_of_lt_mul hcur
    have hB' : Blocks (r.set (i + j) (cur % BASE)) := Blocks_set hB _ (Nat.mod_lt _ BASE_pos)
    have hlen' : i + (j + 1) + k ≤ (r.set (i + j) (cur % BASE)).length := by simp; omega
    rcases List.mem_cons.1 he with h | h
    · rw [h]
      exact ⟨by simp only; omega, hlt64, hc'⟩
    · have := ih (j + 1) (cur / BASE) (r.set (i + j) (cur % BASE)) hlen' hc' hB' e h
      simpa using this

theorem mul_abs_carry_trace_spec :
    ∀ (k pos carry : Nat) (r : List Nat), pos + k = r.length → Blocks r → carry < BASE →
      val r + BASE ^ pos * carry < BASE ^ r.length →
      ∀ e ∈ mul_abs_carry_trace k pos carry r,
        e.1 < r.length ∧ e.2.1 < U64 ∧ e.2.2 < BASE := by
  intro k
  induction k with
  | zero =>
    intro pos carry r hlen hB _ hfit e he
    have hpos : pos = r.length := by omega
    have hc : carry = 0 := by
      by_contra hne
      have : BASE ^ pos * 1 ≤ BASE ^ pos * carry := Nat.mul_le_mul_left _ (Nat.pos_of_ne_zero hne)
      rw [hpos] at this
      rw [hpos] at hfit
      omega
    subst hc
    simp [mul_abs_carry_trace] at he
  | succ k ih =>
    intro pos carry r hlen hB hcb hfit e he
    by_cases hc : carry > 0
    · have hpos : pos < r.length := by omega
      simp only [mul_abs_carry_trace, hc, hpos, if_true] at he
      have hr := getD_lt_of_Blocks hB pos
      have hlt64 : r.getD pos 0 + carry < U64 := by simp only [BASE, U64] at *; omega
      have hc64 : (r.getD pos 0 + carry) % U64 = r.getD pos 0 + carry :=
        Nat.mod_eq_of_lt hlt64
      rw [hc64, mod_BASE_mod_U32] at he
      generalize hcurdef : r.getD pos 0 + carry = cur at *
      have hc' : cur / BASE < BASE := by
        have : cur / BASE < 2 := Nat.div_lt_of_lt_mul (by omega)
        simp only [BASE] at *; omega
      have hB' : Blocks (r.set pos (cur % BASE)) := Blocks_set hB _ (Nat.mod_lt _ BASE_pos)
      have hset := val_set r pos (cur % BASE) hpos
      have hdm : cur % BASE + BASE * (cur / BASE) = cur := Nat.mod_add_div cur BASE
      have hv : val (r.set pos (cur % BASE)) + BASE ^ (pos + 1) * (cur / BASE)
          = val r + BASE ^ pos * carry := by
        zify at hset hdm hcurdef ⊢
        linear_combination hset + ((BASE : Int) ^ pos) * hdm - ((BASE : Int) ^ pos) * hcurdef
      rcases List.mem_cons.1 he with h | h
      · rw [h]
        exact ⟨hpos, hlt64, hc'⟩
      · have := ih (pos + 1) (cur / BASE) (r.set pos (cur % BASE))
          (by simp; omega) hB' hc' (by simp only [List.length_set]; omega) e h
        simpa using this
    · have hz : carry = 0 := by omega
      subst hz
      simp [mul_abs_carry_trace] at he

theorem length_mul_abs_inner_trace (xi : Nat) (b : List Nat) (i : Nat) :
    ∀ (k j carry : Nat) (r : List Nat), (mul_abs_inner_trace xi b i k j carry r).length = k := by
  intro k
  induction k with
  | zero => intro j carry r; rfl
  | succ k ih =>
    intro j carry r
    simp only [mul_abs_inner_trace, List.length_cons, ih]

theorem mul_abs_outer_trace_spec {a b : List Nat} (ha : Blocks a) (hb : Blocks b) :
    ∀ (k i : Nat) (r : List Nat), i + k = a.length → r.length = a.length + b.length →
      Blocks r → val r = val (a.take i) * val b →
      (∀ e ∈ mul_abs_outer_trace a b k i r,
        e.1 < a.length + b.length ∧ e.2.1 < U64 ∧ e.2.2 < BASE) ∧
      k * b.length ≤ (mul_abs_outer_trace a b k i r).length := by
  intro k
  induction k with
  | zero =>
    intro i r _ _ _ _
    simp [mul_abs_outer_trace]
  | succ k ih =>
    intro i r hik hlen hB hv
    simp only [mul_abs_outer_trace]
    have hxi := getD_lt_of_Blocks ha i
    have hin := mul_abs_inner_trace_spec hxi hb i b.length 0 0 r (by omega) BASE_pos hB
    have hinl := length_mul_abs_inner_trace (a.getD i 0) b i b.length 0 0 r
    obtain ⟨h1, h2, h3, h4⟩ := mul_abs_inner_spec hxi hb i b.length 0 0 r (by omega)
      BASE_pos hB
    generalize mul_abs_inner (a.getD i 0) b i b.length 0 0 r = row at *
    simp only [Nat.add_zero, Nat.zero_add, List.take_zero, val_nil, Nat.mul_zero,
      val_take_of_le b (le_refl _)] at h4
    have htk := val_take_succ a i
    have hrow : val row.1 + BASE ^ (i + b.length) * row.2 = val (a.take (i + 1)) * val b := by
      rw [htk]
      zify at h4 hv ⊢
      linear_combination h4 + hv
    have hfit : val row.1 + BASE ^ (i + b.length) * row.2 < BASE ^ row.1.length := by
      rw [hrow, h1, hlen]
      have ha1 := val_take_lt ha (i + 1)
      have hb1 := val_lt_pow hb
      have hle : BASE ^ (i + 1) * BASE ^ b.length ≤ BASE ^ (a.length + b.length) := by
        rw [← pow_add]
        exact Nat.pow_le_pow_right BASE_pos (by omega)
      have : val (a.take (i + 1)) * val b < BASE ^ (i + 1) * BASE ^ b.length :=
        Nat.mul_lt_mul'' ha1 hb1
      omega
    have hct := mul_abs_carry_trace_spec (row.1.length - (i + b.length))
      (i + b.length) row.2 row.1 (by omega) h2 h3 hfit
    obtain ⟨r2, g1, g2, g3, g4⟩ := mul_abs_carry_spec (row.1.length - (i + b.length))
      (i + b.length) row.2 row.1 (by omega) h2 h3 hfit
    rw [g1]
    simp only
    obtain ⟨ih1, ih2⟩ := ih (i + 1) r2 (by omega) (by omega) g3 (by rw [g4, hrow])
    constructor
    · intro e he
      rcases List.mem_append.1 he with h | h
      · rcases List.mem_append.1 h with h | h
        · have := hin e h
          rw [hlen] at this
          exact this
        · have := hct e h
          rw [h1, hlen] at this
          exact this
      · exact ih1 e h
    · rw [List.length_append, List.length_append, hinl, Nat.succ_mul]
      omega

/-- In `mul_abs` on blocks in range, every iteration reads and writes an index
inside the buffer, its sum fits 64 bits, and it leaves a carry below `BASE`. -/
theorem mul_abs_trace_spec {a b : BigInt} (ha : Blocks a.d) (hb : Blocks b.d) :
    ∀ e ∈ mul_abs_trace a b,
      e.1 < a.d.length + b.d.length ∧ e.2.1 < U64 ∧ e.2.2 < BASE := by
  intro e he
  unfold mul_abs_trace at he
  by_cases hemp : (a.d.isEmpty || b.d.isEmpty) = true
  · rw [if_pos hemp] at he
    simp at he
  · rw [if_neg hemp] at he
    exact (mul_abs_outer_trace_spec ha hb a.d.length 0
      (List.replicate (a.d.length + b.d.length) 0) (by omega) (by simp)
      (Blocks_replicate_zero _) (by simp [val_replicate_zero, val])).1 e he

/-- The inner loop of `mul_abs` runs once for every pair of blocks. -/
theorem le_length_mul_abs_trace {a b : BigInt} (ha : Blocks a.d) (hb : Blocks b.d) :
    a.d.length * b.d.length ≤ (mul_abs_trace a b).length := by
  unfold mul_abs_trace
  by_cases hemp : (a.d.isEmpty || b.d.isEmpty) = true
  · rw [if_pos hemp]
    simp only [Bool.or_eq_true, List.isEmpty_iff] at hemp
    rcases hemp with h | h <;> simp [h]
  · rw [if_neg hemp]
    exact (mul_abs_outer_trace_spec ha hb a.d.length 0
      (List.replicate (a.d.length + b.d.length) 0) (by omega) (by simp)
      (Blocks_replicate_zero _) (by simp [val_replicate_zero, val])).2

/-! ### One block step of `div_mod` -/

/-- A block step of `div_mod` from a remainder below the divisor: the remainder
with the next block put in front is below `b * BASE`, the search finds the
quotient digit, the subtraction of `b * best` succeeds, and the new remainder is
again below the divisor. -/
theorem div_mod_step_spec {b r : List Nat} {ai : Nat} (hai : ai < BASE) (hb : CanonMag b)
    (hbpos : 0 < val b) (hr : CanonMag r) (hlt : val r < val b) :
    val (trim_vec ((0 :: r).set 0 ai)) = val r * BASE + ai ∧
    val (trim_vec ((0 :: r).set 0 ai)) < val b * BASE ∧
    div_mod_search b (trim_vec ((0 :: r).set 0 ai)) BASE 0 (BASE - 1) 0
      = val (trim_vec ((0 :: r).set 0 ai)) / val b ∧
    div_mod_search b (trim_vec ((0 :: r).set 0 ai)) BASE 0 (BASE - 1) 0 < BASE ∧
    (sub_inplace (trim_vec ((0 :: r).set 0 ai))
      (div_mod_prod b (div_mod_search b (trim_vec ((0 :: r).set 0 ai)) BASE 0 (BASE - 1) 0))).1
      = true ∧
    CanonMag (if div_mod_search b (trim_vec ((0 :: r).set 0 ai)) BASE 0 (BASE - 1) 0 > 0
      then (sub_inplace (trim_vec ((0 :: r).set 0 ai))
        (div_mod_prod b (div_mod_search b (trim_vec ((0 :: r).set 0 ai)) BASE 0 (BASE - 1) 0))).2
      else trim_vec ((0 :: r).set 0 ai)) ∧
    val (if div_mod_search b (trim_vec ((0 :: r).set 0 ai)) BASE 0 (BASE - 1) 0 > 0
      then (sub_inplace (trim_vec ((0 :: r).set 0 ai))
        (div_mod_prod b (div_mod_search b (trim_vec ((0 :: r).set 0 ai)) BASE 0 (BASE - 1) 0))).2
      else trim_vec ((0 :: r).set 0 ai))
      = val (trim_vec ((0 :: r).set 0 ai)) % val b ∧
    val (if div_mod_search b (trim_vec ((0 :: r).set 0 ai)) BASE 0 (BASE - 1) 0 > 0
      then (sub_inplace (trim_vec ((0 :: r).set 0 ai))
        (div_mod_prod b (div_mod_search b (trim_vec ((0 :: r).set 0 ai)) BASE 0 (BASE - 1) 0))).2
      else trim_vec ((0 :: r).set 0 ai)) < val b := by
  have hcons : (0 :: r).set 0 ai = ai :: r := rfl
  rw [hcons]
  have hB1 : Blocks (ai :: r) := Blocks_cons.2 ⟨hai, hr.1⟩
  have hc1 : CanonMag (trim_vec (ai :: r)) := CanonMag_trim_vec hB1
  have hv1 : val (trim_vec (ai :: r)) = ai + BASE * val r := by
    rw [val_trim_vec, val_cons]
  generalize trim_vec (ai :: r) = r1 at *
  have hfit : val r1 < val b * BASE := by
    rw [hv1]
    have : BASE * (val r + 1) ≤ BASE * val b := Nat.mul_le_mul_left _ hlt
    rw [Nat.mul_add, Nat.mul_one] at this
    rw [Nat.mul_comm (val b) BASE]
    omega
  have hbest := div_mod_search_floor hb.1 hc1.1 hbpos hfit BASE (le_refl _)
  rw [hbest]
  generalize hbd : val r1 / val b = best at *
  have hbB : best < BASE := by
    rw [← hbd]
    exact (Nat.div_lt_iff_lt_mul hbpos).2 (by rw [Nat.mul_comm] at hfit; exact hfit)
  have hdm : val b * best + val r1 % val b = val r1 := by
    rw [← hbd]; exact Nat.div_add_mod _ _
  have hmodlt : val r1 % val b < val b := Nat.mod_lt _ hbpos
  obtain ⟨hpc, hpv⟩ := div_mod_prod_spec hb.1 hbB
  obtain ⟨hiff, hsub⟩ := sub_inplace_spec hc1.1 hpc
  rw [hpv] at hsub hiff
  have hok : (sub_inplace r1 (div_mod_prod b best)).1 = true := hiff.2 (by omega)
  have hr2 : CanonMag (if best > 0 then (sub_inplace r1 (div_mod_prod b best)).2 else r1) ∧
      val (if best > 0 then (sub_inplace r1 (div_mod_prod b best)).2 else r1)
        = val r1 % val b := by
    by_cases hpos : best > 0
    · simp only [hpos, if_true]
      obtain ⟨g1, g2⟩ := hsub (by omega)
      exact ⟨g1, by omega⟩
    · simp only [hpos, if_false]
      have hz : best = 0 := by omega
      rw [hz] at hdm
      exact ⟨hc1, by omega⟩
  refine ⟨by rw [Nat.mul_comm]; omega, hfit, rfl, hbB, hok, hr2.1, hr2.2, ?_⟩
  rw [hr2.2]
  exact hmodlt

theorem div_mod_loop_succ (a b : List Nat) (i : Nat) (q r : List Nat) :
    div_mod_loop a b (i + 1) q r
      = div_mod_loop a b i
          (q.set i (div_mod_search b (trim_vec ((0 :: r).set 0 (a.getD i 0))) BASE 0 (BASE - 1) 0))
          (if div_mod_search b (trim_vec ((0 :: r).set 0 (a.getD i 0))) BASE 0 (BASE - 1) 0 > 0
            then (sub_inplace (trim_vec ((0 :: r).set 0 (a.getD i 0)))
              (div_mod_prod b
                (div_mod_search b (trim_vec ((0 :: r).set 0 (a.getD i 0))) BASE 0 (BASE - 1) 0))).2
            else trim_vec ((0 :: r).set 0 (a.getD i 0))) := rfl

/-- Whatever number of block steps is run from a remainder below the divisor, the
remainder they leave is below the divisor. -/
theorem div_mod_loop_remainder {a b : List Nat} (ha : Blocks a) (hb : CanonMag b)
    (hbpos : 0 < val b) :
    ∀ (i : Nat) (q r : List Nat), CanonMag r → val r < val b →
      CanonMag (div_mod_loop a b i q r).2 ∧ val (div_mod_loop a b i q r).2 < val b := by
  intro i
  induction i with
  | zero =>
    intro q r hr hlt
    exact ⟨hr, hlt⟩
  | succ i ih =>
    intro q r hr hlt
    rw [div_mod_loop_succ]
    obtain ⟨-, -, -, -, -, h6, -, h8⟩ :=
      div_mod_step_spec (getD_lt_of_Blocks ha i) hb hbpos hr hlt
    exact ih _ _ h6 h8

/-! ### `operator/=` on the receiver -/

theorem op_div_assign_step_spec (x y : BigInt) :
    ((op_div_assign_step x y).1 = some Error.domain_error ↔ y.d = []) ∧
    (∀ e, (op_div_assign_step x y).1 = some e →
      (op_div_assign_step x y).2 = x ∧ op_div_assign x y = .error e) ∧
    ((op_div_assign_step x y).1 = none →
      op_div_assign x y = .ok (op_div_assign_step x y).2) ∧
    (y.d ≠ [] → (op_div_assign_step x y).1 = none) := by
  unfold op_div_assign_step op_div_assign
  by_cases he : y.d = []
  · simp [he]
  · have hemp : y.d.isEmpty = false := isEmpty_eq_false_of_ne_nil he
    obtain ⟨qr, hqr⟩ := div_mod_ok { d := x.d, neg := false } { d := y.d, neg := false } he
    simp only [hemp, hqr]
    simp [he]

/-! ### Formatting after parsing -/

/-- On an optional `-` followed by a digit run without a leading zero,
`to_string` after `from_string` gives the input back. -/
theorem to_string_from_string_numeral (sgn D : List Char) (hs : sgn = [] ∨ sgn = ['-'])
    (hne : D ≠ []) (hD : ∀ c ∈ D, isdigit c = true) (h0 : D.head? ≠ some '0') :
    to_string (from_string (sgn ++ D)) = sgn ++ D := by
  have hs3 : sgn = [] ∨ sgn = ['+'] ∨ sgn = ['-'] := by
    rcases hs with h | h
    · exact Or.inl h
    · exact Or.inr (Or.inr h)
  obtain ⟨h1, h2⟩ := from_string_scan [] sgn [] D [] (by simp) hs3 (by simp) hne hD
    (fun c rest e => by cases e)
  have es : [] ++ sgn ++ [] ++ D ++ [] = sgn ++ D := by simp
  rw [es] at h1 h2
  obtain ⟨hc, hv⟩ := from_string_spec (sgn ++ D)
  rw [h1, h2] at hv
  obtain ⟨c0, r0, hcr⟩ := List.exists_cons_of_ne_nil hne
  have hc0 : c0 ≠ '0' := by
    intro e
    apply h0
    rw [hcr, e]
    rfl
  have hpos : 0 < decval 0 D := by
    rw [hcr]
    exact decval_pos_of_head (hD c0 (by rw [hcr]; simp)) hc0
  rw [to_string_eq_int_text hc, hv]
  unfold int_text
  rw [← decimal_eq_toDigits]
  rcases hs with h | h
  · subst h
    simp only [List.nil_append]
    have e1 : (if decide (([] : List Char) = ['-']) = true then (-1 : Int) else 1) = 1 := by
      decide
    rw [e1, one_mul, if_neg (by omega), Int.natAbs_ofNat, decimal_decval hD hne (Or.inr h0)]
    rfl
  · subst h
    have e1 : (if decide ((['-'] : List Char) = ['-']) = true then (-1 : Int) else 1) = -1 := by
      decide
    rw [e1, if_pos (by omega)]
    have e2 : ((-1 : Int) * ((decval 0 D : Nat) : Int)).natAbs = decval 0 D := by
      simp
    rw [e2, decimal_decval hD hne (Or.inr h0)]

/-! ### Zero as an operand of `+` -/

theorem value_zero_obj : value ⟨[], false⟩ = 0 := by decide

/-- Zero on the left of `+` changes nothing. -/
theorem op_add_zero_left {a : BigInt} (ha : Canonical a) : op_add ⟨[], false⟩ a = a := by
  have h := op_add_assign_spec Canonical_zero ha (by simp)
  apply Canonical_ext h.1 ha
  rw [h.2, value_zero_obj, zero_add]

/-- Zero on the right of `+` changes nothing when the receiver is not negative. -/
theorem op_add_zero_right_nonneg {a : BigInt} (ha : Canonical a) (hn : a.neg = false) :
    op_add a ⟨[], false⟩ = a := by
  have h := op_add_assign_spec ha Canonical_zero (by simp [hn])
  apply Canonical_ext h.1 ha
  rw [h.2, value_zero_obj, add_zero]

/-- Zero on the right of `+` turns a negative receiver into its magnitude. -/
theorem op_add_zero_right_neg {a : BigInt} (ha : Canonical a) (hn : a.neg = true) :
    (op_add a ⟨[], false⟩).neg = false ∧ value (op_add a ⟨[], false⟩) = -value a := by
  have hpos := val_pos_of_neg ha hn
  have h := op_add_assign_negative_receiver ha Canonical_zero hn rfl (by simpa [val_nil] using hpos)
  refine ⟨h.1, ?_⟩
  have := h.2
  rw [value_zero_obj, add_zero] at this
  exact this

/-! ### `split_at` -/

theorem BASE_pow_eq (k : Nat) : BASE ^ k = 10 ^ (9 * k) := by
  rw [pow_mul]
  rfl

theorem Canonical_of_CanonMag {x : BigInt} (h : CanonMag x.d) (hn : x.neg = false) :
    Canonical x := ⟨h, fun _ => hn⟩

theorem split_at_high_of_le (a : BigInt) (k : Nat) (h : a.d.length ≤ k) :
    (split_at a k).2 = ⟨[], false⟩ ∧ (split_at a k).1 = ⟨a.d, false⟩ := by
  unfold split_at
  rw [if_pos h]
  exact ⟨rfl, rfl⟩

/-! ## The claims -/

/-- C1, at the input where the code leaves the claim: `a = -5` and `b = 3` are
canonical with differing signs and `|a| > |b|`; `a + b` has the magnitude `2` of the
claim but a non-negative sign, so its value is `2`, not `value a + value b = -2`. -/
theorem C1_add_sign_lost_at_minus5_plus3 :
    Canonical ⟨[5], true⟩ ∧ Canonical ⟨[3], false⟩ ∧
    op_add ⟨[5], true⟩ ⟨[3], false⟩ = ⟨[2], false⟩ ∧
    value (op_add ⟨[5], true⟩ ⟨[3], false⟩) = 2 ∧
    value ⟨[5], true⟩ + value ⟨[3], false⟩ = -2 := by
  decide

/-- C2: for canonical `a`, `b` with the same sign, `a + b` has magnitude `|a| + |b|`
and that same sign (non-negative when the magnitude is empty), in canonical blocks;
its integer value is `value a + value b`. -/
theorem C2_add_same_sign (a b : BigInt) (ha : Canonical a) (hb : Canonical b)
    (hs : a.neg = b.neg) :
    CanonMag (op_add a b).d ∧ val (op_add a b).d = val a.d + val b.d ∧
    (op_add a b).neg = a.neg ∧ ((op_add a b).d = [] → (op_add a b).neg = false) ∧
    value (op_add a b) = value a + value b := by
  have hok : ¬ (a.neg = true ∧ b.neg = false ∧ val b.d < val a.d) := by
    rintro ⟨h1, h2, -⟩
    rw [hs, h2] at h1
    cases h1
  obtain ⟨hc, hv⟩ := op_add_assign_spec ha hb hok
  obtain ⟨-, hm, -⟩ := add_abs_spec ha.1.1 hb.1.1
  have hd : (op_add a b).d = (add_abs a b).d := by
    unfold op_add op_add_assign
    dsimp only
    rw [if_pos hs]
  have hn : (op_add a b).neg = a.neg := by
    unfold op_add op_add_assign
    dsimp only
    rw [if_pos hs, hs]
  exact ⟨hc.1, by rw [hd, hm], hn, hc.2, hv⟩

/-- C2 at `a = -999999999`, `b = -1` (a carry into a second block). -/
theorem C2_add_same_sign_witness :
    Canonical ⟨[999999999], true⟩ ∧ Canonical ⟨[1], true⟩ ∧
    (CanonMag (op_add ⟨[999999999], true⟩ ⟨[1], true⟩).d ∧
     val (op_add ⟨[999999999], true⟩ ⟨[1], true⟩).d = val [999999999] + val [1] ∧
     (op_add ⟨[999999999], true⟩ ⟨[1], true⟩).neg = true ∧
     ((op_add ⟨[999999999], true⟩ ⟨[1], true⟩).d = [] →
       (op_add ⟨[999999999], true⟩ ⟨[1], true⟩).neg = false) ∧
     value (op_add ⟨[999999999], true⟩ ⟨[1], true⟩)
       = value ⟨[999999999], true⟩ + value ⟨[1], true⟩) :=
  ⟨by decide, by decide,
    C2_add_same_sign ⟨[999999999], true⟩ ⟨[1], true⟩ (by decide) (by decide) rfl⟩

/-- C3, at the input where the code leaves the claim: for `a = -5`, `b = 3` the sum
`a + b` is `2` and `b + a` is `-2`, and `operator==` tells them apart. -/
theorem C3_add_not_commutative_at_minus5_3 :
    Canonical ⟨[5], true⟩ ∧ Canonical ⟨[3], false⟩ ∧
    op_add ⟨[5], true⟩ ⟨[3], false⟩ = ⟨[2], false⟩ ∧
    op_add ⟨[3], false⟩ ⟨[5], true⟩ = ⟨[2], true⟩ ∧
    op_eq (op_add ⟨[5], true⟩ ⟨[3], false⟩) (op_add ⟨[3], false⟩ ⟨[5], true⟩) = false := by
  decide

/-- C4, at the input where the code leaves the claim: for `a = -1`, `b = 5`, `c = -3`
the product `a * (b + c)` is `-2`, while `a * b + a * c = (-5) + 3` is `2`, and
`operator==` tells them apart. -/
theorem C4_mul_not_distributive_at_minus1_5_minus3 :
    op_mul ⟨[1], true⟩ (op_add ⟨[5], false⟩ ⟨[3], true⟩) = .ok ⟨[2], true⟩ ∧
    op_mul ⟨[1], true⟩ ⟨[5], false⟩ = .ok ⟨[5], true⟩ ∧
    op_mul ⟨[1], true⟩ ⟨[3], true⟩ = .ok ⟨[3], false⟩ ∧
    op_add ⟨[5], true⟩ ⟨[3], false⟩ = ⟨[2], false⟩ ∧
    op_eq ⟨[2], true⟩ ⟨[2], false⟩ = false :=
  ⟨rfl, rfl, rfl, rfl, rfl⟩

/-- C5: for canonical `a` and `b`, `a - b` is canonical and its integer value is
`value a - value b`, whatever the signs and the order of the magnitudes. -/
theorem C5_sub_value (a b : BigInt) (ha : Canonical a) (hb : Canonical b) :
    Canonical (op_sub a b) ∧ value (op_sub a b) = value a - value b :=
  op_sub_assign_spec ha hb

/-- C5 at `a = -5`, `b = -1000000003` (same sign, smaller receiver, two blocks). -/
theorem C5_sub_value_witness :
    Canonical ⟨[5], true⟩ ∧ Canonical ⟨[3, 1], true⟩ ∧
    (Canonical (op_sub ⟨[5], true⟩ ⟨[3, 1], true⟩) ∧
     value (op_sub ⟨[5], true⟩ ⟨[3, 1], true⟩) = value ⟨[5], true⟩ - value ⟨[3, 1], true⟩) :=
  ⟨by decide, by decide, C5_sub_value ⟨[5], true⟩ ⟨[3, 1], true⟩ (by decide) (by decide)⟩

/-- C6, at the input where the code leaves the claim: for `a = -5`, `b = -3` the
difference `a - b` is `-2`, the negation `BigInt(0) - b` is `3`, and `a + 3` is `2`;
`operator==` tells `a - b` and `a + (BigInt(0) - b)` apart. -/
theorem C6_sub_is_not_add_of_negation_at_minus5_minus3 :
    BigInt.ofLongLong 0 = .ok BigInt.zero ∧
    op_sub ⟨[5], true⟩ ⟨[3], true⟩ = ⟨[2], true⟩ ∧
    op_sub BigInt.zero ⟨[3], true⟩ = ⟨[3], false⟩ ∧
    op_add ⟨[5], true⟩ (op_sub BigInt.zero ⟨[3], true⟩) = ⟨[2], false⟩ ∧
    op_eq (op_sub ⟨[5], true⟩ ⟨[3], true⟩)
      (op_add ⟨[5], true⟩ (op_sub BigInt.zero ⟨[3], true⟩)) = false :=
  ⟨rfl, rfl, rfl, rfl, rfl⟩

/-- C7: for canonical `a` and `b` the product `a * b` returns a canonical object of
value `value a * value b`, whose sign flag is the XOR of the operand signs when the
product is not zero and non-negative when it is zero; and for 64-bit `x`, `y` whose
product is a 64-bit value, `BigInt(x) * BigInt(y) == BigInt(x * y)`. -/
theorem C7_mul_value :
    (∀ a b : BigInt, Canonical a → Canonical b →
      ∃ r, op_mul a b = .ok r ∧ Canonical r ∧ value r = value a * value b ∧
        r.neg = (!r.d.isEmpty && (a.neg != b.neg)) ∧
        (r.d.isEmpty = true ↔ value a * value b = 0)) ∧
    (∀ x y : Int, InLongLong x → InLongLong y → InLongLong (x * y) →
      ∃ bx bY w p, BigInt.ofLongLong x = .ok bx ∧ BigInt.ofLongLong y = .ok bY ∧
        BigInt.ofLongLong (x * y) = .ok w ∧ op_mul bx bY = .ok p ∧ op_eq p w = true) := by
  constructor
  · intro a b ha hb
    obtain ⟨r, hr, hc, hv, -, hn⟩ := op_mul_assign_spec ha hb
    refine ⟨r, hr, hc, hv, hn, ?_⟩
    rw [← hv, List.isEmpty_iff]
    constructor
    · intro e; rw [value_eq, e]; simp [val]
    · intro h0
      have : val r.d = 0 := by
        rw [value_eq] at h0
        split at h0 <;> omega
      exact (val_eq_zero_iff hc.1.2).1 this
  · intro x y hx hy hxy
    obtain ⟨bx, ex, cx, vx⟩ := ofLongLong_spec hx
    obtain ⟨bY, ey, cy, vy⟩ := ofLongLong_spec hy
    obtain ⟨w, ew, cw, vw⟩ := ofLongLong_spec hxy
    obtain ⟨p, ep, cp, vp, -, -⟩ := op_mul_assign_spec cx cy
    refine ⟨bx, bY, w, p, ex, ey, ew, ep, ?_⟩
    have : p = w := Canonical_ext cp cw (by rw [vp, vw, vx, vy])
    rw [this]
    exact op_eq_self w

/-- C7 at `a = -1000000002`, `b = 3`, and at `x = -4000000000`, `y = 2000000000`. -/
theorem C7_mul_value_witness :
    (∃ r, op_mul ⟨[2, 1], true⟩ ⟨[3], false⟩ = .ok r ∧ Canonical r ∧
        value r = value ⟨[2, 1], true⟩ * value ⟨[3], false⟩ ∧
        r.neg = (!r.d.isEmpty && (true != false)) ∧
        (r.d.isEmpty = true ↔ value ⟨[2, 1], true⟩ * value ⟨[3], false⟩ = 0)) ∧
    (∃ bx bY w p, BigInt.ofLongLong (-4000000000) = .ok bx ∧
        BigInt.ofLongLong 2000000000 = .ok bY ∧
        BigInt.ofLongLong (-4000000000 * 2000000000) = .ok w ∧
        op_mul bx bY = .ok p ∧ op_eq p w = true) :=
  ⟨C7_mul_value.1 ⟨[2, 1], true⟩ ⟨[3], false⟩ (by decide) (by decide),
   C7_mul_value.2 (-4000000000) 2000000000 (by decide) (by decide) (by decide)⟩

/-- C8: for every pair of canonical magnitudes, of any block lengths,
`mul_karatsuba_abs` returns, and returns exactly what the schoolbook `mul_abs`
returns: the same block sequence (and sign flag). -/
theorem C8_karatsuba_eq_schoolbook (a b : BigInt) (ha : CanonMag a.d) (hb : CanonMag b.d) :
    ∃ r, mul_karatsuba_abs a b = .ok r ∧ mul_abs a b = .ok r := by
  obtain ⟨r, hr, hc, hv, hn⟩ := mul_karatsuba_abs_spec ha hb
  obtain ⟨s, hs, hc2, hv2, hn2⟩ := mul_abs_spec ha.1 hb.1
  have hd : r.d = s.d := CanonMag_ext hc hc2 (by rw [hv, hv2])
  have : r = s := by
    cases r; cases s
    simp only at hd hn hn2
    simp [hd, hn, hn2]
  exact ⟨r, hr, by rw [this]; exact hs⟩

/-- C8 at two operands of 33 and 32 blocks, where the recursion is entered. -/
theorem C8_karatsuba_eq_schoolbook_witness :
    CanonMag (List.replicate 33 999999999) ∧ CanonMag (List.replicate 32 7) ∧
    ∃ r, mul_karatsuba_abs ⟨List.replicate 33 999999999, false⟩ ⟨List.replicate 32 7, false⟩
        = .ok r ∧
      mul_abs ⟨List.replicate 33 999999999, false⟩ ⟨List.replicate 32 7, false⟩ = .ok r :=
  ⟨by decide, by decide,
   C8_karatsuba_eq_schoolbook ⟨List.replicate 33 999999999, false⟩ ⟨List.replicate 32 7, false⟩
     (by decide) (by decide)⟩

/-- C9: for canonical non-negative `a` and `b` with `b` non-zero, `div_mod` returns
`q` and `r`, both canonical and non-negative, with `value a = value q * value b +
value r` and `0 ≤ value r < value b`. -/
theorem C9_div_mod_value (a b : BigInt) (ha : Canonical a) (hb : Canonical b)
    (hna : a.neg = false) (hnb : b.neg = false) (hnz : b.d ≠ []) :
    ∃ q r, div_mod a b = .ok (q, r) ∧ Canonical q ∧ Canonical r ∧
      q.neg = false ∧ r.neg = false ∧
      value a = value q * value b + value r ∧ 0 ≤ value r ∧ value r < value b := by
  obtain ⟨q, r, hqr, hq, hr, hqn, hrn, hv, hlt⟩ := div_mod_spec ha.1 hb.1 hnz
  refine ⟨q, r, hqr, hq, hr, hqn, hrn, ?_, ?_, ?_⟩
  · simp only [value_eq, hna, hnb, hqn, hrn, Bool.false_eq_true, if_false]
    exact_mod_cast hv
  · simp only [value_eq, hrn, Bool.false_eq_true, if_false]
    exact Int.ofNat_nonneg _
  · simp only [value_eq, hnb, hrn, Bool.false_eq_true, if_false]
    exact_mod_cast hlt

/-- C9 at `a = 5000000007`, `b = 1000000003` (the general loop, two blocks each). -/
theorem C9_div_mod_value_witness :
    Canonical ⟨[7, 5], false⟩ ∧ Canonical ⟨[3, 1], false⟩ ∧
    ∃ q r, div_mod ⟨[7, 5], false⟩ ⟨[3, 1], false⟩ = .ok (q, r) ∧ Canonical q ∧ Canonical r ∧
      q.neg = false ∧ r.neg = false ∧
      value ⟨[7, 5], false⟩ = value q * value ⟨[3, 1], false⟩ + value r ∧
      0 ≤ value r ∧ value r < value ⟨[3, 1], false⟩ :=
  ⟨by decide, by decide,
   C9_div_mod_value ⟨[7, 5], false⟩ ⟨[3, 1], false⟩ (by decide) (by decide) rfl rfl
     (by decide)⟩

/-- C11: for canonical `a` and `b` with `a ≠ 0`, the product `a * b` is returned
(by the schoolbook or the Karatsuba path, whatever the block lengths), the quotient
`(a * b) / a` is returned, and it is `b` itself, so `(a * b) / a == b`. -/
theorem C11_div_undoes_mul (a b : BigInt) (ha : Canonical a) (hb : Canonical b)
    (hnz : value a ≠ 0) :
    ∃ p q, op_mul a b = .ok p ∧ op_div p a = .ok q ∧ q = b ∧ op_eq q b = true := by
  obtain ⟨p, hp, hpc, hpv, -, -⟩ := op_mul_assign_spec ha hb
  obtain ⟨q, hq, hqc, hqv, -⟩ := op_div_assign_spec hpc ha (ne_nil_of_value_ne_zero hnz)
  have hqb : q = b := Canonical_ext hqc hb (by
    rw [hqv, hpv, Int.mul_tdiv_cancel_left _ hnz])
  exact ⟨p, q, hp, hq, hqb, by rw [hqb]; exact op_eq_self b⟩

/-- C11 at `a = -3000000002`, `b = 7`. -/
theorem C11_div_undoes_mul_witness :
    Canonical ⟨[2, 3], true⟩ ∧ Canonical ⟨[7], false⟩ ∧ value ⟨[2, 3], true⟩ ≠ 0 ∧
    ∃ p q, op_mul ⟨[2, 3], true⟩ ⟨[7], false⟩ = .ok p ∧ op_div p ⟨[2, 3], true⟩ = .ok q ∧
      q = ⟨[7], false⟩ ∧ op_eq q ⟨[7], false⟩ = true :=
  ⟨by decide, by decide, by decide,
   C11_div_undoes_mul ⟨[2, 3], true⟩ ⟨[7], false⟩ (by decide) (by decide) (by decide)⟩

/-- C12: `operator/` and `operator/=` fail with `domain_error` exactly when the block
sequence of the divisor is empty, whatever the dividend; for every other divisor
they return a value. -/
theorem C12_div_by_zero (a b : BigInt) :
    (op_div a b = .error .domain_error ↔ b.d = []) ∧
    (op_div_assign a b = .error .domain_error ↔ b.d = []) ∧
    (b.d ≠ [] → ∃ q, op_div a b = .ok q ∧ op_div_assign a b = .ok q) := by
  obtain ⟨h1, h2⟩ := op_div_assign_error_iff a b
  refine ⟨h1, h1, fun hne => ?_⟩
  obtain ⟨q, hq⟩ := h2 hne
  exact ⟨q, hq, hq⟩

/-- C12 at the dividends `7` and `0` with the divisors `0` and `-3`. -/
theorem C12_div_by_zero_witness :
    op_div ⟨[7], false⟩ ⟨[], false⟩ = .error .domain_error ∧
    op_div_assign ⟨[], false⟩ ⟨[], false⟩ = .error .domain_error ∧
    ∃ q, op_div ⟨[], false⟩ ⟨[3], true⟩ = .ok q ∧ op_div_assign ⟨[], false⟩ ⟨[3], true⟩ = .ok q :=
  ⟨(C12_div_by_zero ⟨[7], false⟩ ⟨[], false⟩).1.2 rfl,
   (C12_div_by_zero ⟨[], false⟩ ⟨[], false⟩).2.1.2 rfl,
   (C12_div_by_zero ⟨[], false⟩ ⟨[3], true⟩).2.2 (by decide)⟩

/-- C13: for canonical `base`, `exp ≥ 0` and `mod ≠ 0`, the square-and-multiply
`mod_exp` and the reference `slow_pow_mod` both return, and return the same object
(so the comparison `==` of the test holds). -/
theorem C13_mod_exp_eq_slow_pow_mod (base exp mod : BigInt) (hb : Canonical base)
    (he : Canonical exp) (hm : Canonical mod) (hE : 0 ≤ value exp) (hM : value mod ≠ 0) :
    ∃ r, mod_exp base exp mod = .ok r ∧ slow_pow_mod base exp mod = .ok r ∧
      op_eq r r = true := by
  obtain ⟨a, r, ha, -, -, -, -, hr, hrc, hrn, hr0, hrpos⟩ := mod_exp_spec hb he hm hE hM
  obtain ⟨a2, r2, ha2, hr2, hr2c, hr2n, hr20, hr2pos⟩ := slow_pow_mod_spec hb he hm hE hM
  have haa : a2 = a := by
    rw [ha] at ha2
    cases ha2
    rfl
  rw [haa] at hr2pos
  have hrr : r2 = r := by
    by_cases h0 : val exp.d = 0
    · rw [hr0 h0, hr20 h0]
    · have hp := Nat.pos_of_ne_zero h0
      apply Canonical_ext hr2c hrc
      rw [value_of_not_neg hr2n, value_of_not_neg hrn, hr2pos hp, hrpos hp]
  rw [hrr] at hr2
  exact ⟨r, hr, hr2, op_eq_self r⟩

/-- C13 at `base = -3`, `exp = 7`, `mod = 97`: both return `44`. -/
theorem C13_mod_exp_eq_slow_pow_mod_witness :
    Canonical ⟨[3], true⟩ ∧ Canonical ⟨[7], false⟩ ∧ Canonical ⟨[97], false⟩ ∧
    0 ≤ value ⟨[7], false⟩ ∧ value ⟨[97], false⟩ ≠ 0 ∧
    ∃ r, mod_exp ⟨[3], true⟩ ⟨[7], false⟩ ⟨[97], false⟩ = .ok r ∧
      slow_pow_mod ⟨[3], true⟩ ⟨[7], false⟩ ⟨[97], false⟩ = .ok r ∧ op_eq r r = true :=
  ⟨by decide, by decide, by decide, by decide, by decide,
   C13_mod_exp_eq_slow_pow_mod ⟨[3], true⟩ ⟨[7], false⟩ ⟨[97], false⟩
     (by decide) (by decide) (by decide) (by decide) (by decide)⟩

/-- C16: for every canonical base `x` and every canonical modulus `m` with `m ≠ 0`
and `|m| ≠ 1`, `mod_exp(x, BigInt(0), m)` returns, and the result `== BigInt(1)`. -/
theorem C16_mod_exp_zero_exponent (x m : BigInt) (hx : Canonical x) (hm : Canonical m)
    (hM : value m ≠ 0) (_hM1 : |value m| ≠ 1) :
    ∃ r, mod_exp x (ofLongLong_tail false 0) m = .ok r ∧
      op_eq r (ofLongLong_tail false 1) = true := by
  rw [lit_one, lit_zero]
  obtain ⟨a, r, -, -, -, -, -, hr, -, -, hr0, -⟩ :=
    mod_exp_spec hx Canonical_zero hm (by decide) hM
  have hz : r = ⟨[1], false⟩ := hr0 rfl
  exact ⟨r, hr, by rw [hz]; rfl⟩

/-- C16 at `x = -5`, `m = 13`. -/
theorem C16_mod_exp_zero_exponent_witness :
    Canonical ⟨[5], true⟩ ∧ Canonical ⟨[13], false⟩ ∧ value ⟨[13], false⟩ ≠ 0 ∧
    |value ⟨[13], false⟩| ≠ 1 ∧
    ∃ r, mod_exp ⟨[5], true⟩ (ofLongLong_tail false 0) ⟨[13], false⟩ = .ok r ∧
      op_eq r (ofLongLong_tail false 1) = true :=
  ⟨by decide, by decide, by decide, by decide,
   C16_mod_exp_zero_exponent ⟨[5], true⟩ ⟨[13], false⟩ (by decide) (by decide) (by decide)
     (by decide)⟩

/-- C17: on canonical arguments `mod_exp` fails with `invalid_argument` exactly
when the modulus is zero or the exponent is negative; it never fails with
`domain_error`; and with a non-zero modulus and a non-negative exponent it returns. -/
theorem C17_mod_exp_errors (base exp mod : BigInt) (hb : Canonical base)
    (he : Canonical exp) (hm : Canonical mod) :
    (mod_exp base exp mod = .error .invalid_argument ↔ (value mod = 0 ∨ value exp < 0)) ∧
    mod_exp base exp mod ≠ .error .domain_error ∧
    (value mod ≠ 0 → 0 ≤ value exp → ∃ r, mod_exp base exp mod = .ok r) := by
  obtain ⟨h1, h2⟩ := @mod_exp_error_spec base exp mod hb he hm
  refine ⟨⟨?_, h1⟩, ?_, ?_⟩
  · intro h
    by_contra hc
    obtain ⟨r, hr⟩ := h2 hc
    rw [hr] at h
    cases h
  · intro h
    by_cases hc : value mod = 0 ∨ value exp < 0
    · rw [h1 hc] at h
      cases h
    · obtain ⟨r, hr⟩ := h2 hc
      rw [hr] at h
      cases h
  · intro hM hE
    exact h2 (by
      rintro (h | h)
      · exact hM h
      · omega)

/-- C17 at `mod_exp(5, 3, 0)`, `mod_exp(2, -3, 5)` and `mod_exp(2, 3, 5)`. -/
theorem C17_mod_exp_errors_witness :
    mod_exp ⟨[5], false⟩ ⟨[3], false⟩ ⟨[], false⟩ = .error .invalid_argument ∧
    mod_exp ⟨[2], false⟩ ⟨[3], true⟩ ⟨[5], false⟩ = .error .invalid_argument ∧
    mod_exp ⟨[5], false⟩ ⟨[3], false⟩ ⟨[], false⟩ ≠ .error .domain_error ∧
    ∃ r, mod_exp ⟨[2], false⟩ ⟨[3], false⟩ ⟨[5], false⟩ = .ok r :=
  ⟨(C17_mod_exp_errors ⟨[5], false⟩ ⟨[3], false⟩ ⟨[], false⟩
      (by decide) (by decide) (by decide)).1.2 (Or.inl (by decide)),
   (C17_mod_exp_errors ⟨[2], false⟩ ⟨[3], true⟩ ⟨[5], false⟩
      (by decide) (by decide) (by decide)).1.2 (Or.inr (by decide)),
   (C17_mod_exp_errors ⟨[5], false⟩ ⟨[3], false⟩ ⟨[], false⟩
      (by decide) (by decide) (by decide)).2.1,
   (C17_mod_exp_errors ⟨[2], false⟩ ⟨[3], false⟩ ⟨[5], false⟩
      (by decide) (by decide) (by decide)).2.2 (by decide) (by decide)⟩

/-- C18: for canonical `base`, `exp ≥ 0` and `m ≠ 0`, the object `-m` (the blocks of
`m` with the opposite sign flag, canonical of value `-value m`) gives the same call:
`mod_exp(base, exp, -m)` and `mod_exp(base, exp, m)` return the same object. -/
theorem C18_mod_exp_neg_modulus (base exp m : BigInt) (hb : Canonical base)
    (he : Canonical exp) (hm : Canonical m) (hE : 0 ≤ value exp) (hM : value m ≠ 0) :
    Canonical ⟨m.d, !m.neg⟩ ∧ value ⟨m.d, !m.neg⟩ = -value m ∧
    ∃ r, mod_exp base exp ⟨m.d, !m.neg⟩ = .ok r ∧ mod_exp base exp m = .ok r ∧
      op_eq r r = true := by
  have hne : m.d ≠ [] := ne_nil_of_value_ne_zero hM
  have hc : Canonical ⟨m.d, !m.neg⟩ := ⟨hm.1, fun e => absurd e hne⟩
  have hv : value ⟨m.d, !m.neg⟩ = -value m := by
    simp only [value_eq]
    cases m.neg <;> simp
  have hM2 : value ⟨m.d, !m.neg⟩ ≠ 0 := by
    rw [hv]; omega
  obtain ⟨a, r, ha, -, -, -, -, hr, -⟩ := mod_exp_spec hb he hm hE hM
  have heq : mod_exp base exp ⟨m.d, !m.neg⟩ = mod_exp base exp m := by
    unfold mod_exp
    rw [op_eq_zero_false hm hM, op_eq_zero_false hc hM2, abs_big_spec hm, abs_big_spec hc]
  exact ⟨hc, hv, r, by rw [heq]; exact hr, hr, op_eq_self r⟩

/-- C18 at `base = 2`, `exp = 5`, `m = 7` (so `-m = -7`). -/
theorem C18_mod_exp_neg_modulus_witness :
    Canonical ⟨[2], false⟩ ∧ Canonical ⟨[5], false⟩ ∧ Canonical ⟨[7], false⟩ ∧
    0 ≤ value ⟨[5], false⟩ ∧ value ⟨[7], false⟩ ≠ 0 ∧
    (Canonical ⟨[7], !false⟩ ∧ value ⟨[7], !false⟩ = -value ⟨[7], false⟩ ∧
     ∃ r, mod_exp ⟨[2], false⟩ ⟨[5], false⟩ ⟨[7], !false⟩ = .ok r ∧
       mod_exp ⟨[2], false⟩ ⟨[5], false⟩ ⟨[7], false⟩ = .ok r ∧ op_eq r r = true) :=
  ⟨by decide, by decide, by decide, by decide, by decide,
   C18_mod_exp_neg_modulus ⟨[2], false⟩ ⟨[5], false⟩ ⟨[7], false⟩
     (by decide) (by decide) (by decide) (by decide) (by decide)⟩

/-- C19: for canonical `b1`, `b2`, `e` and `m ≠ 0`, the reduced base computed at the
start of `mod_exp` (for the modulus `|m|`, returned by `abs_big`) is returned, lies
in `[0, |m|)` and is congruent to the base modulo `|m|`; and when `b1` and `b2` are
congruent modulo `|m|`, `mod_exp(b1, e, m)` and `mod_exp(b2, e, m)` are the same. -/
theorem C19_mod_exp_base_reduction (b1 b2 e m : BigInt) (h1 : Canonical b1)
    (h2 : Canonical b2) (hm : Canonical m) (hM : value m ≠ 0) :
    (∃ a, mod_exp_base b1 (abs_big m) = .ok a ∧ 0 ≤ value a ∧ value a < |value m| ∧
      value a % |value m| = value b1 % |value m|) ∧
    (value b1 % |value m| = value b2 % |value m| → mod_exp b1 e m = mod_exp b2 e m) := by
  have hne : m.d ≠ [] := ne_nil_of_value_ne_zero hM
  have hmc : Canonical ⟨m.d, false⟩ := Canonical_mk_false hm.1
  obtain ⟨a1, ha1, ha1c, ha1n, ha1lt, ha1v⟩ := mod_exp_base_spec h1 hmc rfl hne
  obtain ⟨a2, ha2, ha2c, ha2n, -, ha2v⟩ := mod_exp_base_spec h2 hmc rfl hne
  have hvm : value (⟨m.d, false⟩ : BigInt) = ((val m.d : Nat) : Int) := value_of_not_neg rfl
  rw [hvm] at ha1v ha2v
  simp only at ha1lt
  constructor
  · refine ⟨a1, by rw [abs_big_spec hm]; exact ha1, ?_, ?_, ?_⟩
    · rw [value_of_not_neg ha1n]; exact Int.ofNat_nonneg _
    · rw [value_of_not_neg ha1n, abs_value]; exact_mod_cast ha1lt
    · rw [abs_value, ha1v, Int.emod_emod_of_dvd _ (dvd_refl _)]
  · intro hcong
    rw [abs_value] at hcong
    have haa : a1 = a2 := Canonical_ext ha1c ha2c (by rw [ha1v, ha2v, hcong])
    unfold mod_exp
    rw [abs_big_spec hm]
    dsimp only
    rw [ha1, ha2, haa]

/-- C19 at `b1 = 1001`, `b2 = -9`, `e = 3`, `m = -10`. -/
theorem C19_mod_exp_base_reduction_witness :
    Canonical ⟨[1001], false⟩ ∧ Canonical ⟨[9], true⟩ ∧ Canonical ⟨[10], true⟩ ∧
    value ⟨[10], true⟩ ≠ 0 ∧
    value ⟨[1001], false⟩ % |value ⟨[10], true⟩| = value ⟨[9], true⟩ % |value ⟨[10], true⟩| ∧
    (∃ a, mod_exp_base ⟨[1001], false⟩ (abs_big ⟨[10], true⟩) = .ok a ∧ 0 ≤ value a ∧
      value a < |value ⟨[10], true⟩| ∧
      value a % |value ⟨[10], true⟩| = value ⟨[1001], false⟩ % |value ⟨[10], true⟩|) ∧
    mod_exp ⟨[1001], false⟩ ⟨[3], false⟩ ⟨[10], true⟩
      = mod_exp ⟨[9], true⟩ ⟨[3], false⟩ ⟨[10], true⟩ :=
  ⟨by decide, by decide, by decide, by decide, by decide,
   (C19_mod_exp_base_reduction ⟨[1001], false⟩ ⟨[9], true⟩ ⟨[3], false⟩ ⟨[10], true⟩
     (by decide) (by decide) (by decide) (by decide)).1,
   (C19_mod_exp_base_reduction ⟨[1001], false⟩ ⟨[9], true⟩ ⟨[3], false⟩ ⟨[10], true⟩
     (by decide) (by decide) (by decide) (by decide)).2 (by decide)⟩

/-- C20: for every canonical `x`, parsing the text `to_string` writes gives `x`
back: the same object, with the same sign flag and the same block sequence, and
`operator==` holds. -/
theorem C20_round_trip (x : BigInt) (hx : Canonical x) :
    from_string (to_string x) = x ∧ (from_string (to_string x)).neg = x.neg ∧
    (from_string (to_string x)).d = x.d ∧ op_eq (from_string (to_string x)) x = true := by
  have h := from_string_to_string hx
  rw [h]
  exact ⟨rfl, rfl, rfl, op_eq_self x⟩

/-- C20 at `x = -42000000000000000000000000005` (two interior zero blocks) . -/
theorem C20_round_trip_witness :
    Canonical ⟨[5, 0, 0, 42], true⟩ ∧
    (from_string (to_string ⟨[5, 0, 0, 42], true⟩) = ⟨[5, 0, 0, 42], true⟩ ∧
     (from_string (to_string ⟨[5, 0, 0, 42], true⟩)).neg = true ∧
     (from_string (to_string ⟨[5, 0, 0, 42], true⟩)).d = [5, 0, 0, 42] ∧
     op_eq (from_string (to_string ⟨[5, 0, 0, 42], true⟩)) ⟨[5, 0, 0, 42], true⟩ = true) :=
  ⟨by decide, C20_round_trip ⟨[5, 0, 0, 42], true⟩ (by decide)⟩

/-- C21: on whitespace, an optional sign, whitespace and a non-empty run `D` of
decimal digits (leading zeros allowed, nothing or a non-digit after it),
`from_string` returns a canonical object whose value is the number `D` denotes,
negated when the sign is `-`; its sign flag is set iff the sign is `-` and `D`
denotes a non-zero number. -/
theorem C21_from_string_value (W1 sgn W2 D t : List Char)
    (hW1 : ∀ c ∈ W1, isspace c = true) (hs : sgn = [] ∨ sgn = ['+'] ∨ sgn = ['-'])
    (hW2 : ∀ c ∈ W2, isspace c = true) (hne : D ≠ []) (hD : ∀ c ∈ D, isdigit c = true)
    (ht : t = [] ∨ ∃ c rest, t = c :: rest ∧ isdigit c = false) :
    Canonical (from_string (W1 ++ sgn ++ W2 ++ D ++ t)) ∧
    value (from_string (W1 ++ sgn ++ W2 ++ D ++ t))
      = (if sgn = ['-'] then -((decval 0 D : Nat) : Int) else ((decval 0 D : Nat) : Int)) ∧
    ((from_string (W1 ++ sgn ++ W2 ++ D ++ t)).neg = true ↔ sgn = ['-'] ∧ decval 0 D ≠ 0) := by
  have ht2 : ∀ c rest, t = c :: rest → isdigit c = false := by
    intro c rest e
    rcases ht with h | ⟨c2, r2, h, hc⟩
    · rw [h] at e; cases e
    · rw [h] at e; cases e; exact hc
  obtain ⟨h1, h2⟩ := from_string_scan W1 sgn W2 D t hW1 hs hW2 hne hD ht2
  obtain ⟨hc, hv⟩ := from_string_spec (W1 ++ sgn ++ W2 ++ D ++ t)
  rw [h1, h2] at hv
  have hv2 : value (from_string (W1 ++ sgn ++ W2 ++ D ++ t))
      = if decide (sgn = ['-']) then -((decval 0 D : Nat) : Int)
        else ((decval 0 D : Nat) : Int) := by
    rw [hv]
    by_cases hm : sgn = ['-'] <;> simp [hm]
  refine ⟨hc, ?_, ?_⟩
  · rw [hv2]
    by_cases hm : sgn = ['-'] <;> simp [hm]
  · rw [neg_iff_of_value hc _ _ hv2]
    simp

/-- C21 at the inputs `"+000123"` (value 123) and `"   -0000  "` (zero, sign flag
not set). -/
theorem C21_from_string_value_witness :
    (Canonical (from_string ([] ++ ['+'] ++ [] ++ ['0', '0', '0', '1', '2', '3'] ++ [])) ∧
     value (from_string ([] ++ ['+'] ++ [] ++ ['0', '0', '0', '1', '2', '3'] ++ []))
       = (if ['+'] = ['-'] then -((decval 0 ['0', '0', '0', '1', '2', '3'] : Nat) : Int)
          else ((decval 0 ['0', '0', '0', '1', '2', '3'] : Nat) : Int)) ∧
     ((from_string ([] ++ ['+'] ++ [] ++ ['0', '0', '0', '1', '2', '3'] ++ [])).neg = true
       ↔ ['+'] = ['-'] ∧ decval 0 ['0', '0', '0', '1', '2', '3'] ≠ 0)) ∧
    (Canonical (from_string ([' ', ' ', ' '] ++ ['-'] ++ [] ++ ['0', '0', '0', '0']
        ++ [' ', ' '])) ∧
     value (from_string ([' ', ' ', ' '] ++ ['-'] ++ [] ++ ['0', '0', '0', '0'] ++ [' ', ' ']))
       = (if ['-'] = ['-'] then -((decval 0 ['0', '0', '0', '0'] : Nat) : Int)
          else ((decval 0 ['0', '0', '0', '0'] : Nat) : Int)) ∧
     ((from_string ([' ', ' ', ' '] ++ ['-'] ++ [] ++ ['0', '0', '0', '0']
        ++ [' ', ' '])).neg = true
       ↔ ['-'] = ['-'] ∧ decval 0 ['0', '0', '0', '0'] ≠ 0)) :=
  ⟨C21_from_string_value [] ['+'] [] ['0', '0', '0', '1', '2', '3'] []
      (by decide) (by decide) (by decide) (by decide) (by decide) (Or.inl rfl),
   C21_from_string_value [' ', ' ', ' '] ['-'] [] ['0', '0', '0', '0'] [' ', ' ']
      (by decide) (by decide) (by decide) (by decide) (by decide)
      (Or.inr ⟨' ', [' '], rfl, by decide⟩)⟩

/-- C22: an input in which no decimal digit stands right after whitespace, an
optional sign and further whitespace is read as zero: empty blocks, sign flag not
set (`from_string` has no failing path). -/
theorem C22_from_string_no_digits (s : List Char)
    (h : ∀ (W1 sgn W2 : List Char) (c : Char) (rest : List Char),
      s = W1 ++ sgn ++ W2 ++ c :: rest → (∀ x ∈ W1, isspace x = true) →
      (sgn = [] ∨ sgn = ['+'] ∨ sgn = ['-']) → (∀ x ∈ W2, isspace x = true) →
      isdigit c = false) :
    from_string s = BigInt.zero ∧ (from_string s).d = [] ∧ (from_string s).neg = false ∧
      Canonical (from_string s) := by
  rw [from_string_no_digit s h]
  exact ⟨rfl, rfl, rfl, by decide⟩

/-- C22 at the input `"  + x1"`: the digit comes after a character that is neither
whitespace nor a sign. -/
theorem C22_from_string_no_digits_witness :
    from_string [' ', ' ', '+', ' ', 'x', '1'] = BigInt.zero ∧
    (from_string [' ', ' ', '+', ' ', 'x', '1']).d = [] ∧
    (from_string [' ', ' ', '+', ' ', 'x', '1']).neg = false ∧
    Canonical (from_string [' ', ' ', '+', ' ', 'x', '1']) :=
  C22_from_string_no_digits [' ', ' ', '+', ' ', 'x', '1']
    (no_digit_after_scan [' ', ' ', '+', ' ', 'x', '1'] (by decide) (by decide))

/-- C23: what follows the digit run is ignored.  For `p` made of whitespace, an
optional sign, whitespace and a non-empty digit run, and `t` empty or starting with
a non-digit, `from_string (p ++ t)` is the object `from_string p`, and `operator==`
holds between them. -/
theorem C23_from_string_trailing (W1 sgn W2 D t : List Char)
    (hW1 : ∀ c ∈ W1, isspace c = true) (hs : sgn = [] ∨ sgn = ['+'] ∨ sgn = ['-'])
    (hW2 : ∀ c ∈ W2, isspace c = true) (hne : D ≠ []) (hD : ∀ c ∈ D, isdigit c = true)
    (ht : t = [] ∨ ∃ c rest, t = c :: rest ∧ isdigit c = false) :
    from_string ((W1 ++ sgn ++ W2 ++ D) ++ t) = from_string (W1 ++ sgn ++ W2 ++ D) ∧
    op_eq (from_string ((W1 ++ sgn ++ W2 ++ D) ++ t)) (from_string (W1 ++ sgn ++ W2 ++ D))
      = true := by
  have ht2 : ∀ c rest, t = c :: rest → isdigit c = false := by
    intro c rest e
    rcases ht with h | ⟨c2, r2, h, hc⟩
    · rw [h] at e; cases e
    · rw [h] at e; cases e; exact hc
  obtain ⟨h1, h2⟩ := from_string_scan W1 sgn W2 D t hW1 hs hW2 hne hD ht2
  obtain ⟨h3, h4⟩ := from_string_scan W1 sgn W2 D [] hW1 hs hW2 hne hD
    (fun c rest e => by cases e)
  rw [List.append_nil] at h3 h4
  have he : from_string ((W1 ++ sgn ++ W2 ++ D) ++ t) = from_string (W1 ++ sgn ++ W2 ++ D) :=
    from_string_congr _ _ (by rw [h1, h3]) (by rw [h2, h4])
  rw [he]
  exact ⟨rfl, op_eq_self _⟩

/-- C23 at `p = " -0012"` and `t = "abc99"`. -/
theorem C23_from_string_trailing_witness :
    from_string (([' '] ++ ['-'] ++ [] ++ ['0', '0', '1', '2']) ++ ['a', 'b', 'c', '9', '9'])
      = from_string ([' '] ++ ['-'] ++ [] ++ ['0', '0', '1', '2']) ∧
    op_eq
      (from_string (([' '] ++ ['-'] ++ [] ++ ['0', '0', '1', '2']) ++ ['a', 'b', 'c', '9', '9']))
      (from_string ([' '] ++ ['-'] ++ [] ++ ['0', '0', '1', '2'])) = true :=
  C23_from_string_trailing [' '] ['-'] [] ['0', '0', '1', '2'] ['a', 'b', 'c', '9', '9']
    (by decide) (by decide) (by decide) (by decide) (by decide)
    (Or.inr ⟨'a', ['b', 'c', '9', '9'], rfl, by decide⟩)

/-- C24: for a canonical `x`, `to_string x` is the decimal text of `value x`.  It
is `0` for zero; otherwise the sign `-` (present iff `x` is negative), the most
significant block as `operator<<` writes it, without a leading zero, and every
lower block filled to nine digits, most significant first.  The text is a sign
(iff the value is negative) and a non-empty run of digits that denotes the
magnitude and has no leading zero; it is never `-0`. -/
theorem C24_to_string_numeral (x : BigInt) (hx : Canonical x) :
    (x.d = [] → to_string x = ['0']) ∧
    (∀ lo top, x.d = lo ++ [top] →
      to_string x = (if x.neg then ['-'] else []) ++ (decimal top ++ blocks_text lo) ∧
      (decimal top).head? ≠ some '0' ∧
      (∀ b ∈ lo, (decimal_fill BASE_DIGS b).length = 9)) ∧
    to_string x = int_text (value x) ∧
    (∃ body, to_string x = (if value x < 0 then ['-'] else []) ++ body ∧
      (∀ c ∈ body, isdigit c = true) ∧ decval 0 body = (value x).natAbs ∧
      (body = ['0'] ∨ body.head? ≠ some '0') ∧ body ≠ []) ∧
    to_string x ≠ ['-', '0'] := by
  refine ⟨fun h => to_string_empty h, ?_, to_string_eq_int_text hx, ?_, ?_⟩
  · intro lo top hd
    have hBl : Blocks (lo ++ [top]) := by rw [← hd]; exact hx.1.1
    rw [Blocks_append] at hBl
    have htop0 : top ≠ 0 := by
      have := hx.1.2
      rw [hd] at this
      exact Trimmed_concat.1 this
    refine ⟨to_string_blocks hd, ?_, fun b hb => length_decimal_fill (hBl.1 b hb)⟩
    have := head_body [] (Nat.pos_of_ne_zero htop0)
    simpa [blocks_text] using this
  · rw [to_string_eq_int_text hx]
    exact int_text_shape (value x)
  · rw [to_string_eq_int_text hx]
    exact int_text_ne_minus_zero (value x)

/-- C24 at `x = -42000000000000000005` (blocks `5, 0, 42`). -/
theorem C24_to_string_numeral_witness :
    Canonical ⟨[5, 0, 42], true⟩ ∧
    to_string ⟨[5, 0, 42], true⟩ = int_text (value ⟨[5, 0, 42], true⟩) ∧
    to_string ⟨[5, 0, 42], true⟩ ≠ ['-', '0'] :=
  ⟨by decide, (C24_to_string_numeral ⟨[5, 0, 42], true⟩ (by decide)).2.2.1,
    (C24_to_string_numeral ⟨[5, 0, 42], true⟩ (by decide)).2.2.2.2⟩

/-- C25: for every `v` in the range of `long long`, the most negative value
included, the constructor `BigInt(v)` returns a canonical object of value `v`; its
text is the decimal text of `v`, and it is equal (`operator==`) to the object
constructed from that text. -/
theorem C25_ofLongLong_exact (v : Int) (hv : InLongLong v) :
    ∃ x, BigInt.ofLongLong v = .ok x ∧ Canonical x ∧ value x = v ∧
      to_string x = int_text v ∧ BigInt.ofString (int_text v) = x ∧
      op_eq x (BigInt.ofString (int_text v)) = true := by
  obtain ⟨x, h1, h2, h3, h4, h5⟩ := ofLongLong_text hv
  refine ⟨x, h1, h2, h3, h4, h5, ?_⟩
  rw [h5]
  exact op_eq_self x

/-- C25 at the most negative value `v = -2^63`. -/
theorem C25_ofLongLong_exact_witness :
    InLongLong (-9223372036854775808) ∧
    ∃ x, BigInt.ofLongLong (-9223372036854775808) = .ok x ∧ Canonical x ∧
      value x = -9223372036854775808 ∧
      to_string x = int_text (-9223372036854775808) ∧
      BigInt.ofString (int_text (-9223372036854775808)) = x ∧
      op_eq x (BigInt.ofString (int_text (-9223372036854775808))) = true :=
  ⟨by decide, C25_ofLongLong_exact (-9223372036854775808) (by decide)⟩

/-- C26: the canonical form (every block below `10^9`, no most significant zero
block, sign flag not set on an empty block sequence) holds for the default
constructor, for `BigInt(v)` with `v` a `long long`, for `from_string` on every
input, and for `+`, `-`, `*`, `/` and their compound forms on canonical operands;
`/` returns unless the divisor is zero.  The compound forms are covered both with
a right operand that is another object (`op_add_assign a b` and the like) and
with the receiver itself as right operand (`a += a` is `op_add_assign_self a`;
`a -= a`, `a *= a`, `a /= a` are the functions at `rhs := a`). -/
theorem C26_canonical_invariant (a b : BigInt) (ha : Canonical a) (hb : Canonical b)
    (v : Int) (hv : InLongLong v) (s : List Char) :
    Canonical BigInt.zero ∧
    (∃ x, BigInt.ofLongLong v = .ok x ∧ Canonical x) ∧
    Canonical (from_string s) ∧ Canonical (BigInt.ofString s) ∧
    Canonical (op_add_assign a b) ∧ Canonical (op_add a b) ∧
    Canonical (op_sub_assign a b) ∧ Canonical (op_sub a b) ∧
    (∃ r, op_mul_assign a b = .ok r ∧ op_mul a b = .ok r ∧ Canonical r) ∧
    ((b.d = [] ∧ op_div_assign a b = .error .domain_error ∧ op_div a b = .error .domain_error) ∨
     (b.d ≠ [] ∧ ∃ q, op_div_assign a b = .ok q ∧ op_div a b = .ok q ∧ Canonical q)) ∧
    Canonical (op_add_assign_self a) ∧
    Canonical (op_sub_assign a a) ∧
    (∃ r, op_mul_assign a a = .ok r ∧ Canonical r) ∧
    ((a.d = [] ∧ op_div_assign a a = .error .domain_error) ∨
     (a.d ≠ [] ∧ ∃ q, op_div_assign a a = .ok q ∧ Canonical q)) := by
  obtain ⟨x, hx, hxc, -⟩ := ofLongLong_spec hv
  obtain ⟨r, hr, hrc, -⟩ := op_mul_assign_spec ha hb
  obtain ⟨r2, hr2, hrc2, -⟩ := op_mul_assign_spec ha ha
  refine ⟨by decide, ⟨x, hx, hxc⟩, (from_string_spec s).1, (from_string_spec s).1,
    Canonical_op_add_assign ha hb, Canonical_op_add_assign ha hb,
    (op_sub_assign_spec ha hb).1, (op_sub_assign_spec ha hb).1, ⟨r, hr, hr, hrc⟩, ?_,
    (op_add_assign_self_spec ha.1.1).1, (op_sub_assign_spec ha ha).1, ⟨r2, hr2, hrc2⟩, ?_⟩
  · rcases op_div_assign_total ha hb with ⟨h0, he⟩ | ⟨h0, q, hq, hqc⟩
    · exact Or.inl ⟨h0, he, he⟩
    · exact Or.inr ⟨h0, q, hq, hq, hqc⟩
  · exact op_div_assign_total ha ha

/-- C26 at `a = -5`, `b = 3` (the operands on which `+` loses the sign), `v = -2^63`
and the input `"-007x"`; the call `a += a` gives `+10` there, which is canonical. -/
theorem C26_canonical_invariant_witness :
    Canonical ⟨[5], true⟩ ∧ Canonical ⟨[3], false⟩ ∧ InLongLong (-9223372036854775808) ∧
    Canonical (op_add ⟨[5], true⟩ ⟨[3], false⟩) ∧
    Canonical (from_string ['-', '0', '0', '7', 'x']) ∧
    Canonical (op_add_assign_self ⟨[5], true⟩) ∧
    op_add_assign_self ⟨[5], true⟩ = ⟨[10], false⟩ :=
  ⟨by decide, by decide, by decide,
    (C26_canonical_invariant ⟨[5], true⟩ ⟨[3], false⟩ (by decide) (by decide)
      (-9223372036854775808) (by decide) ['-', '0', '0', '7', 'x']).2.2.2.2.2.1,
    (C26_canonical_invariant ⟨[5], true⟩ ⟨[3], false⟩ (by decide) (by decide)
      (-9223372036854775808) (by decide) ['-', '0', '0', '7', 'x']).2.2.1,
    (C26_canonical_invariant ⟨[5], true⟩ ⟨[3], false⟩ (by decide) (by decide)
      (-9223372036854775808) (by decide) ['-', '0', '0', '7', 'x']).2.2.2.2.2.2.2.2.2.2.1,
    by decide⟩

/-- C27: on canonical operands `<`, `>`, `<=`, `>=` are the order relations of the
integer values.  With differing sign flags `a < b` is the flag of `a`; with both
flags unset it is the order of the magnitudes, and with both set the reversed
order of the magnitudes. -/
theorem C27_order (a b : BigInt) (ha : Canonical a) (hb : Canonical b) :
    (op_lt a b = true ↔ value a < value b) ∧
    (op_gt a b = true ↔ value a > value b) ∧
    (op_le a b = true ↔ value a ≤ value b) ∧
    (op_ge a b = true ↔ value a ≥ value b) ∧
    (a.neg ≠ b.neg → op_lt a b = a.neg) ∧
    (a.neg = false → b.neg = false → (op_lt a b = true ↔ val a.d < val b.d)) ∧
    (a.neg = true → b.neg = true → (op_lt a b = true ↔ val b.d < val a.d)) :=
  ⟨op_lt_spec ha hb, op_gt_spec ha hb, op_le_spec ha hb, op_ge_spec ha hb,
    fun h => op_lt_of_sign_ne h, fun h1 h2 => op_lt_nonneg ha.1 hb.1 h1 h2,
    fun h1 h2 => op_lt_neg ha.1 hb.1 h1 h2⟩

/-- C27 at `a = -2000000000` and `b = -7`: both negative, the larger magnitude is
the smaller number. -/
theorem C27_order_witness :
    Canonical ⟨[0, 2], true⟩ ∧ Canonical ⟨[7], true⟩ ∧
    (op_lt ⟨[0, 2], true⟩ ⟨[7], true⟩ = true ↔ value ⟨[0, 2], true⟩ < value ⟨[7], true⟩) ∧
    (op_lt ⟨[0, 2], true⟩ ⟨[7], true⟩ = true
      ↔ val (BigInt.mk [7] true).d < val (BigInt.mk [0, 2] true).d) :=
  ⟨by decide, by decide,
    (C27_order ⟨[0, 2], true⟩ ⟨[7], true⟩ (by decide) (by decide)).1,
    (C27_order ⟨[0, 2], true⟩ ⟨[7], true⟩ (by decide) (by decide)).2.2.2.2.2.2 rfl rfl⟩

/-- C28: on objects whose blocks are below `10^9` and trimmed, `a == b` holds iff
the values are equal; it holds iff the block sequences are the same and the sign
flags agree or there is no block (this part for all objects); `a != b` is the
negation. -/
theorem C28_equality (a b : BigInt) (ha : CanonMag a.d) (hb : CanonMag b.d) :
    (op_eq a b = true ↔ value a = value b) ∧
    (op_eq a b = true ↔ a.d = b.d ∧ (a.neg = b.neg ∨ a.d = [])) ∧
    op_ne a b = !(op_eq a b) ∧
    (op_ne a b = true ↔ value a ≠ value b) :=
  ⟨op_eq_value_iff ha hb, op_eq_structure a b, rfl, op_ne_value_iff ha hb⟩

/-- C28 at two empty block sequences with different sign flags. -/
theorem C28_equality_witness :
    CanonMag (BigInt.mk [] true).d ∧ CanonMag (BigInt.mk [] false).d ∧
    (op_eq ⟨[], true⟩ ⟨[], false⟩ = true ↔ value ⟨[], true⟩ = value ⟨[], false⟩) ∧
    op_eq ⟨[], true⟩ ⟨[], false⟩ = true :=
  ⟨by decide, by decide, (C28_equality ⟨[], true⟩ ⟨[], false⟩ (by decide) (by decide)).1,
    by decide⟩

/-- C29: on a deque that holds `es` in front-to-back order, `at(index)` and
`operator[]` return the element of index `index` when `index` is below the size,
on the forward walk from `begin()` and on the backward walk from `end()` alike, and
throw `std::out_of_range` from the size on. -/
theorem C29_deque_at {α : Type} (dq : Deque α) (es : List α) (h : Deque.Holds dq es)
    (index : Nat) :
    (∀ e, es.get? index = some e →
      Deque.at dq index = .ok e ∧ Deque.index dq index = .ok e ∧
      (index ≤ es.length / 2 →
        Deque.deref dq (Deque.at_forward dq index dq._sentinel.next) = .ok e) ∧
      (¬ index ≤ es.length / 2 →
        Deque.deref dq (Deque.at_backward dq (es.length - index) NodePtr.sentinel) = .ok e)) ∧
    (es.length ≤ index →
      Deque.at dq index = .error .out_of_range ∧
      Deque.index dq index = .error .out_of_range) := by
  have hs := Deque.at_spec h index
  have hsize := h.1
  refine ⟨fun e he => ⟨hs.1 e he, hs.1 e he, ?_, ?_⟩, fun hge => ⟨hs.2 hge, hs.2 hge⟩⟩
  · intro hhalf
    have := hs.1 e he
    have hlt : index < es.length := by
      by_contra hge
      rw [List.get?_eq_none.2 (by omega)] at he
      cases he
    unfold Deque.at at this
    dsimp only at this
    rw [hsize, if_neg (by omega), if_pos hhalf] at this
    exact this
  · intro hhalf
    have := hs.1 e he
    have hlt : index < es.length := by
      by_contra hge
      rw [List.get?_eq_none.2 (by omega)] at he
      cases he
    unfold Deque.at at this
    dsimp only at this
    rw [hsize, if_neg (by omega), if_neg hhalf] at this
    exact this

/-- C29 on the deque the constructor builds from `0, 10, 20, 30, 40`, at the index
`3` (reached backward from `end()`) . -/
theorem C29_deque_at_witness :
    ∃ dq : Deque Int, Deque.ofList 0 [0, 10, 20, 30, 40] = .ok dq ∧
      Deque.Holds dq [0, 10, 20, 30, 40] ∧
      Deque.at dq 3 = .ok 30 :=
  let dq : Deque Int :=
    { _sentinel := { prev := NodePtr.heap 4, next := NodePtr.heap 0, value := 0 },
      heap := [{ prev := NodePtr.sentinel, next := NodePtr.heap 1, value := 0 },
               { prev := NodePtr.heap 0, next := NodePtr.heap 2, value := 10 },
               { prev := NodePtr.heap 1, next := NodePtr.heap 3, value := 20 },
               { prev := NodePtr.heap 2, next := NodePtr.heap 4, value := 30 },
               { prev := NodePtr.heap 3, next := NodePtr.sentinel, value := 40 }],
      _size := 5 }
  have h : Deque.Holds dq [0, 10, 20, 30, 40] :=
    ⟨rfl, 0, _, rfl, rfl, rfl, rfl, 1, _, rfl, rfl, rfl, rfl, 2, _, rfl, rfl, rfl, rfl,
      3, _, rfl, rfl, rfl, rfl, 4, _, rfl, rfl, rfl, rfl, rfl, rfl⟩
  ⟨dq, rfl, h, ((C29_deque_at dq [0, 10, 20, 30, 40] h 3).1 30 rfl).1⟩

/-- C30: in a block step of `div_mod`, with the blocks of the remainder `r` and of
the divisor `b` below `10^9`, `b` non-zero and `r < b * 10^9`, the binary search
from `low = 0`, `high = 10^9 - 1`, `best = 0` ends within `10^9` iterations (and
with the same result under every larger bound) with `best = r / b`, which is below
`10^9` and is the largest `d` with `b * d ≤ r`. -/
theorem C30_div_mod_search (b r : List Nat) (hb : Blocks b) (hr : Blocks r)
    (hbpos : 0 < val b) (hfit : val r < val b * BASE) :
    div_mod_search b r BASE 0 (BASE - 1) 0 = val r / val b ∧
    (∀ fuel, BASE ≤ fuel →
      div_mod_search b r fuel 0 (BASE - 1) 0 = div_mod_search b r BASE 0 (BASE - 1) 0) ∧
    div_mod_search b r BASE 0 (BASE - 1) 0 < BASE ∧
    val b * div_mod_search b r BASE 0 (BASE - 1) 0 ≤ val r ∧
    (∀ d, val b * d ≤ val r → d ≤ div_mod_search b r BASE 0 (BASE - 1) 0) := by
  have h0 := div_mod_search_floor hb hr hbpos hfit BASE (le_refl _)
  refine ⟨h0, fun fuel hf => ?_, ?_, ?_, ?_⟩
  · rw [h0, div_mod_search_floor hb hr hbpos hfit fuel hf]
  · rw [h0]
    exact (Nat.div_lt_iff_lt_mul hbpos).2 (by rw [Nat.mul_comm]; exact hfit)
  · rw [h0]
    exact Nat.mul_div_le _ _
  · intro d hd
    rw [h0]
    exact (Nat.le_div_iff_mul_le hbpos).2 (by rw [Nat.mul_comm]; exact hd)

/-- C30 at the divisor `7` and the remainder `3000000005` (blocks `5, 3`). -/
theorem C30_div_mod_search_witness :
    Blocks [7] ∧ Blocks [5, 3] ∧ 0 < val [7] ∧ val [5, 3] < val [7] * BASE ∧
    div_mod_search [7] [5, 3] BASE 0 (BASE - 1) 0 = val [5, 3] / val [7] :=
  ⟨by decide, by decide, by decide, by decide,
    (C30_div_mod_search [7] [5, 3] (by decide) (by decide) (by decide) (by decide)).1⟩

/-- C31: for block sequences `x` and `y` that are trimmed with blocks below `10^9`,
`sub_inplace(x, y)` returns true iff `value(y) ≤ value(x)`; when it does, `x` holds
the trimmed block sequence of `value(x) - value(y)`.  With `y` the product
`b * d` of the search, the attempt fails exactly when `b * d > value(x)`. -/
theorem C31_sub_inplace (x y : List Nat) (hx : CanonMag x) (hy : CanonMag y) :
    ((sub_inplace x y).1 = true ↔ val y ≤ val x) ∧
    ((sub_inplace x y).1 = true →
      CanonMag (sub_inplace x y).2 ∧ val (sub_inplace x y).2 = val x - val y) ∧
    (∀ (b : List Nat) (d : Nat), Blocks b → d < BASE →
      ((sub_inplace x (div_mod_prod b d)).1 = false ↔ val b * d > val x)) := by
  obtain ⟨hiff, hsub⟩ := sub_inplace_spec hx.1 hy
  refine ⟨hiff, ?_, ?_⟩
  · intro h
    obtain ⟨g1, g2⟩ := hsub (hiff.1 h)
    exact ⟨g1, by omega⟩
  · intro b d hb hd
    obtain ⟨hpc, hpv⟩ := div_mod_prod_spec hb hd
    obtain ⟨hiff2, -⟩ := sub_inplace_spec hx.1 hpc
    rw [hpv] at hiff2
    rw [← Bool.not_eq_true, hiff2]
    omega

/-- C31 at `x = 3000000005` (blocks `5, 3`) and `y = 7000000000` (blocks `0, 7`):
the attempt fails. -/
theorem C31_sub_inplace_witness :
    CanonMag [5, 3] ∧ CanonMag [0, 7] ∧
    ((sub_inplace [5, 3] [0, 7]).1 = true ↔ val [0, 7] ≤ val [5, 3]) :=
  ⟨by decide, by decide, (C31_sub_inplace [5, 3] [0, 7] (by decide) (by decide)).1⟩

/-- C32, as stated, fails: with `a` of 33 blocks `999999999` and `b` of 32 blocks
`1`, `half` is 16 and the sum of the low and the high part of `a`, an operand of
the third recursive call, has 18 blocks. -/
theorem C32_sum_operand_at_33_blocks :
    CanonMag (BigInt.mk (List.replicate 33 999999999) false).d ∧
    CanonMag (BigInt.mk (List.replicate 32 1) false).d ∧
    KARATSUBA_THRESHOLD ≤ (BigInt.mk (List.replicate 33 999999999) false).d.length ∧
    KARATSUBA_THRESHOLD ≤ (BigInt.mk (List.replicate 32 1) false).d.length ∧
    ¬ ((add_abs
          (split_at ⟨List.replicate 33 999999999, false⟩
            (max (BigInt.mk (List.replicate 33 999999999) false).d.length
              (BigInt.mk (List.replicate 32 1) false).d.length / 2)).1
          (split_at ⟨List.replicate 33 999999999, false⟩
            (max (BigInt.mk (List.replicate 33 999999999) false).d.length
              (BigInt.mk (List.replicate 32 1) false).d.length / 2)).2).d.length
        ≤ max (BigInt.mk (List.replicate 33 999999999) false).d.length
            (BigInt.mk (List.replicate 32 1) false).d.length / 2 + 1) := by
  decide

/-- C32, amended: in `mul_karatsuba_abs` on canonical magnitudes of block lengths
`n, m ≥ 32`, with `half = max n m / 2`, the three recursive calls are made on the
low parts, the high parts and the sums low + high; the low parts have at most
`half` blocks, the high parts at most `half + 1`, the sums at most `half + 2`. -/
theorem C32_karatsuba_operand_lengths (a b : BigInt) (ha : CanonMag a.d) (hb : CanonMag b.d)
    (hn : KARATSUBA_THRESHOLD ≤ a.d.length) (hm : KARATSUBA_THRESHOLD ≤ b.d.length) :
    ((split_at a (max a.d.length b.d.length / 2)).1.d.length ≤ max a.d.length b.d.length / 2 ∧
     (split_at b (max a.d.length b.d.length / 2)).1.d.length ≤ max a.d.length b.d.length / 2 ∧
     (split_at a (max a.d.length b.d.length / 2)).2.d.length
       ≤ max a.d.length b.d.length / 2 + 1 ∧
     (split_at b (max a.d.length b.d.length / 2)).2.d.length
       ≤ max a.d.length b.d.length / 2 + 1 ∧
     (add_abs (split_at a (max a.d.length b.d.length / 2)).1
         (split_at a (max a.d.length b.d.length / 2)).2).d.length
       ≤ max a.d.length b.d.length / 2 + 2 ∧
     (add_abs (split_at b (max a.d.length b.d.length / 2)).1
         (split_at b (max a.d.length b.d.length / 2)).2).d.length
       ≤ max a.d.length b.d.length / 2 + 2) ∧
    ∃ z0 z2 z1,
      mul_karatsuba_abs_fuel (max a.d.length b.d.length)
        (split_at a (max a.d.length b.d.length / 2)).1
        (split_at b (max a.d.length b.d.length / 2)).1 = .ok z0 ∧
      mul_karatsuba_abs_fuel (max a.d.length b.d.length)
        (split_at a (max a.d.length b.d.length / 2)).2
        (split_at b (max a.d.length b.d.length / 2)).2 = .ok z2 ∧
      mul_karatsuba_abs_fuel (max a.d.length b.d.length)
        (add_abs (split_at a (max a.d.length b.d.length / 2)).1
          (split_at a (max a.d.length b.d.length / 2)).2)
        (add_abs (split_at b (max a.d.length b.d.length / 2)).1
          (split_at b (max a.d.length b.d.length / 2)).2) = .ok z1 ∧
      mul_karatsuba_abs a b
        = .ok (BigInt.trim
            { d := (add_abs (shift_base_abs z2 (2 * (max a.d.length b.d.length / 2)))
                (add_abs (shift_base_abs (sub_abs (sub_abs z1 z0) z2)
                  (max a.d.length b.d.length / 2)) z0)).d,
              neg := false }) := by
  refine ⟨karatsuba_operand_lengths ha hb, ?_⟩
  obtain ⟨z0, z2, z1, e0, e2, e1, e, -⟩ :=
    mul_karatsuba_abs_fuel_unfold (max a.d.length b.d.length) ha hb hn hm (le_refl _)
  exact ⟨z0, z2, z1, e0, e2, e1, e⟩

/-- C32 (amended) at `a` of 33 blocks `999999999` and `b` of 32 blocks `1`: the
sum of the parts of `a` has at most `16 + 2` blocks. -/
theorem C32_karatsuba_operand_lengths_witness :
    CanonMag (BigInt.mk (List.replicate 33 999999999) false).d ∧
    CanonMag (BigInt.mk (List.replicate 32 1) false).d ∧
    (add_abs
        (split_at ⟨List.replicate 33 999999999, false⟩
          (max (BigInt.mk (List.replicate 33 999999999) false).d.length
            (BigInt.mk (List.replicate 32 1) false).d.length / 2)).1
        (split_at ⟨List.replicate 33 999999999, false⟩
          (max (BigInt.mk (List.replicate 33 999999999) false).d.length
            (BigInt.mk (List.replicate 32 1) false).d.length / 2)).2).d.length
      ≤ max (BigInt.mk (List.replicate 33 999999999) false).d.length
          (BigInt.mk (List.replicate 32 1) false).d.length / 2 + 2 :=
  ⟨by decide, by decide,
    (C32_karatsuba_operand_lengths ⟨List.replicate 33 999999999, false⟩
      ⟨List.replicate 32 1, false⟩ (by decide) (by decide) (by decide) (by decide)).1.2.2.2.2.1⟩

/-- C33: `mul_karatsuba_abs` returns on every pair of canonical magnitudes, and a
larger bound on the recursion depth gives the same result.  When it recurses
(both block lengths at least 32), the larger block length of the two operands of
each of the three recursive calls is below `max n m`. -/
theorem C33_karatsuba_terminates (a b : BigInt) (ha : CanonMag a.d) (hb : CanonMag b.d) :
    (∃ r, mul_karatsuba_abs a b = .ok r) ∧
    (∀ fuel, max a.d.length b.d.length < fuel →
      mul_karatsuba_abs_fuel fuel a b = mul_karatsuba_abs a b) ∧
    (KARATSUBA_THRESHOLD ≤ a.d.length → KARATSUBA_THRESHOLD ≤ b.d.length →
      max (split_at a (max a.d.length b.d.length / 2)).1.d.length
          (split_at b (max a.d.length b.d.length / 2)).1.d.length
        < max a.d.length b.d.length ∧
      max (split_at a (max a.d.length b.d.length / 2)).2.d.length
          (split_at b (max a.d.length b.d.length / 2)).2.d.length
        < max a.d.length b.d.length ∧
      max (add_abs (split_at a (max a.d.length b.d.length / 2)).1
            (split_at a (max a.d.length b.d.length / 2)).2).d.length
          (add_abs (split_at b (max a.d.length b.d.length / 2)).1
            (split_at b (max a.d.length b.d.length / 2)).2).d.length
        < max a.d.length b.d.length) := by
  obtain ⟨r, hr, hc, hv, hn⟩ := mul_karatsuba_abs_spec ha hb
  refine ⟨⟨r, hr⟩, ?_, ?_⟩
  · intro fuel hf
    obtain ⟨r2, hr2, hc2, hv2, hn2⟩ := mul_karatsuba_abs_fuel_spec fuel a b ha hb hf
    rw [hr, hr2]
    have hd : r2.d = r.d := CanonMag_ext hc2 hc (by rw [hv2, hv])
    cases r
    cases r2
    simp only at hd hn hn2
    rw [hd, hn, hn2]
  · intro h1 h2
    simp only [KARATSUBA_THRESHOLD] at h1 h2
    obtain ⟨l1, l2, l3, l4, l5, l6⟩ := karatsuba_operand_lengths ha hb
    have hk : 32 ≤ max a.d.length b.d.length := le_trans h1 (le_max_left _ _)
    generalize max a.d.length b.d.length = k at *
    refine ⟨?_, ?_, ?_⟩ <;> rw [max_lt_iff] <;> constructor <;> omega

/-- C33 at `a` of 33 blocks `999999999` and `b` of 32 blocks `1`. -/
theorem C33_karatsuba_terminates_witness :
    CanonMag (BigInt.mk (List.replicate 33 999999999) false).d ∧
    CanonMag (BigInt.mk (List.replicate 32 1) false).d ∧
    ∃ r, mul_karatsuba_abs ⟨List.replicate 33 999999999, false⟩ ⟨List.replicate 32 1, false⟩
      = .ok r :=
  ⟨by decide, by decide,
    (C33_karatsuba_terminates ⟨List.replicate 33 999999999, false⟩
      ⟨List.replicate 32 1, false⟩ (by decide) (by decide)).1⟩

/-- C34: for a canonical magnitude `a` and every `k`, the parts `low` and `high` of
`split_at(a, k)` are canonical with the sign flag not set, `low` has at most `k`
blocks, `value(a) = value(low) + value(high) * 10^(9k)`, and `high` is zero (and
`low` is `a`) when `a` has at most `k` blocks. -/
theorem C34_split_at (a : BigInt) (k : Nat) (ha : CanonMag a.d) :
    Canonical (split_at a k).1 ∧ Canonical (split_at a k).2 ∧
    (split_at a k).1.neg = false ∧ (split_at a k).2.neg = false ∧
    (split_at a k).1.d.length ≤ k ∧
    val a.d = val (split_at a k).1.d + val (split_at a k).2.d * 10 ^ (9 * k) ∧
    ((val a.d : Nat) : Int)
      = value (split_at a k).1 + value (split_at a k).2 * 10 ^ (9 * k) ∧
    (a.d.length ≤ k → (split_at a k).2 = BigInt.zero ∧ (split_at a k).1.d = a.d) := by
  obtain ⟨h1, h2, h3, h4, -, -, h7, h8⟩ := split_at_spec ha k
  have hv : val a.d = val (split_at a k).1.d + val (split_at a k).2.d * 10 ^ (9 * k) := by
    rw [h3, BASE_pow_eq, Nat.mul_comm]
  refine ⟨Canonical_of_CanonMag h1 h7, Canonical_of_CanonMag h2 h8, h7, h8, h4, hv, ?_, ?_⟩
  · rw [value_of_not_neg h7, value_of_not_neg h8, hv]
    push_cast
    rfl
  · intro hle
    obtain ⟨e1, e2⟩ := split_at_high_of_le a k hle
    rw [e1, e2]
    exact ⟨rfl, rfl⟩

/-- C34 at `a = 7000000000000000005` (blocks `5, 0, 7`) and `k = 1`: the low part
is `5`, the high part `7000000000`. -/
theorem C34_split_at_witness :
    CanonMag (BigInt.mk [5, 0, 7] false).d ∧
    val (BigInt.mk [5, 0, 7] false).d
      = val (split_at ⟨[5, 0, 7], false⟩ 1).1.d
        + val (split_at ⟨[5, 0, 7], false⟩ 1).2.d * 10 ^ (9 * 1) :=
  ⟨by decide, (C34_split_at ⟨[5, 0, 7], false⟩ 1 (by decide)).2.2.2.2.2.1⟩

/-- C35: in `mul_abs` on blocks below `10^9`, every iteration of the inner loop and
of the trailing carry loop reads and writes an index below `len(a) + len(b)`, its
sum `cur` is below `2^64` as an integer, and the carry it leaves is below `10^9`;
the inner loop runs for every pair of blocks; the function returns a block
sequence with blocks below `10^9`, trimmed, of value `value(a) * value(b)`. -/
theorem C35_mul_abs_no_overflow (a b : BigInt) (ha : Blocks a.d) (hb : Blocks b.d) :
    (∀ e ∈ mul_abs_trace a b,
      e.1 < a.d.length + b.d.length ∧ e.2.1 < U64 ∧ e.2.2 < BASE) ∧
    a.d.length * b.d.length ≤ (mul_abs_trace a b).length ∧
    ∃ r, mul_abs a b = .ok r ∧ Blocks r.d ∧ Trimmed r.d ∧ val r.d = val a.d * val b.d := by
  obtain ⟨r, hr, hc, hv, -⟩ := mul_abs_spec ha hb
  exact ⟨mul_abs_trace_spec ha hb, le_length_mul_abs_trace ha hb, r, hr, hc.1, hc.2, hv⟩

/-- C35 at `a = b = 999999999999999999` (two blocks `999999999` each), the largest
sums two blocks can give. -/
theorem C35_mul_abs_no_overflow_witness :
    Blocks (BigInt.mk [999999999, 999999999] false).d ∧
    (∀ e ∈ mul_abs_trace ⟨[999999999, 999999999], false⟩ ⟨[999999999, 999999999], false⟩,
      e.1 < (BigInt.mk [999999999, 999999999] false).d.length
          + (BigInt.mk [999999999, 999999999] false).d.length ∧
      e.2.1 < U64 ∧ e.2.2 < BASE) :=
  ⟨by decide,
    (C35_mul_abs_no_overflow ⟨[999999999, 999999999], false⟩ ⟨[999999999, 999999999], false⟩
      (by decide) (by decide)).1⟩

/-- C36 fails on the code at `a = -5`: `BigInt(0)` is the empty block sequence,
`a + BigInt(0)` is `+5`, and `a + BigInt(0) == a` is false; `BigInt(0) + a == a`
holds. -/
theorem C36_add_zero_loses_sign_at_minus5 :
    BigInt.ofLongLong 0 = .ok ⟨[], false⟩ ∧ Canonical ⟨[5], true⟩ ∧
    op_add ⟨[5], true⟩ ⟨[], false⟩ = ⟨[5], false⟩ ∧
    op_eq (op_add ⟨[5], true⟩ ⟨[], false⟩) ⟨[5], true⟩ = false ∧
    op_eq (op_add ⟨[], false⟩ ⟨[5], true⟩) ⟨[5], true⟩ = true := by
  refine ⟨rfl, by decide, by decide, by decide, by decide⟩

/-- C37: in the loop of `div_mod` with a non-zero canonical divisor `b`, a block
step that starts with a remainder `r < b` has `r * 10^9 + next block < b * 10^9`, so
the search finds the quotient digit `(r * 10^9 + next block) / b`, which is below
`10^9`; the subtraction of `b * digit` by `sub_inplace` returns true, and the
remainder the step leaves is again below `b`.  The loop continues from that
remainder, and whatever number of steps is run, the remainder stays below `b`. -/
theorem C37_div_mod_remainder_invariant (a b q r : List Nat) (i : Nat) (ha : Blocks a)
    (hb : CanonMag b) (hbpos : 0 < val b) (hr : CanonMag r) (hlt : val r < val b) :
    (val (trim_vec ((0 :: r).set 0 (a.getD i 0))) = val r * BASE + a.getD i 0 ∧
     val (trim_vec ((0 :: r).set 0 (a.getD i 0))) < val b * BASE ∧
     div_mod_search b (trim_vec ((0 :: r).set 0 (a.getD i 0))) BASE 0 (BASE - 1) 0
       = val (trim_vec ((0 :: r).set 0 (a.getD i 0))) / val b ∧
     div_mod_search b (trim_vec ((0 :: r).set 0 (a.getD i 0))) BASE 0 (BASE - 1) 0 < BASE ∧
     (sub_inplace (trim_vec ((0 :: r).set 0 (a.getD i 0)))
       (div_mod_prod b
         (div_mod_search b (trim_vec ((0 :: r).set 0 (a.getD i 0))) BASE 0 (BASE - 1) 0))).1
       = true) ∧
    (∃ r2, div_mod_loop a b (i + 1) q r
        = div_mod_loop a b i
            (q.set i (div_mod_search b (trim_vec ((0 :: r).set 0 (a.getD i 0))) BASE 0
              (BASE - 1) 0)) r2 ∧
      CanonMag r2 ∧ val r2 < val b ∧
      val r2 = val (trim_vec ((0 :: r).set 0 (a.getD i 0))) % val b) ∧
    (∀ (j : Nat) (q0 : List Nat), val (div_mod_loop a b j q0 r).2 < val b) ∧
    (∀ (j : Nat) (q0 : List Nat), val (div_mod_loop a b j q0 []).2 < val b) := by
  obtain ⟨h1, h2, h3, h4, h5, h6, h7, h8⟩ :=
    div_mod_step_spec (getD_lt_of_Blocks ha i) hb hbpos hr hlt
  refine ⟨⟨h1, h2, h3, h4, h5⟩, ⟨_, div_mod_loop_succ a b i q r, h6, h8, h7⟩, ?_, ?_⟩
  · intro j q0
    exact (div_mod_loop_remainder ha hb hbpos j q0 r hr hlt).2
  · intro j q0
    exact (div_mod_loop_remainder ha hb hbpos j q0 [] CanonMag_nil
      (by rw [val_nil]; exact hbpos)).2

/-- C37 at the dividend blocks `5, 3`, the divisor `7` and the remainder `3` left
by the first step. -/
theorem C37_div_mod_remainder_invariant_witness :
    Blocks [5, 3] ∧ CanonMag [7] ∧ 0 < val [7] ∧ CanonMag [3] ∧ val [3] < val [7] ∧
    (sub_inplace (trim_vec ((0 :: [3]).set 0 ([5, 3].getD 0 0)))
       (div_mod_prod [7]
         (div_mod_search [7] (trim_vec ((0 :: [3]).set 0 ([5, 3].getD 0 0))) BASE 0
           (BASE - 1) 0))).1 = true :=
  ⟨by decide, by decide, by decide, by decide, by decide,
    (C37_div_mod_remainder_invariant [5, 3] [7] [0, 0] [3] 0 (by decide) (by decide)
      (by decide) (by decide) (by decide)).1.2.2.2.2⟩

/-- C38: in `mul_karatsuba_abs` on canonical magnitudes of block lengths at least
32, the three recursive calls return `z0`, `z2` and `z1`, with
`value(z0) ≤ value(z1)` and `value(z2) ≤ value(z1) - value(z0)`; both calls of
`sub_abs` are on operands in the right order, the borrow that leaves their loops
is zero, and they return `z1 - z0` and `z1 - z0 - z2`. -/
theorem C38_karatsuba_sub_precondition (a b : BigInt) (ha : CanonMag a.d) (hb : CanonMag b.d)
    (hn : KARATSUBA_THRESHOLD ≤ a.d.length) (hm : KARATSUBA_THRESHOLD ≤ b.d.length) :
    ∃ z0 z2 z1,
      mul_karatsuba_abs_fuel (max a.d.length b.d.length)
        (split_at a (max a.d.length b.d.length / 2)).1
        (split_at b (max a.d.length b.d.length / 2)).1 = .ok z0 ∧
      mul_karatsuba_abs_fuel (max a.d.length b.d.length)
        (split_at a (max a.d.length b.d.length / 2)).2
        (split_at b (max a.d.length b.d.length / 2)).2 = .ok z2 ∧
      mul_karatsuba_abs_fuel (max a.d.length b.d.length)
        (add_abs (split_at a (max a.d.length b.d.length / 2)).1
          (split_at a (max a.d.length b.d.length / 2)).2)
        (add_abs (split_at b (max a.d.length b.d.length / 2)).1
          (split_at b (max a.d.length b.d.length / 2)).2) = .ok z1 ∧
      val z0.d ≤ val z1.d ∧ val z2.d ≤ val z1.d - val z0.d ∧
      val z2.d ≤ val (sub_abs z1 z0).d ∧
      (sub_abs_loop z1.d z0.d z1.d.length 0 0 (List.replicate z1.d.length 0)).2 = 0 ∧
      (sub_abs_loop (sub_abs z1 z0).d z2.d (sub_abs z1 z0).d.length 0 0
        (List.replicate (sub_abs z1 z0).d.length 0)).2 = 0 ∧
      val (sub_abs z1 z0).d = val z1.d - val z0.d ∧
      val (sub_abs (sub_abs z1 z0) z2).d = val z1.d - val z0.d - val z2.d := by
  obtain ⟨z0, z2, z1, e0, e2, e1, -, ⟨c0, v0⟩, ⟨c2, v2⟩, ⟨c1, v1⟩⟩ :=
    mul_karatsuba_abs_fuel_unfold (max a.d.length b.d.length) ha hb hn hm (le_refl _)
  have hord := @karatsuba_sub_order
    (val (split_at a (max a.d.length b.d.length / 2)).1.d)
    (val (split_at a (max a.d.length b.d.length / 2)).2.d)
    (val (split_at b (max a.d.length b.d.length / 2)).1.d)
    (val (split_at b (max a.d.length b.d.length / 2)).2.d)
  rw [← v0, ← v2, ← v1] at hord
  obtain ⟨h10, h12⟩ := hord
  obtain ⟨ca, va, -⟩ := sub_abs_spec (a := z1) (b := z0) c1.1 c0 h10
  have h12b : val z2.d ≤ val (sub_abs z1 z0).d := by omega
  obtain ⟨cb, vb, -⟩ := sub_abs_spec (a := sub_abs z1 z0) (b := z2) ca.1 c2 h12b
  exact ⟨z0, z2, z1, e0, e2, e1, h10, h12, h12b, sub_abs_borrow_zero c1.1 c0 h10,
    sub_abs_borrow_zero ca.1 c2 h12b, by omega, by omega⟩

/-- C38 at `a` of 33 blocks `999999999` and `b` of 32 blocks `1` (so `half = 16`
and the recursive calls run with the depth bound 33). -/
theorem C38_karatsuba_sub_precondition_witness :
    CanonMag (BigInt.mk (List.replicate 33 999999999) false).d ∧
    CanonMag (BigInt.mk (List.replicate 32 1) false).d ∧
    KARATSUBA_THRESHOLD ≤ (BigInt.mk (List.replicate 33 999999999) false).d.length ∧
    KARATSUBA_THRESHOLD ≤ (BigInt.mk (List.replicate 32 1) false).d.length ∧
    ∃ z0 z2 z1 : BigInt,
      mul_karatsuba_abs_fuel 33 (split_at ⟨List.replicate 33 999999999, false⟩ 16).1
        (split_at ⟨List.replicate 32 1, false⟩ 16).1 = .ok z0 ∧
      mul_karatsuba_abs_fuel 33 (split_at ⟨List.replicate 33 999999999, false⟩ 16).2
        (split_at ⟨List.replicate 32 1, false⟩ 16).2 = .ok z2 ∧
      mul_karatsuba_abs_fuel 33
        (add_abs (split_at ⟨List.replicate 33 999999999, false⟩ 16).1
          (split_at ⟨List.replicate 33 999999999, false⟩ 16).2)
        (add_abs (split_at ⟨List.replicate 32 1, false⟩ 16).1
          (split_at ⟨List.replicate 32 1, false⟩ 16).2) = .ok z1 ∧
      val z0.d ≤ val z1.d ∧ val z2.d ≤ val z1.d - val z0.d :=
  ⟨by decide, by decide, by decide, by decide,
    match C38_karatsuba_sub_precondition ⟨List.replicate 33 999999999, false⟩
      ⟨List.replicate 32 1, false⟩ (by decide) (by decide) (by decide) (by decide) with
    | ⟨z0, z2, z1, e0, e2, e1, h1, h2, _⟩ => ⟨z0, z2, z1, e0, e2, e1, h1, h2⟩⟩

/-- C39: for `s` the text `0`, or an optional `-` followed by a non-empty digit
run whose first digit is not `0`, `to_string(from_string(s))` is `s`. -/
theorem C39_to_string_from_string (s : List Char)
    (h : s = ['0'] ∨ ∃ sgn D, s = sgn ++ D ∧ (sgn = [] ∨ sgn = ['-']) ∧ D ≠ [] ∧
      (∀ c ∈ D, isdigit c = true) ∧ D.head? ≠ some '0') :
    to_string (from_string s) = s := by
  rcases h with h | ⟨sgn, D, hs, hsgn, hne, hD, h0⟩
  · rw [h]
    decide
  · rw [hs]
    exact to_string_from_string_numeral sgn D hsgn hne hD h0

/-- C39 at `s = "-1000000000"`. -/
theorem C39_to_string_from_string_witness :
    to_string (from_string ['-', '1', '0', '0', '0', '0', '0', '0', '0', '0', '0'])
      = ['-', '1', '0', '0', '0', '0', '0', '0', '0', '0', '0'] :=
  C39_to_string_from_string ['-', '1', '0', '0', '0', '0', '0', '0', '0', '0', '0']
    (Or.inr ⟨['-'], ['1', '0', '0', '0', '0', '0', '0', '0', '0', '0'], rfl, Or.inr rfl,
      by decide, by decide, by decide⟩)

/-- C40: when `x /= y` fails with `std::domain_error`, the divisor `y` is zero and
the receiver is left as it was, with the same sign flag and the same block
sequence. -/
theorem C40_div_failure_atomic (x y : BigInt)
    (h : (op_div_assign_step x y).1 = some Error.domain_error) :
    y.d = [] ∧ (op_div_assign_step x y).2 = x ∧
    (op_div_assign_step x y).2.neg = x.neg ∧ (op_div_assign_step x y).2.d = x.d ∧
    op_div_assign x y = .error .domain_error := by
  obtain ⟨h1, h2, -, -⟩ := op_div_assign_step_spec x y
  obtain ⟨g1, g2⟩ := h2 _ h
  rw [g1]
  exact ⟨h1.1 h, rfl, rfl, rfl, g2⟩

/-- C40 at `x = -5000000007` (blocks `7, 5`) and `y = 0`. -/
theorem C40_div_failure_atomic_witness :
    (op_div_assign_step ⟨[7, 5], true⟩ ⟨[], false⟩).1 = some Error.domain_error ∧
    (op_div_assign_step ⟨[7, 5], true⟩ ⟨[], false⟩).2 = ⟨[7, 5], true⟩ :=
  ⟨by decide, (C40_div_failure_atomic ⟨[7, 5], true⟩ ⟨[], false⟩ (by decide)).2.1⟩

end core
